import Mathlib

/-!
Verification of the locale-file translation engine in
`src/streamingTranslationManager.ts` (class `StreamingTranslationManager`).

The TypeScript code manipulates JSON-like values (`any`).  We embed the JSON
value domain as the mutual inductive family `JVal` / `JArr` / `JFields`:
an object is an insertion-ordered association list of key/value pairs, which
is exactly the observable behaviour of a JavaScript object holding JSON data
(unique keys, `for…in` iterates in insertion order, assigning to an existing
key keeps its position, assigning a fresh key appends).

JavaScript-semantics conventions used throughout, documented once here:
* Objects are modelled with own-property semantics (the data handled by the
  program comes from `JSON.parse`, and none of the code relies on prototype
  members), so `k in o` is own-key membership.
* Numbers are modelled by the integer fragment (`Int`); the program never
  does arithmetic on leaf values.
* String lengths are counted in characters; the translated code computes
  `.length` only of JSON text it built itself.
* The TypeScript compiler emits `"use strict"` for ES modules, so an
  assignment to a property of a primitive throws a `TypeError` (modelled as
  `JsErr.typeError`); `k in prim` and member access on `null` throw
  unconditionally.
* The source never attaches named properties to arrays; walking *into* an
  array inside `setNestedProperty` / `deleteNestedProperty` would do so, and
  is modelled by the explicit marker `JsErr.unmodeledArray`.  No theorem
  below depends on that branch.
-/

mutual
inductive JVal where
  | str (s : String)
  | num (n : Int)
  | bool (b : Bool)
  | null
  | arr (elems : JArr)
  | obj (fields : JFields)
  deriving DecidableEq, Repr

inductive JArr where
  | nil
  | cons (head : JVal) (tail : JArr)
  deriving DecidableEq, Repr

inductive JFields where
  | nil
  | cons (key : String) (val : JVal) (tail : JFields)
  deriving DecidableEq, Repr
end

/-- Errors surfaced by the embedded JavaScript operations. -/
inductive JsErr where
  /-- A genuine JavaScript `TypeError`: `k in prim`, member access on `null`,
  or a strict-mode write to a property of a primitive. -/
  | typeError
  /-- The operation would attach a named property to an array object, which
  the embedding's arrays cannot carry.  Never produced on inputs free of
  arrays along the walked path; no theorem depends on this branch. -/
  | unmodeledArray
  /-- The dedicated structural-conflict error postulated by the spec
  (`ConflictingPathError`).  No code in the repository defines or raises such
  an error; the constructor exists so that the spec's claim about it can be
  stated and refuted. -/
  | conflictingPath
  deriving DecidableEq, Repr

/-- First-match lookup, `o[k]` for an object. -/
def JFields.getv : JFields → String → Option JVal
  | .nil, _ => none
  | .cons k v rest, key => if k = key then some v else JFields.getv rest key

/-- `o[k] = v` on a JavaScript object: updates the value in place when the
key exists, appends otherwise. -/
def JFields.insertKV : JFields → String → JVal → JFields
  | .nil, key, val => .cons key val .nil
  | .cons k v rest, key, val =>
    if k = key then .cons k val rest else .cons k v (JFields.insertKV rest key val)

/-- `delete o[k]`: removes the key's entry (keys are unique in a JS object). -/
def JFields.eraseKV : JFields → String → JFields
  | .nil, _ => .nil
  | .cons k v rest, key => if k = key then rest else .cons k v (JFields.eraseKV rest key)

def JFields.toList : JFields → List (String × JVal)
  | .nil => []
  | .cons k v rest => (k, v) :: rest.toList

def JFields.ofList : List (String × JVal) → JFields
  | [] => .nil
  | (k, v) :: rest => .cons k v (JFields.ofList rest)

def JFields.append : JFields → JFields → JFields
  | .nil, gs => gs
  | .cons k v rest, gs => .cons k v (rest.append gs)

def JFields.keys (fs : JFields) : List String := fs.toList.map Prod.fst

/-- `Object.assign(target, src)`: assigns every key of `src` in order. -/
def JFields.assignAll : JFields → JFields → JFields
  | t, .nil => t
  | t, .cons k v rest => JFields.assignAll (t.insertKV k v) rest

def JArr.toList : JArr → List JVal
  | .nil => []
  | .cons v rest => v :: rest.toList

def JArr.length : JArr → Nat
  | .nil => 0
  | .cons _ rest => rest.length + 1

/-- `typeof v === 'object' && v !== null && !Array.isArray(v)` — the guard
used by the flattener before recursing. -/
def JVal.isPlainObj : JVal → Bool
  | .obj _ => true
  | _ => false

/-- `typeof v === 'object'` — true also for `null` and arrays. -/
def JVal.isObjTypeof : JVal → Bool
  | .obj _ | .arr _ | .null => true
  | _ => false

/-- `typeof v === 'object' && v !== null` — true for objects and arrays. -/
def JVal.isObjNonNull : JVal → Bool
  | .obj _ | .arr _ => true
  | _ => false

/-- JavaScript truthiness of a JSON value. -/
def jsTruthy : JVal → Bool
  | .obj _ => true
  | .arr _ => true
  | .null => false
  | .str s => s != ""
  | .num n => n != 0
  | .bool b => b

/-- Canonical array-index strings: `"0"`, `"1"`, … (the only string keys a
JS array answers for besides `"length"`). -/
def canonIndex? (s : String) : Option Nat :=
  match s.toNat? with
  | some n => if Nat.repr n = s then some n else none
  | none => none

/-- Member access `v[k]`; `none` models `undefined`.  Primitive receivers are
boxed (string indices and `length` answer), `null` receivers are handled at
call sites that can reach them. -/
def jsGet : JVal → String → Option JVal
  | .obj fs, k => fs.getv k
  | .arr xs, k =>
    if k = "length" then some (.num xs.length)
    else match canonIndex? k with
      | some i => xs.toList.get? i
      | none => none
  | .str s, k =>
    if k = "length" then some (.num s.data.length)
    else match canonIndex? k with
      | some i => (s.data.get? i).map (fun c => .str (String.mk [c]))
      | none => none
  | _, _ => none

/-- The `in` operator; throws `TypeError` when the right operand is `null`
or a primitive. -/
def jsIn (key : String) : JVal → Except JsErr Bool
  | .obj fs => .ok (fs.getv key).isSome
  | .arr xs => .ok (key = "length" ||
      (match canonIndex? key with
       | some i => decide (i < xs.length)
       | none => false))
  | _ => .error .typeError

/-- `v.hasOwnProperty(key)`: primitives are boxed (no throw), `null` throws. -/
def jsHasOwn (v : JVal) (key : String) : Except JsErr Bool :=
  match v with
  | .obj fs => .ok (fs.getv key).isSome
  | .arr xs => .ok (key = "length" ||
      (match canonIndex? key with
       | some i => decide (i < xs.length)
       | none => false))
  | .str s => .ok (key = "length" ||
      (match canonIndex? key with
       | some i => decide (i < s.data.length)
       | none => false))
  | .null => .error .typeError
  | _ => .ok false

/-- Index/value pairs of a string's characters, for `for…in` over a boxed
string primitive. -/
def strIndexPairs (cs : List Char) (i : Nat) : List (String × JVal) :=
  match cs with
  | [] => []
  | c :: rest => (Nat.repr i, .str (String.mk [c])) :: strIndexPairs rest (i + 1)

/-- Index/value pairs of an array, for `for…in`. -/
def arrIndexPairs (xs : JArr) (i : Nat) : List (String × JVal) :=
  match xs with
  | .nil => []
  | .cons v rest => (Nat.repr i, v) :: arrIndexPairs rest (i + 1)

/-- `for (const key in v)` enumeration: own enumerable keys in insertion
order for objects, index keys for arrays and boxed strings, nothing for the
other primitives and `null`. -/
def jsForIn : JVal → List (String × JVal)
  | .obj fs => fs.toList
  | .arr xs => arrIndexPairs xs 0
  | .str s => strIndexPairs s.data 0
  | _ => []

/-- JavaScript `path.split('.')` at the character level: splits at every `.`
and keeps empty pieces; the result is never empty (`"".split('.')` is
`[""]`). -/
def splitDotsAux : List Char → List Char → List String
  | [], acc => [String.mk acc]
  | c :: rest, acc =>
    if c = '.' then String.mk acc :: splitDotsAux rest []
    else splitDotsAux rest (acc ++ [c])

def jsSplitDot (s : String) : List String := splitDotsAux s.data []

/-- Dot-joining of segments (the inverse direction of `jsSplitDot` on clean
segments); used only to state theorems, not by the embedded code. -/
def joinDots : List String → String
  | [] => ""
  | [x] => x
  | x :: xs => x ++ "." ++ joinDots xs

/-- `s.startsWith(pre)`. -/
def jsStartsWith (s pre : String) : Bool := pre.data.isPrefixOf s.data

/-! ## TreeCodec: `flattenNestedContent` / `unflattenContent`
(src/streamingTranslationManager.ts lines 913-931 and 936-957). -/

/-- Body of `flattenNestedContent` for an object's field list: for each key
in order, recurse when the value passes the
`typeof value === 'object' && value !== null && !Array.isArray(value)` guard
(merging the sub-result with `Object.assign`), otherwise emit the full key.
Merging a freshly built sub-result entry by entry with `Object.assign` is
the fold of `insertKV`. -/
def flattenFields : JFields → String → JFields → JFields
  | .nil, _, acc => acc
  | .cons key value rest, pre, acc =>
    let fullKey := if pre = "" then key else pre ++ "." ++ key
    match value with
    | .obj gs => flattenFields rest pre (acc.assignAll (flattenFields gs fullKey .nil))
    | v => flattenFields rest pre (acc.insertKV fullKey v)

/-- `for…in` over a top-level array argument: index keys; plain-object
elements are recursed into, everything else (including nested arrays) is
emitted whole. -/
def flattenArrTop : JArr → Nat → String → JFields → JFields
  | .nil, _, _, acc => acc
  | .cons value rest, i, pre, acc =>
    let key := Nat.repr i
    let fullKey := if pre = "" then key else pre ++ "." ++ key
    match value with
    | .obj gs => flattenArrTop rest (i + 1) pre (acc.assignAll (flattenFields gs fullKey .nil))
    | v => flattenArrTop rest (i + 1) pre (acc.insertKV fullKey v)

/-- `for…in` over a boxed string primitive: single-character values, never
plain objects, so each is emitted directly. -/
def flattenStrTop : List Char → Nat → String → JFields → JFields
  | [], _, _, acc => acc
  | c :: rest, i, pre, acc =>
    let key := Nat.repr i
    let fullKey := if pre = "" then key else pre ++ "." ++ key
    flattenStrTop rest (i + 1) pre (acc.insertKV fullKey (.str (String.mk [c])))

/-- Embeds `flattenNestedContent(nestedContent, prefix = '')`: depth-first
flattening of a nested tree into a flat object of dot-joined paths.  The
`prefix ? prefix + "." + key : key` ternary tests string truthiness, i.e.
`prefix ≠ ""`. -/
def flattenNestedContent (nestedContent : JVal) (pre : String) : JFields :=
  match nestedContent with
  | .obj fs => flattenFields fs pre .nil
  | .arr xs => flattenArrTop xs 0 pre .nil
  | .str s => flattenStrTop s.data 0 pre .nil
  | _ => .nil

/-- The shared walk of `unflattenContent` (lines 936-957) and
`setNestedProperty` (lines 1050-1060), whose loop bodies are identical:
descend the key segments, creating `{}` at absent keys
(`if (!(part in current)) current[part] = {};`), then assign the final
segment.  Walking into a primitive makes the JS `in` operator throw a
`TypeError`; the final assignment onto a primitive throws under strict
mode; both branches on arrays would attach a named property to an array
object (see `JsErr.unmodeledArray`). -/
def setPathSegs : JVal → String → List String → JVal → Except JsErr JVal
  | .obj fs, k, [], v => .ok (.obj (fs.insertKV k v))
  | .arr _, _, [], _ => .error .unmodeledArray
  | _, _, [], _ => .error .typeError
  | .obj fs, k, k' :: rest, v =>
    let child := match fs.getv k with
      | some c => c
      | none => .obj .nil
    (setPathSegs child k' rest v).map (fun c' => .obj (fs.insertKV k c'))
  | .arr _, _, _ :: _, _ => .error .unmodeledArray
  | _, _, _ :: _, _ => .error .typeError

/-- Embeds `setNestedProperty(obj, path, value)`. -/
def setNestedProperty (o : JVal) (path : String) (value : JVal) : Except JsErr JVal :=
  match jsSplitDot path with
  | k :: rest => setPathSegs o k rest value
  | [] => .error .typeError

/-- The walk of `deleteNestedProperty` (lines 1062-1072): missing
intermediate keys return early (`if (!(keys[i] in current)) return;`), the
final `delete current[last]` on a boxed primitive is a silent no-op, on
`null` it throws. -/
def delPathSegs : JVal → String → List String → Except JsErr JVal
  | .obj fs, k, [] => .ok (.obj (fs.eraseKV k))
  | .arr _, _, [] => .error .unmodeledArray
  | .null, _, [] => .error .typeError
  | t, _, [] => .ok t
  | .obj fs, k, k' :: rest =>
    (match fs.getv k with
     | none => .ok (.obj fs)
     | some c => (delPathSegs c k' rest).map (fun c' => .obj (fs.insertKV k c')))
  | .arr _, _, _ :: _ => .error .unmodeledArray
  | _, _, _ :: _ => .error .typeError

/-- Embeds `deleteNestedProperty(obj, path)`. -/
def deleteNestedProperty (o : JVal) (path : String) : Except JsErr JVal :=
  match jsSplitDot path with
  | k :: rest => delPathSegs o k rest
  | [] => .error .typeError

/-- Embeds `unflattenContent(flatContent)`: starting from `{}`, perform the
`setNestedProperty` walk for every flat entry in order. -/
def unflattenContent (flatContent : JFields) : Except JsErr JVal :=
  flatContent.toList.foldlM
    (fun nested kv =>
      match jsSplitDot kv.1 with
      | k :: rest => setPathSegs nested k rest kv.2
      | [] => .error .typeError)
    (.obj .nil)

/-! ## JSON serialization, `JSON.stringify(v, null, 2)`
Used by the chunker to measure serialized sizes. -/

def hexDigit (n : Nat) : Char :=
  if n < 10 then Char.ofNat (48 + n) else Char.ofNat (87 + n)

/-- JSON string escaping as performed by `JSON.stringify`. -/
def escJsonChar (c : Char) : List Char :=
  if c = '"' then ['\\', '"']
  else if c = '\\' then ['\\', '\\']
  else if c = '\n' then ['\\', 'n']
  else if c = '\r' then ['\\', 'r']
  else if c = '\t' then ['\\', 't']
  else if c = '\x08' then ['\\', 'b']
  else if c = '\x0c' then ['\\', 'f']
  else if c.toNat < 32 then
    ['\\', 'u', hexDigit (c.toNat / 4096 % 16), hexDigit (c.toNat / 256 % 16),
     hexDigit (c.toNat / 16 % 16), hexDigit (c.toNat % 16)]
  else [c]

def quoteJson (s : String) : String :=
  "\"" ++ String.mk (s.data.foldr (fun c acc => escJsonChar c ++ acc) []) ++ "\""

def spacesStr (n : Nat) : String := String.mk (List.replicate n ' ')

mutual
/-- `JSON.stringify(v, null, 2)` where `ind` is the current indentation
level (0 at the top).  Matches V8 output for JSON data: two-space indent,
`", "`-free multi-line layout, `[]`/`{}` for empty collections. -/
def jsonStringify : JVal → Nat → String
  | .str s, _ => quoteJson s
  | .num n, _ => toString n
  | .bool b, _ => if b then "true" else "false"
  | .null, _ => "null"
  | .arr .nil, _ => "[]"
  | .arr xs, ind => "[\n" ++ jsonArrItems xs (ind + 2) ++ "\n" ++ spacesStr ind ++ "]"
  | .obj .nil, _ => "\x7b\x7d"
  | .obj fs, ind => "\x7b\n" ++ jsonObjItems fs (ind + 2) ++ "\n" ++ spacesStr ind ++ "\x7d"

def jsonArrItems : JArr → Nat → String
  | .nil, _ => ""
  | .cons v .nil, ind => spacesStr ind ++ jsonStringify v ind
  | .cons v rest, ind =>
    spacesStr ind ++ jsonStringify v ind ++ ",\n" ++ jsonArrItems rest ind

def jsonObjItems : JFields → Nat → String
  | .nil, _ => ""
  | .cons k v .nil, ind => spacesStr ind ++ quoteJson k ++ ": " ++ jsonStringify v ind
  | .cons k v rest, ind =>
    spacesStr ind ++ quoteJson k ++ ": " ++ jsonStringify v ind ++ ",\n" ++ jsonObjItems rest ind
end

/-! ## Chunker: `splitIntoChunks` (lines 786-827). -/

/-- Loop of `splitIntoChunks`: greedy accumulation; an entry whose singleton
serialization would overflow a non-empty current chunk closes it and opens a
new one. -/
def splitChunksGo : JFields → List JFields → JFields → Nat → Nat → List JFields
  | .nil, chunks, currentChunk, _, _ =>
    if currentChunk = .nil then chunks else chunks ++ [currentChunk]
  | .cons key v rest, chunks, currentChunk, currentSize, chunkSize =>
    let keyValueSize := (jsonStringify (.obj (.cons key v .nil)) 0).length
    if currentSize + keyValueSize > chunkSize ∧ currentChunk ≠ .nil then
      splitChunksGo rest (chunks ++ [currentChunk]) (.cons key v .nil) keyValueSize chunkSize
    else
      splitChunksGo rest chunks (currentChunk.insertKV key v) (currentSize + keyValueSize) chunkSize

/-- Embeds `splitIntoChunks(obj, chunkSize)`: character-budgeted greedy
partition of a flat object, in key order. -/
def splitIntoChunks (o : JFields) (chunkSize : Nat) : List JFields :=
  splitChunksGo o [] .nil 0 chunkSize

/-! ## ChangeSetCalculator: `deepCompare` / `prepareTranslationContent`
(lines 851-887). -/

/-- Embeds `getNestedValue(obj, path)`:
`path.split('.').reduce((o, i) => o ? o[i] : undefined, obj)` — the
accumulator's truthiness is tested before each member access, `undefined`
propagates as `none`. -/
def getNestedValue (o : JVal) (path : String) : Option JVal :=
  (jsSplitDot path).foldl
    (fun acc i =>
      match acc with
      | some v => if jsTruthy v then jsGet v i else none
      | none => none)
    (some o)

/-- Write `result[k] = v` on the threaded result container (an object in
every reachable state; a primitive would make the strict-mode write throw). -/
def resInsert : JVal → String → JVal → Except JsErr JVal
  | .obj fs, k, v => .ok (.obj (fs.insertKV k v))
  | .arr _, _, _ => .error .unmodeledArray
  | _, _, _ => .error .typeError

/-- `delete result[k]` on the threaded result container. -/
def resDelete : JVal → String → Except JsErr JVal
  | .obj fs, k => .ok (.obj (fs.eraseKV k))
  | .arr _, _ => .error .unmodeledArray
  | .null, _ => .error .typeError
  | t, _ => .ok t

/-- `Object.keys(v).length` (indices for arrays and boxed strings, `0` for
the remaining primitives; `null` cannot reach this call). -/
def jsKeysLen : JVal → Nat
  | .obj fs => fs.toList.length
  | .arr xs => xs.length
  | .str s => s.data.length
  | _ => 0

/-- `original[key] || {}` — the argument fed to the recursive call; member
access on `null` throws, any falsy result is replaced by `{}`. -/
def jsGetOrEmpty (original : JVal) (key : String) : Except JsErr JVal :=
  match original with
  | .null => .error .typeError
  | v => .ok (match jsGet v key with
      | some w => if jsTruthy w then w else .obj .nil
      | none => .obj .nil)

/-- The leaf branch of `deepCompare`'s first loop:
`if (!(key in target) || target[key] === '' || (original &&
getNestedValue(original, newPath) !== base[key]) || (target[key] !==
base[key])) result[newPath] = base[key]`. -/
def leafCompareStep (key newPath : String) (bval target original result : JVal) :
    Except JsErr JVal := do
  let inT ← jsIn key target
  let tv := jsGet target key
  let includeIt :=
    !inT || (tv == some (.str "")) ||
    (jsTruthy original && (getNestedValue original newPath != some bval)) ||
    (tv != some bval)
  if includeIt then resInsert result newPath bval else pure result

/-- First loop of `deepCompare` when `base` is a primitive: `for…in` yields
only primitive (single-character) values, so every step is the leaf branch. -/
def deepCompareLeafList (pairs : List (String × JVal)) (target original result : JVal)
    (currentPath : String) : Except JsErr JVal :=
  pairs.foldlM
    (fun r kv =>
      leafCompareStep kv.1 (if currentPath = "" then kv.1 else currentPath ++ "." ++ kv.1)
        kv.2 target original r)
    result

/-- Second loop of `deepCompare`: every key of `target` absent from `base`
is marked with a `null` tombstone. -/
def deepCompareTargetLoop (base target result : JVal) (currentPath : String) :
    Except JsErr JVal :=
  (jsForIn target).foldlM
    (fun r kv => do
      let newPath := if currentPath = "" then kv.1 else currentPath ++ "." ++ kv.1
      let inB ← jsIn kv.1 base
      if inB then pure r else resInsert r newPath .null)
    result

mutual
/-- Embeds `deepCompare(base, target, original, result, currentPath)`
(lines 857-883): first loop over `base` (recursing into object/array values
that `target` also holds as objects, emitting others), then the deletion
loop over `target`.  The mutated `result` container is threaded
functionally. -/
def deepCompare (base target original result : JVal) (currentPath : String) :
    Except JsErr JVal :=
  match base with
  | .obj fs => do
    let r ← deepCompareFields fs target original result currentPath
    deepCompareTargetLoop (.obj fs) target r currentPath
  | .arr xs => do
    let r ← deepCompareArr xs 0 target original result currentPath
    deepCompareTargetLoop (.arr xs) target r currentPath
  | b => do
    let r ← deepCompareLeafList (jsForIn b) target original result currentPath
    deepCompareTargetLoop b target r currentPath
termination_by structural base

/-- First loop of `deepCompare` over an object's fields. -/
def deepCompareFields (fs : JFields) (target original result : JVal)
    (currentPath : String) : Except JsErr JVal :=
  match fs with
  | .nil => .ok result
  | .cons key bval rest => do
    let newPath := if currentPath = "" then key else currentPath ++ "." ++ key
    let r ←
      if bval.isObjNonNull then do
        let inT ← jsIn key target
        let tvIsObj :=
          match jsGet target key with
          | some t => t.isObjTypeof
          | none => false
        if !inT || !tvIsObj then resInsert result newPath bval
        else do
          let r1 ← do
            let inR ← jsIn newPath result
            if inR then pure result else resInsert result newPath (.obj .nil)
          match jsGet r1 newPath with
          | some sub => do
            let orig ← jsGetOrEmpty original key
            let tchild := (jsGet target key).getD .null
            let sub' ← deepCompare bval tchild orig sub newPath
            let r2 ← resInsert r1 newPath sub'
            if jsKeysLen sub' = 0 then resDelete r2 newPath else pure r2
          | none => .error .typeError
      else leafCompareStep key newPath bval target original result
    deepCompareFields rest target original r currentPath
termination_by structural fs

/-- First loop of `deepCompare` over an array (index keys). -/
def deepCompareArr (xs : JArr) (i : Nat) (target original result : JVal)
    (currentPath : String) : Except JsErr JVal :=
  match xs with
  | .nil => .ok result
  | .cons bval rest => do
    let key := Nat.repr i
    let newPath := if currentPath = "" then key else currentPath ++ "." ++ key
    let r ←
      if bval.isObjNonNull then do
        let inT ← jsIn key target
        let tvIsObj :=
          match jsGet target key with
          | some t => t.isObjTypeof
          | none => false
        if !inT || !tvIsObj then resInsert result newPath bval
        else do
          let r1 ← do
            let inR ← jsIn newPath result
            if inR then pure result else resInsert result newPath (.obj .nil)
          match jsGet r1 newPath with
          | some sub => do
            let orig ← jsGetOrEmpty original key
            let tchild := (jsGet target key).getD .null
            let sub' ← deepCompare bval tchild orig sub newPath
            let r2 ← resInsert r1 newPath sub'
            if jsKeysLen sub' = 0 then resDelete r2 newPath else pure r2
          | none => .error .typeError
      else leafCompareStep key newPath bval target original result
    deepCompareArr rest (i + 1) target original r currentPath
termination_by structural xs
end

/-- Embeds `prepareTranslationContent(baseContent, targetContent,
originalBaseContent)` (lines 851-855): `deepCompare` into a fresh result. -/
def prepareTranslationContent (baseContent targetContent originalBaseContent : JVal) :
    Except JsErr JVal :=
  deepCompare baseContent targetContent originalBaseContent (.obj .nil) ""

/-! ## AccumulatorState: `mergeContents` (lines 891-908). -/

/-- One iteration of `mergeContents`' loop: a `null` value deletes the path,
anything else sets it. -/
def applyFlatEntry (merged : JVal) (kv : String × JVal) : Except JsErr JVal :=
  if kv.2 = .null then deleteNestedProperty merged kv.1
  else setNestedProperty merged kv.1 kv.2

/-- Embeds `mergeContents(baseContent, targetContent, translatedContent)`:
deep-clone the base (`JSON.parse(JSON.stringify(base))`, the identity on
JSON values), flatten the translated content, and apply each flat entry in
order.  `targetContent` is accepted and ignored exactly as in the source. -/
def mergeContents (baseContent targetContent translatedContent : JVal) :
    Except JsErr JVal :=
  (flattenNestedContent translatedContent "").toList.foldlM applyFlatEntry baseContent

/-! ## ResponseNormalizer: `normalizeNestedKeys`,
`convertLLMResponseToOriginalStructureNew` (lines 990-1048). -/

mutual
/-- Embeds `normalizeNestedKeys(obj, rootKey)` (lines 1031-1048): strips one
leading `rootKey + "."` from every key (at every level) and recurses into
object/array values.  The source strips via
`key.replace(new RegExp("^" + rootKey + "\\."), "")` guarded by
`key.startsWith(rootKey + ".")`; under that guard the anchored pattern has
one fixed-width position per pattern character, so it removes exactly the
first `rootKey.length + 1` characters. -/
def normalizeNestedKeys (o : JVal) (rootKey : String) : JVal :=
  match o with
  | .obj fs => .obj (normalizeFieldsGo fs rootKey .nil)
  | .arr xs => .obj (normalizeArrGo xs 0 rootKey .nil)
  | v => v

/-- Loop of `normalizeNestedKeys` over an object's fields. -/
def normalizeFieldsGo : JFields → String → JFields → JFields
  | .nil, _, acc => acc
  | .cons key v rest, rootKey, acc =>
    let cleanKey :=
      if jsStartsWith key (rootKey ++ ".") then
        String.mk (key.data.drop (rootKey.data.length + 1))
      else key
    let nv :=
      match v with
      | .obj gs => JVal.obj (normalizeFieldsGo gs rootKey .nil)
      | .arr xs => JVal.obj (normalizeArrGo xs 0 rootKey .nil)
      | w => w
    normalizeFieldsGo rest rootKey (acc.insertKV cleanKey nv)

/-- Loop of `normalizeNestedKeys` over an array (index keys; the result of a
`for…in` rebuild is a plain object). -/
def normalizeArrGo : JArr → Nat → String → JFields → JFields
  | .nil, _, _, acc => acc
  | .cons v rest, i, rootKey, acc =>
    let key := Nat.repr i
    let cleanKey :=
      if jsStartsWith key (rootKey ++ ".") then
        String.mk (key.data.drop (rootKey.data.length + 1))
      else key
    let nv :=
      match v with
      | .obj gs => JVal.obj (normalizeFieldsGo gs rootKey .nil)
      | .arr xs => JVal.obj (normalizeArrGo xs 0 rootKey .nil)
      | w => w
    normalizeArrGo rest (i + 1) rootKey (acc.insertKV cleanKey nv)
end

/-- Pattern derived from an unescaped key interpolated into a `RegExp`:
every literal `.` in the key becomes a wildcard position. -/
def patOfKey (k : String) : List (Option Char) :=
  k.data.map (fun c => if c = '.' then none else some c)

/-- Match a fixed-width pattern at the head of the subject, returning the
remainder on success. -/
def matchPatAt : List (Option Char) → List Char → Option (List Char)
  | [], rest => some rest
  | _ :: _, [] => none
  | p :: ps, c :: cs =>
    match p with
    | none => matchPatAt ps cs
    | some pc => if pc = c then matchPatAt ps cs else none

/-- Left-to-right global (non-overlapping) replacement; the fuel is bounded
by the subject length, which suffices because the pattern is non-empty. -/
def replaceAllPatGo : Nat → List (Option Char) → List Char → List Char → List Char
  | 0, _, _, s => s
  | _ + 1, _, _, [] => []
  | fuel + 1, pat, repl, c :: cs =>
    match matchPatAt pat (c :: cs) with
    | some rest => repl ++ replaceAllPatGo fuel pat repl rest
    | none => c :: replaceAllPatGo fuel pat repl cs

/-- Embeds `key.replace(new RegExp(originalKey + "\\." + originalKey +
"\\.", "g"), originalKey + ".")` from the fallback branch: the interpolated
key is not regex-escaped, so its dots match any character. -/
def collapseDupRootKey (originalKey key : String) : String :=
  let pat := patOfKey originalKey ++ [some '.'] ++ patOfKey originalKey ++ [some '.']
  String.mk (replaceAllPatGo key.data.length pat (originalKey.data ++ ['.']) key.data)

/-- `Object.fromEntries(entries)`: define each property in order. -/
def JFields.ofAssigns (es : List (String × JVal)) : JFields :=
  es.foldl (fun acc e => acc.insertKV e.1 e.2) .nil

/-- Embeds `convertLLMResponseToOriginalStructureNew(llmResponse,
originalChunk)` (lines 990-1025): per requested top-level key, either
normalize the directly-present response value, or fall back to filtering
the flattened response for keys extending `originalKey + "."`, collapsing
doubled prefixes, re-nesting with `unflattenContent`, and normalizing
`rebuiltSubtree[originalKey] || rebuiltSubtree`; a key with no surviving
entries is skipped. -/
def convertLLMResponseToOriginalStructureNew (llmResponse originalChunk : JVal) :
    Except JsErr JVal :=
  (jsForIn originalChunk).foldlM
    (fun result kv => do
      let originalKey := kv.1
      let hasOwn ← jsHasOwn llmResponse originalKey
      if hasOwn then
        resInsert result originalKey
          (normalizeNestedKeys ((jsGet llmResponse originalKey).getD .null) originalKey)
      else
        let flattened := flattenNestedContent llmResponse ""
        let filteredEntries :=
          (flattened.toList.filter (fun e => jsStartsWith e.1 (originalKey ++ "."))).map
            (fun e => (collapseDupRootKey originalKey e.1, e.2))
        if filteredEntries.length > 0 then do
          let rebuiltSubtree ← unflattenContent (JFields.ofAssigns filteredEntries)
          let picked :=
            match jsGet rebuiltSubtree originalKey with
            | some w => if jsTruthy w then w else rebuiltSubtree
            | none => rebuiltSubtree
          resInsert result originalKey (normalizeNestedKeys picked originalKey)
        else pure result)
    (.obj .nil)

/-- Embeds the superseded `convertLLMResponseToOriginalStructure` (lines
962-985).  It exists in the source but is never called (the pipeline invokes
the `New` variant at line 322); kept because it documents the contrast
relevant to the normalizer claims: this version falls back to the
untranslated source text for unanswered keys. -/
def convertLLMResponseToOriginalStructure (llmResponse originalChunk : JVal) : JFields :=
  (jsForIn originalChunk).foldl
    (fun result kv =>
      match (flattenNestedContent llmResponse "").getv kv.1 with
      | some v => result.insertKV kv.1 v
      | none => result.insertKV kv.1 kv.2)
    .nil

/-! ## Predicates and proof-level helpers -/

deriving instance DecidableEq for Except

/-- Duplicate-free keys of one field list (the invariant of every genuine
JavaScript object). -/
def keysNodupB : JFields → Bool
  | .nil => true
  | .cons k _ rest => (rest.getv k).isNone && keysNodupB rest

mutual
/-- Hereditarily duplicate-free keys: what any value produced by
`JSON.parse` satisfies. -/
def uniqB : JVal → Bool
  | .obj fs => uniqFieldsB fs
  | .arr xs => uniqArrB xs
  | _ => true

def uniqFieldsB : JFields → Bool
  | .nil => true
  | .cons k v rest => (rest.getv k).isNone && uniqB v && uniqFieldsB rest

def uniqArrB : JArr → Bool
  | .nil => true
  | .cons v rest => uniqB v && uniqArrB rest
end

/-- A clean key: non-empty and dot-free, so that dot-joined paths split back
into the same segments. -/
def segClean (s : String) : Bool := s != "" && s.data.all (fun c => c != '.')

/-- Clean keys hereditarily through object values (arrays and other leaves
are atomic for the flattener, so their insides are unconstrained). -/
def cleanFieldsB : JFields → Bool
  | .nil => true
  | .cons k v rest =>
    segClean k && (rest.getv k).isNone &&
    (match v with
     | .obj gs => cleanFieldsB gs
     | _ => true) &&
    cleanFieldsB rest

/-- Well-formedness for the round-trip law as amended: string leaves, clean
duplicate-free keys, and no empty nested object. -/
def wfFieldsB : JFields → Bool
  | .nil => true
  | .cons k v rest =>
    segClean k && (rest.getv k).isNone &&
    (match v with
     | .str _ => true
     | .obj gs => gs != JFields.nil && wfFieldsB gs
     | _ => false) &&
    wfFieldsB rest

/-- A well-formed tree for the amended round-trip law. -/
def wfTreeB : JVal → Bool
  | .obj fs => fs != JFields.nil && wfFieldsB fs
  | _ => false

/-- Generic pairwise check over a list. -/
def pairwiseAllB (r : α → α → Bool) : List α → Bool
  | [] => true
  | a :: rest => rest.all (r a) && pairwiseAllB r rest

/-- Segment-level view of flattening: the relative segment path and value of
every leaf the flattener emits, in emission order (proof-level helper). -/
def flatRel : JFields → List (List String × JVal)
  | .nil => []
  | .cons k (.obj gs) rest => (flatRel gs).map (fun e => (k :: e.1, e.2)) ++ flatRel rest
  | .cons k v rest => ([k], v) :: flatRel rest

/-- Modelled from the spec: the claim's well-formedness for the round-trip
law — string leaves, nested non-empty objects, and "no structural
conflicts": no two leaves share a dotted path and no leaf's dotted path
extends another's (a Path never doubles as internal node and leaf).  Note it
does not constrain keys to be dot-free. -/
def claimWellFormedTree : JVal → Bool
  | .obj fs =>
    strLeafFieldsB fs &&
    pairwiseAllB
      (fun p q => p != q && !(jsStartsWith q (p ++ ".")) && !(jsStartsWith p (q ++ ".")))
      ((flatRel fs).map (fun e => joinDots e.1))
  | _ => false
where
  strLeafFieldsB : JFields → Bool
    | .nil => true
    | .cons _ v rest =>
      (match v with
       | .str _ => true
       | .obj gs => gs != JFields.nil && strLeafFieldsB gs
       | _ => false) &&
      strLeafFieldsB rest

/-- The subtree addressed by a segment path, descending through objects only. -/
def nodeAtSegs : JVal → List String → Option JVal
  | t, [] => some t
  | .obj fs, k :: rest =>
    (match fs.getv k with
     | some c => nodeAtSegs c rest
     | none => none)
  | _, _ => none

/-- Singleton serialization size of one entry, the quantity the chunker
accumulates: `JSON.stringify({key: value}, null, 2).length`. -/
def singletonSize (kv : String × JVal) : Nat :=
  (jsonStringify (.obj (.cons kv.1 kv.2 .nil)) 0).length

/-- Sum of the singleton sizes of a chunk's entries. -/
def sumSingles (fs : JFields) : Nat := (fs.toList.map singletonSize).sum

/-- `applyFlatEntry` after path splitting (proof-level view). -/
def applySegs (t : JVal) (k : String) (rest : List String) (v : JVal) :
    Except JsErr JVal :=
  if v = .null then delPathSegs t k rest else setPathSegs t k rest v

/-- Every proper prefix of the path addresses an object or nothing: the walk
of `setNestedProperty` / `deleteNestedProperty` never meets a leaf. -/
def goodPathB : JVal → String → List String → Bool
  | .obj _, _, [] => true
  | .obj fs, k, k' :: rest =>
    (match fs.getv k with
     | none => true
     | some c => goodPathB c k' rest)
  | _, _, _ => false

/-- Duplicate-free field lists along the walked path. -/
def walkUniqB : JVal → String → List String → Bool
  | .obj fs, _, [] => keysNodupB fs
  | .obj fs, k, k' :: rest =>
    keysNodupB fs &&
    (match fs.getv k with
     | none => true
     | some c => walkUniqB c k' rest)
  | _, _, _ => true

/-- Neither segment path is a prefix of the other (in particular they are
distinct). -/
def segIndep (a b : List String) : Bool := !(a.isPrefixOf b) && !(b.isPrefixOf a)

/-- Sorted insertion for the canonical form: object fields ordered by key. -/
def JFields.sortedInsertKV (k : String) (v : JVal) : JFields → JFields
  | .nil => .cons k v .nil
  | .cons k' v' rest =>
    if k < k' then .cons k v (.cons k' v' rest)
    else if k = k' then .cons k v rest
    else .cons k' v' (JFields.sortedInsertKV k v rest)

mutual
/-- Canonical form of a value: object fields sorted by key, recursively.
Two values denote the same JavaScript object graph (key order being
semantically insignificant) iff their canonical forms are equal. -/
def canon : JVal → JVal
  | .obj fs => .obj (canonFields fs)
  | .arr xs => .arr (canonArr xs)
  | v => v

def canonArr : JArr → JArr
  | .nil => .nil
  | .cons v rest => .cons (canon v) (canonArr rest)

def canonFields : JFields → JFields
  | .nil => .nil
  | .cons k v rest => JFields.sortedInsertKV k (canon v) (canonFields rest)
end

/-- A single-branch chain of objects ending in a value (shape created by
`setNestedProperty` below a fresh key; proof-level helper). -/
def chainTail : List String → JVal → JVal
  | [], v => v
  | s :: ss, v => .obj (.cons s (chainTail ss v) .nil)

/-- The per-chunk merge loop as invoked by `applyChunkToFile` (line 325):
`mergeContents(currentContent, {}, convertedResponse)` folded over the chunk
results in sequence. -/
def foldMergeChunks (t : JVal) (chunks : List JVal) : Except JsErr JVal :=
  chunks.foldlM (fun acc c => mergeContents acc (.obj .nil) c) t

/-- The flat entries a chunk result contributes to the merge. -/
def chunkEntries (c : JVal) : List (String × JVal) := (flattenNestedContent c "").toList

/-- All flat entries of a run's chunk results, in sequence order. -/
def allChunkEntries (chunks : List JVal) : List (String × JVal) :=
  (chunks.map chunkEntries).flatten

/-- Entry-level merge fold (proof-level view of `foldMergeChunks`). -/
def foldEntries (t : JVal) (es : List (String × JVal)) : Except JsErr JVal :=
  es.foldlM applyFlatEntry t

/-! ## Induction principles
The mutual recursor of the family has one motive per member; these wrappers
specialize the other motives so that ordinary proofs can recurse over one
member at a time. -/

/-- Structural induction over a field list alone (values untouched). -/
def JFields.recList {motive : JFields → Prop} (nil : motive .nil)
    (cons : ∀ k v rest, motive rest → motive (.cons k v rest)) :
    ∀ fs, motive fs
  | .nil => nil
  | .cons k v rest => cons k v rest (JFields.recList nil cons rest)

/-- Structural induction over an array alone (elements untouched). -/
def JArr.recList {motive : JArr → Prop} (nil : motive .nil)
    (cons : ∀ v rest, motive rest → motive (.cons v rest)) :
    ∀ xs, motive xs
  | .nil => nil
  | .cons v rest => cons v rest (JArr.recList nil cons rest)

/-- Structural induction over a field list that also recurses into the
plain-object values, mirroring the flattener's recursion shape. -/
def JFields.recNested {motive : JFields → Prop} (nil : motive .nil)
    (consObj : ∀ k gs rest, motive gs → motive rest → motive (.cons k (.obj gs) rest))
    (consLeaf : ∀ k v rest, v.isPlainObj = false → motive rest → motive (.cons k v rest)) :
    ∀ fs, motive fs
  | .nil => nil
  | .cons k (.obj gs) rest =>
    consObj k gs rest (JFields.recNested nil consObj consLeaf gs)
      (JFields.recNested nil consObj consLeaf rest)
  | .cons k (.str s) rest =>
    consLeaf k (.str s) rest rfl (JFields.recNested nil consObj consLeaf rest)
  | .cons k (.num n) rest =>
    consLeaf k (.num n) rest rfl (JFields.recNested nil consObj consLeaf rest)
  | .cons k (.bool b) rest =>
    consLeaf k (.bool b) rest rfl (JFields.recNested nil consObj consLeaf rest)
  | .cons k .null rest =>
    consLeaf k .null rest rfl (JFields.recNested nil consObj consLeaf rest)
  | .cons k (.arr xs) rest =>
    consLeaf k (.arr xs) rest rfl (JFields.recNested nil consObj consLeaf rest)

mutual
/-- Mutual structural induction, value side. -/
def JVal.recTriple {mv : JVal → Prop} {ma : JArr → Prop} {mf : JFields → Prop}
    (str : ∀ s, mv (.str s)) (num : ∀ n, mv (.num n)) (bool : ∀ b, mv (.bool b))
    (null : mv .null) (arr : ∀ xs, ma xs → mv (.arr xs))
    (obj : ∀ fs, mf fs → mv (.obj fs))
    (anil : ma .nil) (acons : ∀ v rest, mv v → ma rest → ma (.cons v rest))
    (fnil : mf .nil) (fcons : ∀ k v rest, mv v → mf rest → mf (.cons k v rest)) :
    ∀ v, mv v
  | .str s => str s
  | .num n => num n
  | .bool b => bool b
  | .null => null
  | .arr xs =>
    arr xs (JArr.recTriple str num bool null arr obj anil acons fnil fcons xs)
  | .obj fs =>
    obj fs (JFields.recTriple str num bool null arr obj anil acons fnil fcons fs)
termination_by structural v => v

/-- Mutual structural induction, array side. -/
def JArr.recTriple {mv : JVal → Prop} {ma : JArr → Prop} {mf : JFields → Prop}
    (str : ∀ s, mv (.str s)) (num : ∀ n, mv (.num n)) (bool : ∀ b, mv (.bool b))
    (null : mv .null) (arr : ∀ xs, ma xs → mv (.arr xs))
    (obj : ∀ fs, mf fs → mv (.obj fs))
    (anil : ma .nil) (acons : ∀ v rest, mv v → ma rest → ma (.cons v rest))
    (fnil : mf .nil) (fcons : ∀ k v rest, mv v → mf rest → mf (.cons k v rest)) :
    ∀ xs, ma xs
  | .nil => anil
  | .cons v rest =>
    acons v rest (JVal.recTriple str num bool null arr obj anil acons fnil fcons v)
      (JArr.recTriple str num bool null arr obj anil acons fnil fcons rest)
termination_by structural xs => xs

/-- Mutual structural induction, field side. -/
def JFields.recTriple {mv : JVal → Prop} {ma : JArr → Prop} {mf : JFields → Prop}
    (str : ∀ s, mv (.str s)) (num : ∀ n, mv (.num n)) (bool : ∀ b, mv (.bool b))
    (null : mv .null) (arr : ∀ xs, ma xs → mv (.arr xs))
    (obj : ∀ fs, mf fs → mv (.obj fs))
    (anil : ma .nil) (acons : ∀ v rest, mv v → ma rest → ma (.cons v rest))
    (fnil : mf .nil) (fcons : ∀ k v rest, mv v → mf rest → mf (.cons k v rest)) :
    ∀ fs, mf fs
  | .nil => fnil
  | .cons k v rest =>
    fcons k v rest (JVal.recTriple str num bool null arr obj anil acons fnil fcons v)
      (JFields.recTriple str num bool null arr obj anil acons fnil fcons rest)
termination_by structural fs => fs
end

/-- Keys strictly increasing between adjacent entries (the shape of
`canonFields` output); implies duplicate-freeness. -/
def sortedKeysB : JFields → Bool
  | .nil => true
  | .cons _ _ .nil => true
  | .cons k _ (.cons k' v' rest) => decide (k < k') && sortedKeysB (.cons k' v' rest)

/-- A flat entry is applicable at `t`: the walk of its dotted key meets only
objects or absent keys (so `setNestedProperty` / `deleteNestedProperty`
succeed) and every field list along the walk is duplicate-free. -/
def entryOkB (t : JVal) (e : String × JVal) : Bool :=
  match jsSplitDot e.1 with
  | k :: rest => goodPathB t k rest && walkUniqB t k rest
  | [] => false

/-! # Theorems

### C2 — already-translated stability (code bug)

The spec's condition (d) includes a leaf for retranslation when the target
*equals* the base text (never translated).  The code tests
`target[key] !== base[key]`, which is that condition inverted, and
additionally calls `getNestedValue(original, newPath)` with the absolute
dotted path against the already-descended `original` subtree, so the
snapshot comparison is against `undefined` at every depth ≥ 1.  Hence the
scenario's change set is not empty. -/

/-- C2: at the already-translated scenario — base `x.y = "Hello"`, snapshot
identical to base, target `x.y = "Bonjour"` — the computed change set is not
empty as the claim demands: `deepCompare` re-includes the translated path,
producing the container `x` holding the entry `x.y = "Hello"`. -/
theorem deepCompare_reincludes_translated_path :
    prepareTranslationContent
      (.obj (.cons "x" (.obj (.cons "y" (.str "Hello") .nil)) .nil))
      (.obj (.cons "x" (.obj (.cons "y" (.str "Bonjour") .nil)) .nil))
      (.obj (.cons "x" (.obj (.cons "y" (.str "Hello") .nil)) .nil))
    = .ok (.obj (.cons "x" (.obj (.cons "x.y" (.str "Hello") .nil)) .nil)) := by
  decide

/-! ### C5 — normalizer fidelity on self-grouped responses (corrected) -/

/-- C5 counterexample: for requested chunk `a.b.title = "X"` and the
self-grouped response `a -> a.b -> a.b.title = "Y"`, normalization does not
yield the single entry `a.b.title = "Y"` the claim demands. -/
theorem normalizer_selfgrouped_claim_false :
    convertLLMResponseToOriginalStructureNew
      (.obj (.cons "a"
        (.obj (.cons "a.b" (.obj (.cons "a.b.title" (.str "Y") .nil)) .nil)) .nil))
      (.obj (.cons "a.b.title" (.str "X") .nil))
    ≠ .ok (.obj (.cons "a.b.title" (.str "Y") .nil)) := by
  decide

/-- C5 amended: at those same inputs normalization yields the empty map —
the requested dotted path is dropped, because the fallback filter looks for
flattened response keys starting with `"a.b.title."` and the re-grouped
response flattens to the single key `"a.a.b.a.b.title"`. -/
theorem normalizer_selfgrouped_yields_empty :
    convertLLMResponseToOriginalStructureNew
      (.obj (.cons "a"
        (.obj (.cons "a.b" (.obj (.cons "a.b.title" (.str "Y") .nil)) .nil)) .nil))
      (.obj (.cons "a.b.title" (.str "X") .nil))
    = .ok (.obj .nil) := by
  decide

/-! ### C1 — round-trip law (corrected: keys must be clean) -/

/-- C1 counterexample: the single-leaf tree with the dotted key `"a.b"` is
well-formed in the claim's sense (string leaf, no empty subtree, no path
conflict), yet materializing its flattened form yields the nested tree
`a -> b -> "x"`, not the original. -/
theorem roundtrip_fails_on_dotted_key :
    claimWellFormedTree (.obj (.cons "a.b" (.str "x") .nil)) = true ∧
    unflattenContent (flattenNestedContent (.obj (.cons "a.b" (.str "x") .nil)) "")
      = .ok (.obj (.cons "a" (.obj (.cons "b" (.str "x") .nil)) .nil)) ∧
    unflattenContent (flattenNestedContent (.obj (.cons "a.b" (.str "x") .nil)) "")
      ≠ .ok (.obj (.cons "a.b" (.str "x") .nil)) := by
  decide

/-! ### C7 — structural conflicts (corrected: generic TypeError, no
ConflictingPathError) -/

/-- C7 counterexample: inserting through the string leaf at `"a"` fails with
the generic JavaScript `TypeError` (the `in` operator applied to a
primitive), not with the dedicated `ConflictingPathError` the claim names —
no such error exists anywhere in the repository. -/
theorem setNestedProperty_conflict_no_dedicated_error :
    setNestedProperty (.obj (.cons "a" (.str "s") .nil)) "a.b.c" (.str "v")
      = .error .typeError ∧
    setNestedProperty (.obj (.cons "a" (.str "s") .nil)) "a.b.c" (.str "v")
      ≠ .error .conflictingPath := by
  decide

/-! ### C9 — merge commutativity (corrected: needs prefix-freeness) -/

/-- C9 counterexample: the chunk results `a = null` (a deletion tombstone)
and `a.b = "y"` have disjoint flattened key sets (`["a"]` and `["a.b"]`),
yet merging them in the two orders yields `a -> b -> "y"` versus the empty
object — different trees even up to key ordering.  Disjointness does not
suffice; one key must also not be a dot-prefix of another. -/
theorem merge_disjoint_keys_not_commutative :
    (chunkEntries (.obj (.cons "a" .null .nil))).map Prod.fst = ["a"] ∧
    (chunkEntries (.obj (.cons "a.b" (.str "y") .nil))).map Prod.fst = ["a.b"] ∧
    foldMergeChunks (.obj .nil)
        [.obj (.cons "a" .null .nil), .obj (.cons "a.b" (.str "y") .nil)]
      = .ok (.obj (.cons "a" (.obj (.cons "b" (.str "y") .nil)) .nil)) ∧
    foldMergeChunks (.obj .nil)
        [.obj (.cons "a.b" (.str "y") .nil), .obj (.cons "a" .null .nil)]
      = .ok (.obj .nil) ∧
    canon (.obj (.cons "a" (.obj (.cons "b" (.str "y") .nil)) .nil)) ≠ canon (.obj .nil) := by
  decide

/-! ### Association-list basics used by several claims -/

theorem JFields.toList_eq_nil_iff (fs : JFields) : fs.toList = [] ↔ fs = .nil := by
  cases fs <;> simp [JFields.toList]

theorem JFields.keys_cons (k : String) (v : JVal) (rest : JFields) :
    JFields.keys (.cons k v rest) = k :: rest.keys := by
  simp [JFields.keys, JFields.toList]

theorem JFields.getv_eq_none_iff (fs : JFields) (k : String) :
    fs.getv k = none ↔ k ∉ fs.keys := by
  induction fs using JFields.recList with
  | nil => simp [JFields.getv, JFields.keys, JFields.toList]
  | cons k' v rest ih =>
    rw [JFields.keys_cons]
    by_cases h : k' = k
    · subst h
      simp [JFields.getv]
    · simp only [JFields.getv, if_neg h, ih, List.mem_cons]
      constructor
      · intro hnot hor
        rcases hor with hor | hor
        · exact h hor.symm
        · exact hnot hor
      · intro hnot hmem
        exact hnot (Or.inr hmem)

theorem JFields.toList_insertKV_absent (fs : JFields) (k : String) (v : JVal)
    (h : fs.getv k = none) :
    (fs.insertKV k v).toList = fs.toList ++ [(k, v)] := by
  induction fs using JFields.recList with
  | nil => simp [JFields.insertKV, JFields.toList]
  | cons k' v' rest ih =>
    simp only [JFields.getv] at h
    by_cases hk : k' = k
    · simp [hk] at h
    · simp [JFields.insertKV, hk, JFields.toList, ih (by simpa [hk] using h)]

theorem JFields.keys_insertKV_absent (fs : JFields) (k : String) (v : JVal)
    (h : fs.getv k = none) :
    (fs.insertKV k v).keys = fs.keys ++ [k] := by
  simp [JFields.keys, JFields.toList_insertKV_absent fs k v h]

/-! ### C3 — chunk coverage -/

theorem splitChunksGo_flatten (fs : JFields) :
    ∀ (chunks : List JFields) (cur : JFields) (size budget : Nat),
    (cur.keys ++ fs.keys).Nodup →
    ((splitChunksGo fs chunks cur size budget).map JFields.toList).flatten
      = (chunks.map JFields.toList).flatten ++ cur.toList ++ fs.toList := by
  induction fs using JFields.recList with
  | nil =>
    intro chunks cur size budget _
    by_cases h : cur = JFields.nil
    · simp [splitChunksGo, h, JFields.toList]
    · simp [splitChunksGo, h, JFields.toList]
  | cons k v rest ih =>
    intro chunks cur size budget hnod
    have hkcur : cur.getv k = none := by
      rw [JFields.getv_eq_none_iff]
      intro hmem
      have : (k : String) ∈ JFields.keys (.cons k v rest) := by
        simp [JFields.keys, JFields.toList]
      exact (List.disjoint_of_nodup_append hnod) hmem this
    simp only [splitChunksGo]
    by_cases hcond : size + (jsonStringify (.obj (.cons k v .nil)) 0).length > budget ∧
        cur ≠ JFields.nil
    · rw [if_pos hcond]
      rw [ih (chunks ++ [cur]) (.cons k v .nil) _ budget ?_]
      · simp [JFields.toList]
      · have := hnod.sublist (List.sublist_append_right cur.keys _)
        simpa [JFields.keys, JFields.toList] using this
    · rw [if_neg hcond]
      rw [ih chunks (cur.insertKV k v) _ budget ?_]
      · simp [JFields.toList_insertKV_absent cur k v hkcur, JFields.toList]
      · rw [JFields.keys_insertKV_absent cur k v hkcur]
        have : cur.keys ++ [k] ++ JFields.keys rest
            = cur.keys ++ JFields.keys (.cons k v rest) := by
          simp [JFields.keys, JFields.toList]
        rw [this]
        exact hnod

/-- C3: chunk coverage — for every non-empty flat map (a JS object, so its
keys are duplicate-free) and every positive character budget,
`splitIntoChunks` produces at least one chunk, and concatenating the chunks
in order reproduces the input's entries exactly: no key is dropped,
duplicated, split, or reordered. -/
theorem splitIntoChunks_coverage (fs : JFields) (budget : Nat)
    (hne : fs ≠ JFields.nil) (hnod : fs.keys.Nodup) (hpos : 0 < budget) :
    splitIntoChunks fs budget ≠ [] ∧
    ((splitIntoChunks fs budget).map JFields.toList).flatten = fs.toList := by
  have h := splitChunksGo_flatten fs [] .nil 0 budget
    (by simpa [JFields.keys, JFields.toList] using hnod)
  rw [splitIntoChunks]
  simp only [List.map_nil, List.flatten_nil, List.nil_append, JFields.toList] at h
  refine ⟨?_, h⟩
  intro hnil
  rw [hnil] at h
  simp at h
  exact hne ((JFields.toList_eq_nil_iff fs).mp h)

/-- C3 witness: a two-entry flat map with budget 40 produces at least one
chunk and reproduces the entries exactly. -/
theorem splitIntoChunks_coverage_witness :
    splitIntoChunks (.cons "a" (.str "1111111111") (.cons "b" (.str "22") .nil)) 40 ≠ [] ∧
    ((splitIntoChunks (.cons "a" (.str "1111111111") (.cons "b" (.str "22") .nil)) 40).map
      JFields.toList).flatten
      = [("a", JVal.str "1111111111"), ("b", JVal.str "22")] := by
  have h := splitIntoChunks_coverage
    (.cons "a" (.str "1111111111") (.cons "b" (.str "22") .nil)) 40
    (by decide) (by decide) (by decide)
  exact ⟨h.1, by rw [h.2]; rfl⟩

/-! ### C4 — chunk size bound

The chunker accumulates the sum of singleton serializations
(`JSON.stringify({key: value}, null, 2).length` per entry) rather than the
size of the combined chunk; the combined serialization shares each entry's
line verbatim (indentation depends only on depth) and replaces the per-entry
brace/newline overhead (4 characters) by separators (2 characters each), so
it is never larger than the accumulated sum. -/

theorem jsonObjItems_cons_len (k : String) (v : JVal) (rest : JFields)
    (h : rest ≠ .nil) :
    (jsonObjItems (.cons k v rest) 2).length + 2
      = singletonSize (k, v) + (jsonObjItems rest 2).length := by
  cases rest with
  | nil => exact absurd rfl h
  | cons k' v' rest' =>
    simp only [jsonObjItems, singletonSize, jsonStringify, String.length_append, Nat.zero_add]
    have h0 : (spacesStr 0).length = 0 := rfl
    have h1 : ("\x7b\n" : String).length = 2 := rfl
    have h2 : ("\n" : String).length = 1 := rfl
    have h3 : ("\x7d" : String).length = 1 := rfl
    have h4 : (",\n" : String).length = 2 := rfl
    omega

theorem jsonObjItems_single_len (k : String) (v : JVal) :
    singletonSize (k, v) = (jsonObjItems (.cons k v .nil) 2).length + 4 := by
  simp only [singletonSize, jsonStringify, String.length_append, Nat.zero_add]
  have h0 : (spacesStr 0).length = 0 := rfl
  have h1 : ("\x7b\n" : String).length = 2 := rfl
  have h2 : ("\n" : String).length = 1 := rfl
  have h3 : ("\x7d" : String).length = 1 := rfl
  omega

theorem sumSingles_cons (k : String) (v : JVal) (rest : JFields) :
    sumSingles (.cons k v rest) = singletonSize (k, v) + sumSingles rest := by
  simp [sumSingles, JFields.toList]

theorem jsonObjItems_total_len (fs : JFields) (h : fs ≠ .nil) :
    (jsonObjItems fs 2).length + 2 * fs.toList.length + 2 = sumSingles fs := by
  induction fs using JFields.recList with
  | nil => exact absurd rfl h
  | cons k v rest ih =>
    by_cases hr : rest = JFields.nil
    · subst hr
      have := jsonObjItems_single_len k v
      simp only [sumSingles, JFields.toList, List.map_cons, List.map_nil,
        List.sum_cons, List.sum_nil, List.length_cons, List.length_nil]
      omega
    · have hline := jsonObjItems_cons_len k v rest hr
      have hrest := ih hr
      have hlen : (JFields.toList (.cons k v rest)).length = rest.toList.length + 1 := by
        simp [JFields.toList]
      rw [sumSingles_cons]
      omega

theorem jsonStringify_obj_len (fs : JFields) (h : fs ≠ .nil) :
    (jsonStringify (.obj fs) 0).length + 2 * fs.toList.length = sumSingles fs + 2 := by
  cases fs with
  | nil => exact absurd rfl h
  | cons k v rest =>
    have := jsonObjItems_total_len (.cons k v rest) h
    simp only [jsonStringify, String.length_append, Nat.zero_add]
    have h0 : (spacesStr 0).length = 0 := rfl
    have h1 : ("\x7b\n" : String).length = 2 := rfl
    have h2 : ("\n" : String).length = 1 := rfl
    have h3 : ("\x7d" : String).length = 1 := rfl
    omega

theorem serialized_le_sumSingles (fs : JFields) (h : fs ≠ .nil) :
    (jsonStringify (.obj fs) 0).length ≤ sumSingles fs := by
  have hcomb := jsonStringify_obj_len fs h
  have hlen : 1 ≤ fs.toList.length := by
    cases fs with
    | nil => exact absurd rfl h
    | cons k v rest => simp [JFields.toList]
  omega

theorem sumSingles_insertKV_absent (fs : JFields) (k : String) (v : JVal)
    (h : fs.getv k = none) :
    sumSingles (fs.insertKV k v) = sumSingles fs + singletonSize (k, v) := by
  simp [sumSingles, JFields.toList_insertKV_absent fs k v h]

theorem splitChunksGo_sizes (fs : JFields) :
    ∀ (chunks : List JFields) (cur : JFields) (size budget : Nat),
    (∀ c ∈ chunks, 2 ≤ c.toList.length → sumSingles c ≤ budget) →
    (cur.keys ++ fs.keys).Nodup →
    size = sumSingles cur →
    (2 ≤ cur.toList.length → size ≤ budget) →
    ∀ c ∈ splitChunksGo fs chunks cur size budget,
      2 ≤ c.toList.length → sumSingles c ≤ budget := by
  induction fs using JFields.recList with
  | nil =>
    intro chunks cur size budget hchunks _ hsize hcur c hc
    simp only [splitChunksGo] at hc
    by_cases h : cur = JFields.nil
    · rw [if_pos h] at hc
      exact hchunks c hc
    · rw [if_neg h] at hc
      rcases List.mem_append.mp hc with hmem | hmem
      · exact hchunks c hmem
      · simp only [List.mem_singleton] at hmem
        subst hmem
        intro hlen
        exact hsize ▸ hcur hlen
  | cons k v rest ih =>
    intro chunks cur size budget hchunks hnod hsize hcur c hc
    have hkcur : cur.getv k = none := by
      rw [JFields.getv_eq_none_iff]
      intro hmem
      have hk : (k : String) ∈ JFields.keys (.cons k v rest) := by
        simp [JFields.keys_cons]
      exact (List.disjoint_of_nodup_append hnod) hmem hk
    simp only [splitChunksGo] at hc
    by_cases hcond : size + (jsonStringify (.obj (.cons k v .nil)) 0).length > budget ∧
        cur ≠ JFields.nil
    · rw [if_pos hcond] at hc
      refine ih (chunks ++ [cur]) (.cons k v .nil) _ budget ?_ ?_ ?_ ?_ c hc
      · intro c' hc'
        rcases List.mem_append.mp hc' with hmem | hmem
        · exact hchunks c' hmem
        · simp only [List.mem_singleton] at hmem
          subst hmem
          intro hlen
          exact hsize ▸ hcur hlen
      · have hsub := hnod.sublist (List.sublist_append_right cur.keys _)
        rw [JFields.keys_cons] at hsub
        have heq : JFields.keys (.cons k v .nil) ++ rest.keys = k :: rest.keys := by
          simp [JFields.keys, JFields.toList]
        rw [heq]
        exact hsub
      · simp [sumSingles_cons, sumSingles, JFields.toList, singletonSize]
      · intro hlen
        simp [JFields.toList] at hlen
    · rw [if_neg hcond] at hc
      refine ih chunks (cur.insertKV k v) _ budget hchunks ?_ ?_ ?_ c hc
      · rw [JFields.keys_insertKV_absent cur k v hkcur]
        have heq : cur.keys ++ [k] ++ JFields.keys rest
            = cur.keys ++ JFields.keys (.cons k v rest) := by
          simp [JFields.keys_cons]
        rw [heq]
        exact hnod
      · rw [sumSingles_insertKV_absent cur k v hkcur, hsize]
        rfl
      · intro hlen
        by_cases hnil : cur = JFields.nil
        · subst hnil
          simp [JFields.insertKV, JFields.toList] at hlen
        · have hnotgt : ¬ (size + (jsonStringify (.obj (.cons k v .nil)) 0).length > budget) := by
            intro hgt
            exact hcond ⟨hgt, hnil⟩
          have : (jsonStringify (.obj (.cons k v .nil)) 0).length = singletonSize (k, v) := rfl
          omega

/-- C4: chunk size bound — on a flat map with duplicate-free keys (any JS
object) and any budget, every chunk produced by `splitIntoChunks` holding
more than one entry serializes (via `JSON.stringify` with two-space indent,
exactly as it would be sent) to at most the budget; only single-entry chunks
may exceed it. -/
theorem splitIntoChunks_size_bound (fs : JFields) (budget : Nat)
    (hnod : fs.keys.Nodup) :
    ∀ c ∈ splitIntoChunks fs budget, 1 < c.toList.length →
      (jsonStringify (.obj c) 0).length ≤ budget := by
  intro c hc hlen
  have hs := splitChunksGo_sizes fs [] .nil 0 budget
    (by intro c' hc'; simp at hc')
    (by simpa [JFields.keys, JFields.toList] using hnod)
    (by simp [sumSingles, JFields.toList])
    (by intro h; simp [JFields.toList] at h)
    c hc (by omega)
  have hcne : c ≠ JFields.nil := by
    intro h
    subst h
    simp [JFields.toList] at hlen
  exact le_trans (serialized_le_sumSingles c hcne) hs

/-- C4 witness: with budget 40 the two-entry input stays in one chunk whose
serialization (36 characters) respects the bound. -/
theorem splitIntoChunks_size_bound_witness :
    (jsonStringify
      (.obj (.cons "a" (.str "1111111111") (.cons "b" (.str "22") .nil))) 0).length ≤ 40 := by
  exact splitIntoChunks_size_bound
    (.cons "a" (.str "1111111111") (.cons "b" (.str "22") .nil)) 40
    (by decide)
    (.cons "a" (.str "1111111111") (.cons "b" (.str "22") .nil))
    (by decide) (by decide)

/-! ### C6 — the normalizer never fabricates -/

theorem exceptBindOk {ε α β : Type} (a : α) (f : α → Except ε β) :
    (Except.ok a : Except ε α) >>= f = f a := rfl

theorem exceptBindErr {ε α β : Type} (e : ε) (f : α → Except ε β) :
    (Except.error e : Except ε α) >>= f = Except.error e := rfl

theorem exceptPure {ε α : Type} (a : α) : (pure a : Except ε α) = Except.ok a := rfl

theorem JFields.getv_insertKV_ne (fs : JFields) (k' k : String) (v : JVal)
    (h : k' ≠ k) : (fs.insertKV k' v).getv k = fs.getv k := by
  induction fs using JFields.recList with
  | nil => simp [JFields.insertKV, JFields.getv, h]
  | cons k0 v0 rest ih =>
    by_cases h0 : k0 = k'
    · subst h0
      simp [JFields.insertKV, JFields.getv, h]
    · simp [JFields.insertKV, h0, JFields.getv, ih]

theorem convertNew_fold_inv (llmResponse : JVal) (k : String)
    (hOwn : jsHasOwn llmResponse k = .ok false)
    (hNoPre : ∀ e ∈ (flattenNestedContent llmResponse "").toList,
        jsStartsWith e.1 (k ++ ".") = false) :
    ∀ (pairs : List (String × JVal)) (afs : JFields), afs.getv k = none →
    ∀ r, pairs.foldlM
      (fun (result : JVal) (kv : String × JVal) => do
        let hasOwn ← jsHasOwn llmResponse kv.1
        if hasOwn then
          resInsert result kv.1
            (normalizeNestedKeys ((jsGet llmResponse kv.1).getD .null) kv.1)
        else
          if (((flattenNestedContent llmResponse "").toList.filter
                (fun (e : String × JVal) => jsStartsWith e.1 (kv.1 ++ "."))).map
                (fun (e : String × JVal) => (collapseDupRootKey kv.1 e.1, e.2))).length > 0 then do
            let rebuiltSubtree ← unflattenContent (JFields.ofAssigns
              (((flattenNestedContent llmResponse "").toList.filter
                (fun (e : String × JVal) => jsStartsWith e.1 (kv.1 ++ "."))).map
                (fun (e : String × JVal) => (collapseDupRootKey kv.1 e.1, e.2))))
            resInsert result kv.1 (normalizeNestedKeys
              (match jsGet rebuiltSubtree kv.1 with
               | some w => if jsTruthy w then w else rebuiltSubtree
               | none => rebuiltSubtree) kv.1)
          else pure result)
      (JVal.obj afs) = .ok r →
    ∃ rfs, r = .obj rfs ∧ rfs.getv k = none := by
  intro pairs
  induction pairs with
  | nil =>
    intro afs hafs r hr
    rw [List.foldlM_nil, exceptPure] at hr
    cases hr
    exact ⟨afs, rfl, hafs⟩
  | cons kv rest ih =>
    intro afs hafs r hr
    rw [List.foldlM_cons] at hr
    rcases hOwnKv : jsHasOwn llmResponse kv.1 with e | b
    · rw [hOwnKv, exceptBindErr, exceptBindErr] at hr
      cases hr
    · rw [hOwnKv, exceptBindOk] at hr
      by_cases hk : kv.1 = k
      · -- the iteration for the key of interest is skipped entirely
        have hb : b = false := by
          rw [hk] at hOwnKv
          rw [hOwn] at hOwnKv
          cases hOwnKv
          rfl
        subst hb
        have hfilter :
            (flattenNestedContent llmResponse "").toList.filter
              (fun (e : String × JVal) => jsStartsWith e.1 (kv.1 ++ ".")) = [] := by
          rw [List.filter_eq_nil_iff]
          intro e he
          rw [hk]
          simp [hNoPre e he]
        rw [if_neg (by simp)] at hr
        rw [if_neg (by rw [hfilter]; simp)] at hr
        rw [exceptPure, exceptBindOk] at hr
        exact ih afs hafs r hr
      · -- any other key inserts a different key or skips; the invariant holds
        by_cases hb : b
        · subst hb
          rw [if_pos rfl] at hr
          have hres : resInsert (JVal.obj afs) kv.1
              (normalizeNestedKeys ((jsGet llmResponse kv.1).getD .null) kv.1)
              = .ok (.obj (afs.insertKV kv.1
                (normalizeNestedKeys ((jsGet llmResponse kv.1).getD .null) kv.1))) := rfl
          rw [hres, exceptBindOk] at hr
          exact ih _ (by rw [JFields.getv_insertKV_ne afs kv.1 k _ hk]; exact hafs) r hr
        · simp only [Bool.not_eq_true] at hb
          subst hb
          rw [if_neg (by simp)] at hr
          by_cases hlen :
              (((flattenNestedContent llmResponse "").toList.filter
                (fun (e : String × JVal) => jsStartsWith e.1 (kv.1 ++ "."))).map
                (fun (e : String × JVal) => (collapseDupRootKey kv.1 e.1, e.2))).length > 0
          · rw [if_pos hlen] at hr
            rcases hunf : unflattenContent (JFields.ofAssigns
                (((flattenNestedContent llmResponse "").toList.filter
                  (fun (e : String × JVal) => jsStartsWith e.1 (kv.1 ++ "."))).map
                  (fun (e : String × JVal) => (collapseDupRootKey kv.1 e.1, e.2)))) with e' | rebuilt
            · rw [hunf, exceptBindErr, exceptBindErr] at hr
              cases hr
            · rw [hunf, exceptBindOk] at hr
              have hres : resInsert (JVal.obj afs) kv.1 (normalizeNestedKeys
                  (match jsGet rebuilt kv.1 with
                   | some w => if jsTruthy w then w else rebuilt
                   | none => rebuilt) kv.1)
                  = .ok (.obj (afs.insertKV kv.1 (normalizeNestedKeys
                    (match jsGet rebuilt kv.1 with
                     | some w => if jsTruthy w then w else rebuilt
                     | none => rebuilt) kv.1))) := rfl
              rw [hres, exceptBindOk] at hr
              exact ih _ (by rw [JFields.getv_insertKV_ne afs kv.1 k _ hk]; exact hafs) r hr
          · rw [if_neg hlen] at hr
            rw [exceptPure, exceptBindOk] at hr
            exact ih afs hafs r hr

/-- C6: the normalizer never fabricates — for every requested chunk and
every translator response, a requested key that the response does not
provide (absent from the response's top level, and no flattened response
key extends it with a dot) is simply absent from the normalized result:
it is never emitted with the untranslated source text and never invented. -/
theorem convertNew_never_fabricates (llmResponse originalChunk : JVal) (k : String)
    (hOwn : jsHasOwn llmResponse k = .ok false)
    (hNoPre : ∀ e ∈ (flattenNestedContent llmResponse "").toList,
        jsStartsWith e.1 (k ++ ".") = false) :
    ∀ r, convertLLMResponseToOriginalStructureNew llmResponse originalChunk = .ok r →
      jsGet r k = none := by
  intro r hr
  have h := convertNew_fold_inv llmResponse k hOwn hNoPre (jsForIn originalChunk) .nil
    (by simp [JFields.getv]) r hr
  rcases h with ⟨rfs, hre, hget⟩
  subst hre
  exact hget

/-- C6 witness: the chunk requests `greeting`, the response holds only an
unrelated key, and the normalized result omits `greeting`. -/
theorem convertNew_never_fabricates_witness :
    jsHasOwn (.obj (.cons "other" (.str "Z") .nil)) "greeting" = .ok false ∧
    ∀ r, convertLLMResponseToOriginalStructureNew
        (.obj (.cons "other" (.str "Z") .nil))
        (.obj (.cons "greeting" (.str "Hello") .nil)) = .ok r →
      jsGet r "greeting" = none := by
  refine ⟨by decide, ?_⟩
  exact convertNew_never_fabricates
    (.obj (.cons "other" (.str "Z") .nil))
    (.obj (.cons "greeting" (.str "Hello") .nil))
    "greeting" (by decide) (by decide)

/-! ### Dotted-path algebra: `jsSplitDot` inverts `joinDots` on clean segments -/

theorem String.mk_data (s : String) : String.mk s.data = s := by
  cases s
  rfl

theorem segClean_ne_empty {s : String} (h : segClean s = true) : s ≠ "" := by
  intro he
  subst he
  simp [segClean] at h

theorem segClean_no_dot {s : String} (h : segClean s = true) :
    ∀ c ∈ s.data, c ≠ '.' := by
  intro c hc
  have := (Bool.and_eq_true _ _).mp h |>.2
  rw [List.all_eq_true] at this
  simpa using this c hc

theorem splitDotsAux_no_dot (cs : List Char) :
    ∀ acc, (∀ c ∈ cs, c ≠ '.') → splitDotsAux cs acc = [String.mk (acc ++ cs)] := by
  induction cs with
  | nil => intro acc _; simp [splitDotsAux]
  | cons c rest ih =>
    intro acc h
    have hc : c ≠ '.' := h c (List.mem_cons_self c rest)
    rw [splitDotsAux, if_neg hc, ih (acc ++ [c]) (fun c' hc' => h c' (List.mem_cons_of_mem c hc'))]
    simp

theorem splitDotsAux_dot_append (cs : List Char) :
    ∀ acc (ds : List Char), (∀ c ∈ cs, c ≠ '.') →
    splitDotsAux (cs ++ '.' :: ds) acc = String.mk (acc ++ cs) :: splitDotsAux ds [] := by
  induction cs with
  | nil => intro acc ds _; simp [splitDotsAux]
  | cons c rest ih =>
    intro acc ds h
    have hc : c ≠ '.' := h c (List.mem_cons_self c rest)
    rw [List.cons_append, splitDotsAux, if_neg hc,
      ih (acc ++ [c]) ds (fun c' hc' => h c' (List.mem_cons_of_mem c hc'))]
    simp

theorem jsSplitDot_single {a : String} (h : segClean a = true) : jsSplitDot a = [a] := by
  rw [jsSplitDot, splitDotsAux_no_dot a.data [] (segClean_no_dot h)]
  simp [String.mk_data]

theorem jsSplitDot_append {a : String} (b : String) (h : segClean a = true) :
    jsSplitDot (a ++ "." ++ b) = a :: jsSplitDot b := by
  rw [jsSplitDot]
  have hdata : (a ++ "." ++ b).data = a.data ++ '.' :: b.data := by
    rw [String.data_append, String.data_append, List.append_assoc]
    rfl
  rw [hdata, splitDotsAux_dot_append a.data [] b.data (segClean_no_dot h)]
  simp [String.mk_data, jsSplitDot]

theorem joinDots_cons (a : String) (b : String) (t : List String) :
    joinDots (a :: b :: t) = a ++ "." ++ joinDots (b :: t) := rfl

theorem joinDots_ne_empty {p : String} (ps : List String) (h : segClean p = true) :
    joinDots (p :: ps) ≠ "" := by
  cases ps with
  | nil => simpa [joinDots] using segClean_ne_empty h
  | cons q t =>
    rw [joinDots_cons]
    intro he
    have hlen := congrArg String.length he
    rw [String.length_append, String.length_append] at hlen
    have h1 : ("." : String).length = 1 := rfl
    have h0 : ("" : String).length = 0 := rfl
    omega

theorem jsSplitDot_joinDots (l : List String) (hne : l ≠ [])
    (hclean : ∀ s ∈ l, segClean s = true) : jsSplitDot (joinDots l) = l := by
  induction l with
  | nil => exact absurd rfl hne
  | cons a t ih =>
    cases t with
    | nil =>
      have := hclean a (List.mem_cons_self a [])
      simpa [joinDots] using jsSplitDot_single this
    | cons b t' =>
      rw [joinDots_cons, jsSplitDot_append _ (hclean a (List.mem_cons_self a _)),
        ih (by simp) (fun s hs => hclean s (List.mem_cons_of_mem a hs))]

theorem joinDots_inj {l₁ l₂ : List String} (h1 : l₁ ≠ []) (h2 : l₂ ≠ [])
    (hc1 : ∀ s ∈ l₁, segClean s = true) (hc2 : ∀ s ∈ l₂, segClean s = true)
    (heq : joinDots l₁ = joinDots l₂) : l₁ = l₂ := by
  have e1 := jsSplitDot_joinDots l₁ h1 hc1
  have e2 := jsSplitDot_joinDots l₂ h2 hc2
  rw [← e1, ← e2, heq]

theorem joinDots_append_one (p : String) (ps : List String) (k : String) :
    joinDots ((p :: ps) ++ [k]) = joinDots (p :: ps) ++ "." ++ k := by
  induction ps generalizing p with
  | nil => rfl
  | cons q t ih =>
    show p ++ "." ++ joinDots ((q :: t) ++ [k]) = p ++ "." ++ joinDots (q :: t) ++ "." ++ k
    rw [ih q]
    simp [String.append_assoc]

theorem fullKey_eq_joinDots (preSegs : List String) (k : String)
    (hclean : ∀ s ∈ preSegs, segClean s = true) :
    (if joinDots preSegs = "" then k else joinDots preSegs ++ "." ++ k)
      = joinDots (preSegs ++ [k]) := by
  cases preSegs with
  | nil => simp [joinDots]
  | cons p ps =>
    rw [if_neg (joinDots_ne_empty ps (hclean p (List.mem_cons_self p ps)))]
    exact (joinDots_append_one p ps k).symm

/-! ### Flattening bridge: `flattenFields` emits `flatRel` under clean keys -/

theorem JFields.append_nil (fs : JFields) : fs.append .nil = fs := by
  induction fs using JFields.recList with
  | nil => rfl
  | cons k v rest ih => simp [JFields.append, ih]

theorem JFields.append_assoc (a b c : JFields) :
    (a.append b).append c = a.append (b.append c) := by
  induction a using JFields.recList with
  | nil => rfl
  | cons k v rest ih => simp [JFields.append, ih]

theorem JFields.insertKV_absent_eq_append (fs : JFields) (k : String) (v : JVal)
    (h : fs.getv k = none) : fs.insertKV k v = fs.append (.cons k v .nil) := by
  induction fs using JFields.recList with
  | nil => rfl
  | cons k0 v0 rest ih =>
    simp only [JFields.getv] at h
    by_cases h0 : k0 = k
    · simp [h0] at h
    · simp [JFields.insertKV, h0, JFields.append, ih (by simpa [h0] using h)]

theorem JFields.toList_append (a b : JFields) :
    (a.append b).toList = a.toList ++ b.toList := by
  induction a using JFields.recList with
  | nil => rfl
  | cons k v rest ih => simp [JFields.append, JFields.toList, ih]

theorem JFields.getv_append_left_none (a b : JFields) (k : String)
    (h : a.getv k = none) : (a.append b).getv k = b.getv k := by
  induction a using JFields.recList with
  | nil => rfl
  | cons k0 v0 rest ih =>
    simp only [JFields.getv] at h
    by_cases h0 : k0 = k
    · simp [h0] at h
    · simp [JFields.append, JFields.getv, h0, ih (by simpa [h0] using h)]

theorem JFields.getv_of_mem_nodup (fs : JFields) (k : String) (v : JVal)
    (hnod : fs.keys.Nodup) (hmem : (k, v) ∈ fs.toList) : fs.getv k = some v := by
  induction fs using JFields.recList with
  | nil => simp [JFields.toList] at hmem
  | cons k0 v0 rest ih =>
    rw [JFields.keys_cons] at hnod
    rw [JFields.toList, List.mem_cons] at hmem
    rcases hmem with he | hm
    · rw [Prod.mk.injEq] at he
      obtain ⟨hk, hv⟩ := he
      subst hk
      subst hv
      simp [JFields.getv]
    · have hk0 : k0 ≠ k := by
        intro he0
        subst he0
        exact (List.nodup_cons.mp hnod).1
          (by simpa [JFields.keys] using List.mem_map_of_mem Prod.fst hm)
      simp [JFields.getv, hk0, ih (List.nodup_cons.mp hnod).2 hm]

theorem cleanFieldsB_cons_eq (k : String) (v : JVal) (rest : JFields) :
    cleanFieldsB (.cons k v rest)
      = (segClean k && (rest.getv k).isNone &&
          (match v with | .obj gs => cleanFieldsB gs | _ => true) &&
          cleanFieldsB rest) := by
  cases v <;> rfl

theorem cleanFieldsB_parts {k : String} {v : JVal} {rest : JFields}
    (h : cleanFieldsB (.cons k v rest) = true) :
    segClean k = true ∧ rest.getv k = none ∧ cleanFieldsB rest = true ∧
      (∀ gs, v = .obj gs → cleanFieldsB gs = true) := by
  rw [cleanFieldsB_cons_eq, Bool.and_eq_true, Bool.and_eq_true, Bool.and_eq_true] at h
  obtain ⟨⟨⟨h1, h2⟩, h3⟩, h4⟩ := h
  refine ⟨h1, Option.isNone_iff_eq_none.mp h2, h4, ?_⟩
  intro gs hv
  subst hv
  exact h3

theorem flatRel_cons_leaf (k : String) (v : JVal) (rest : JFields)
    (hv : v.isPlainObj = false) :
    flatRel (.cons k v rest) = ([k], v) :: flatRel rest := by
  cases v <;> first
    | rfl
    | exact absurd hv (by simp [JVal.isPlainObj])

theorem flattenFields_cons_not_obj (k : String) (v : JVal) (rest : JFields)
    (pre : String) (acc : JFields) (hv : v.isPlainObj = false) :
    flattenFields (.cons k v rest) pre acc
      = flattenFields rest pre
          (acc.insertKV (if pre = "" then k else pre ++ "." ++ k) v) := by
  cases v <;> first
    | rfl
    | exact absurd hv (by simp [JVal.isPlainObj])

theorem flatRel_path_ne_nil (fs : JFields) :
    ∀ e ∈ flatRel fs, e.1 ≠ [] := by
  induction fs using JFields.recNested with
  | nil => simp [flatRel]
  | consObj k gs rest ihg ihr =>
    intro e he
    rw [flatRel] at he
    rcases List.mem_append.mp he with hm | hm
    · rcases List.mem_map.mp hm with ⟨e', _, he'⟩
      subst he'
      simp
    · exact ihr e hm
  | consLeaf k v rest hv ihr =>
    intro e he
    rw [flatRel_cons_leaf k v rest hv] at he
    rcases List.mem_cons.mp he with he | hm
    · subst he; simp
    · exact ihr e hm

theorem flatRel_head_mem_keys (fs : JFields) :
    ∀ e ∈ flatRel fs, ∃ h t, e.1 = h :: t ∧ h ∈ fs.keys := by
  induction fs using JFields.recNested with
  | nil => simp [flatRel]
  | consObj k gs rest ihg ihr =>
    intro e he
    rw [flatRel] at he
    rcases List.mem_append.mp he with hm | hm
    · rcases List.mem_map.mp hm with ⟨e', _, he'⟩
      subst he'
      exact ⟨k, e'.1, rfl, by simp [JFields.keys_cons]⟩
    · rcases ihr e hm with ⟨h, t, he1, hkm⟩
      exact ⟨h, t, he1, by simp [JFields.keys_cons, hkm]⟩
  | consLeaf k v rest hv ihr =>
    intro e he
    rw [flatRel_cons_leaf k v rest hv] at he
    rcases List.mem_cons.mp he with he | hm
    · subst he
      exact ⟨k, [], rfl, by simp [JFields.keys_cons]⟩
    · rcases ihr e hm with ⟨h, t, he1, hkm⟩
      exact ⟨h, t, he1, by simp [JFields.keys_cons, hkm]⟩

theorem flatRel_clean (fs : JFields) :
    cleanFieldsB fs = true → ∀ e ∈ flatRel fs, ∀ s ∈ e.1, segClean s = true := by
  induction fs using JFields.recNested with
  | nil => simp [flatRel]
  | consObj k gs rest ihg ihr =>
    intro hc e he
    obtain ⟨hk, _, hrest, hobj⟩ := cleanFieldsB_parts hc
    rw [flatRel] at he
    rcases List.mem_append.mp he with hm | hm
    · rcases List.mem_map.mp hm with ⟨e', he'm, he'⟩
      subst he'
      intro s hs
      rcases List.mem_cons.mp hs with hs | hs
      · subst hs; exact hk
      · exact ihg (hobj gs rfl) e' he'm s hs
    · exact ihr hrest e hm
  | consLeaf k v rest hv ihr =>
    intro hc e he
    obtain ⟨hk, _, hrest, _⟩ := cleanFieldsB_parts hc
    rw [flatRel_cons_leaf k v rest hv] at he
    rcases List.mem_cons.mp he with he | hm
    · subst he
      intro s hs
      rcases List.mem_cons.mp hs with hs | hs
      · subst hs; exact hk
      · simp at hs
    · exact ihr hrest e hm

theorem flatRel_vals_not_obj (fs : JFields) :
    ∀ e ∈ flatRel fs, e.2.isPlainObj = false := by
  induction fs using JFields.recNested with
  | nil => simp [flatRel]
  | consObj k gs rest ihg ihr =>
    intro e he
    rw [flatRel] at he
    rcases List.mem_append.mp he with hm | hm
    · rcases List.mem_map.mp hm with ⟨e', he'm, he'⟩
      subst he'
      exact ihg e' he'm
    · exact ihr e hm
  | consLeaf k v rest hv ihr =>
    intro e he
    rw [flatRel_cons_leaf k v rest hv] at he
    rcases List.mem_cons.mp he with he | hm
    · subst he; exact hv
    · exact ihr e hm

theorem flatRel_paths_nodup (fs : JFields) :
    cleanFieldsB fs = true → ((flatRel fs).map (fun e => e.1)).Nodup := by
  induction fs using JFields.recNested with
  | nil => simp [flatRel]
  | consObj k gs rest ihg ihr =>
    intro hc
    obtain ⟨_, hkabs, hrest, hobj⟩ := cleanFieldsB_parts hc
    rw [flatRel]
    rw [List.map_append]
    refine List.Nodup.append ?_ (ihr hrest) ?_
    · rw [List.map_map]
      have : ((fun e => e.1) ∘ fun e => ((k :: e.1 : List String), e.2))
          = (fun l => k :: l) ∘ (fun (e : List String × JVal) => e.1) := rfl
      rw [this, ← List.map_map]
      exact (ihg (hobj gs rfl)).map (fun a b h => by simpa using h)
    · intro p hp hq
      rw [List.map_map] at hp
      rcases List.mem_map.mp hp with ⟨eg, _, hegp⟩
      rcases List.mem_map.mp hq with ⟨e'', he''m, he''p⟩
      rcases flatRel_head_mem_keys rest e'' he''m with ⟨h, t, he1, hkm⟩
      have hchain : h :: t = k :: eg.1 := by
        rw [← he1, he''p, ← hegp]
        rfl
      have hhk : h = k := by
        injection hchain with h1 h2
      rw [hhk] at hkm
      exact ((JFields.getv_eq_none_iff rest k).mp hkabs) hkm
  | consLeaf k v rest hv ihr =>
    intro hc
    obtain ⟨_, hkabs, hrest, _⟩ := cleanFieldsB_parts hc
    rw [flatRel_cons_leaf k v rest hv, List.map_cons, List.nodup_cons]
    refine ⟨?_, ihr hrest⟩
    intro hmem
    rcases List.mem_map.mp hmem with ⟨e', he'm, he'⟩
    rcases flatRel_head_mem_keys rest e' he'm with ⟨h, t, he1, hkm⟩
    rw [he'] at he1
    cases he1
    exact ((JFields.getv_eq_none_iff rest k).mp hkabs) hkm

theorem JFields.assignAll_toList (s : JFields) :
    ∀ (t : JFields), (∀ k ∈ s.keys, t.getv k = none) → s.keys.Nodup →
    (t.assignAll s).toList = t.toList ++ s.toList := by
  induction s using JFields.recList with
  | nil => intro t _ _; simp [JFields.assignAll, JFields.toList]
  | cons k v rest ih =>
    intro t hfresh hnod
    rw [JFields.keys_cons] at hfresh hnod
    have hk : t.getv k = none := hfresh k (List.mem_cons_self k _)
    rw [JFields.assignAll, ih (t.insertKV k v) ?_ (List.nodup_cons.mp hnod).2]
    · rw [JFields.toList_insertKV_absent t k v hk]
      simp [JFields.toList]
    · intro k' hk'
      have hne : k ≠ k' := by
        intro he
        subst he
        exact (List.nodup_cons.mp hnod).1 hk'
      rw [JFields.getv_insertKV_ne t k k' v (hne)]
      exact hfresh k' (List.mem_cons_of_mem k hk')

theorem flattenFields_toList_eq (fs : JFields) :
    cleanFieldsB fs = true →
    ∀ (preSegs : List String) (acc : JFields),
    (∀ s ∈ preSegs, segClean s = true) →
    (∀ e ∈ flatRel fs, acc.getv (joinDots (preSegs ++ e.1)) = none) →
    (flattenFields fs (joinDots preSegs) acc).toList
      = acc.toList ++ (flatRel fs).map (fun e => (joinDots (preSegs ++ e.1), e.2)) := by
  induction fs using JFields.recNested with
  | nil =>
    intro _ preSegs acc _ _
    simp [flattenFields, flatRel]
  | consLeaf k v rest hv ihr =>
    intro hc preSegs acc hpre hfresh
    obtain ⟨hk, hkabs, hrest, _⟩ := cleanFieldsB_parts hc
    rw [flattenFields_cons_not_obj k v rest (joinDots preSegs) acc hv]
    rw [fullKey_eq_joinDots preSegs k hpre]
    have hmem0 : ([k], v) ∈ flatRel (.cons k v rest) := by
      rw [flatRel_cons_leaf k v rest hv]
      exact List.mem_cons_self _ _
    have hfreshk : acc.getv (joinDots (preSegs ++ [k])) = none := hfresh _ hmem0
    rw [ihr hrest preSegs (acc.insertKV (joinDots (preSegs ++ [k])) v) hpre ?_]
    · rw [JFields.toList_insertKV_absent acc _ v hfreshk]
      rw [flatRel_cons_leaf k v rest hv, List.map_cons]
      simp
    · intro e he
      have hne : joinDots (preSegs ++ e.1) ≠ joinDots (preSegs ++ [k]) := by
        intro heq
        have hclean1 : ∀ s ∈ preSegs ++ e.1, segClean s = true := by
          intro s hs
          rcases List.mem_append.mp hs with hs | hs
          · exact hpre s hs
          · exact flatRel_clean rest hrest e he s hs
        have hclean2 : ∀ s ∈ preSegs ++ [k], segClean s = true := by
          intro s hs
          rcases List.mem_append.mp hs with hs | hs
          · exact hpre s hs
          · simp at hs
            subst hs
            exact hk
        have := joinDots_inj
          (by simp [flatRel_path_ne_nil rest e he]) (by simp)
          hclean1 hclean2 heq
        have he1 : e.1 = [k] := List.append_cancel_left this
        rcases flatRel_head_mem_keys rest e he with ⟨h, t, hht, hkm⟩
        rw [he1] at hht
        cases hht
        exact ((JFields.getv_eq_none_iff rest k).mp hkabs) hkm
      rw [JFields.getv_insertKV_ne acc _ _ v (fun heq => hne heq.symm)]
      exact hfresh e (by rw [flatRel_cons_leaf k v rest hv]; exact List.mem_cons_of_mem _ he)
  | consObj k gs rest ihg ihr =>
    intro hc preSegs acc hpre hfresh
    obtain ⟨hk, hkabs, hrest, hobj⟩ := cleanFieldsB_parts hc
    have hgs : cleanFieldsB gs = true := hobj gs rfl
    show (flattenFields rest (joinDots preSegs)
        (acc.assignAll (flattenFields gs
          (if joinDots preSegs = "" then k else joinDots preSegs ++ "." ++ k) .nil))).toList = _
    rw [fullKey_eq_joinDots preSegs k hpre]
    have hprek : ∀ s ∈ preSegs ++ [k], segClean s = true := by
      intro s hs
      rcases List.mem_append.mp hs with hs | hs
      · exact hpre s hs
      · simp at hs
        subst hs
        exact hk
    have hsub := ihg hgs (preSegs ++ [k]) .nil hprek (by simp [JFields.getv])
    -- the inner flatten of the object value, as an entry list
    have hsubkeys : (flattenFields gs (joinDots (preSegs ++ [k])) .nil).keys
        = (flatRel gs).map (fun e => joinDots ((preSegs ++ [k]) ++ e.1)) := by
      rw [JFields.keys, hsub]
      simp [JFields.toList]
    have hjoin_inj : ∀ e₁ ∈ flatRel gs, ∀ e₂ ∈ flatRel gs,
        joinDots ((preSegs ++ [k]) ++ e₁.1) = joinDots ((preSegs ++ [k]) ++ e₂.1) →
        e₁.1 = e₂.1 := by
      intro e₁ h₁ e₂ h₂ heq
      have hc1 : ∀ s ∈ (preSegs ++ [k]) ++ e₁.1, segClean s = true := by
        intro s hs
        rcases List.mem_append.mp hs with hs | hs
        · exact hprek s hs
        · exact flatRel_clean gs hgs e₁ h₁ s hs
      have hc2 : ∀ s ∈ (preSegs ++ [k]) ++ e₂.1, segClean s = true := by
        intro s hs
        rcases List.mem_append.mp hs with hs | hs
        · exact hprek s hs
        · exact flatRel_clean gs hgs e₂ h₂ s hs
      have := joinDots_inj (by simp) (by simp) hc1 hc2 heq
      exact List.append_cancel_left this
    have hf1 : ∀ k' ∈ (flattenFields gs (joinDots (preSegs ++ [k])) .nil).keys,
        acc.getv k' = none := by
      intro k' hk'
      rw [hsubkeys] at hk'
      rcases List.mem_map.mp hk' with ⟨eg, hegm, hegk⟩
      subst hegk
      have hmemc : ((k :: eg.1 : List String), eg.2) ∈ flatRel (.cons k (.obj gs) rest) := by
        rw [flatRel]
        exact List.mem_append.mpr (Or.inl (List.mem_map_of_mem _ hegm))
      have := hfresh _ hmemc
      simpa [List.append_assoc] using this
    have hf2 : (flattenFields gs (joinDots (preSegs ++ [k])) .nil).keys.Nodup := by
      rw [hsubkeys]
      have hmm : ((flatRel gs).map (fun e => joinDots (preSegs ++ [k] ++ e.1)))
          = ((flatRel gs).map (fun e => e.1)).map
              (fun p => joinDots (preSegs ++ [k] ++ p)) := by
        rw [List.map_map]
        rfl
      rw [hmm]
      refine List.Nodup.map_on ?_ (flatRel_paths_nodup gs hgs)
      intro p₁ hp₁ p₂ hp₂ heq
      rcases List.mem_map.mp hp₁ with ⟨e₁, he₁, hpe₁⟩
      rcases List.mem_map.mp hp₂ with ⟨e₂, he₂, hpe₂⟩
      subst hpe₁
      subst hpe₂
      exact hjoin_inj e₁ he₁ e₂ he₂ heq
    have hassign := JFields.assignAll_toList
      (flattenFields gs (joinDots (preSegs ++ [k])) .nil) acc hf1 hf2
    have hfreshAll : ∀ e ∈ flatRel rest,
        (acc.assignAll (flattenFields gs (joinDots (preSegs ++ [k])) .nil)).getv
          (joinDots (preSegs ++ e.1)) = none := by
      intro e he
      rw [JFields.getv_eq_none_iff, JFields.keys, hassign]
      rw [List.map_append, List.mem_append]
      intro hmem
      rcases hmem with hmem | hmem
      · have hrfresh : acc.getv (joinDots (preSegs ++ e.1)) = none := by
          apply hfresh
          rw [flatRel]
          exact List.mem_append.mpr (Or.inr he)
        rw [JFields.getv_eq_none_iff] at hrfresh
        exact hrfresh (by rw [JFields.keys]; exact hmem)
      · have hsubk : joinDots (preSegs ++ e.1)
            ∈ (flattenFields gs (joinDots (preSegs ++ [k])) .nil).keys := by
          rw [JFields.keys]
          exact hmem
        rw [hsubkeys] at hsubk
        rcases List.mem_map.mp hsubk with ⟨eg, hegm, hegk⟩
        have hclean1 : ∀ s ∈ preSegs ++ [k] ++ eg.1, segClean s = true := by
          intro s hs
          rcases List.mem_append.mp hs with hs | hs
          · exact hprek s hs
          · exact flatRel_clean gs hgs eg hegm s hs
        have hclean2 : ∀ s ∈ preSegs ++ e.1, segClean s = true := by
          intro s hs
          rcases List.mem_append.mp hs with hs | hs
          · exact hpre s hs
          · exact flatRel_clean rest hrest e he s hs
        have heqp := joinDots_inj (by simp) (by simp [flatRel_path_ne_nil rest e he])
          hclean1 hclean2 hegk
        rw [List.append_assoc] at heqp
        have he1 : ([k] : List String) ++ eg.1 = e.1 := List.append_cancel_left heqp
        rcases flatRel_head_mem_keys rest e he with ⟨h, t, hht, hkm⟩
        rw [hht] at he1
        have hhk : k = h := by
          have : (k :: eg.1 : List String) = h :: t := by simpa using he1
          injection this with h1 h2
        rw [← hhk] at hkm
        exact ((JFields.getv_eq_none_iff rest k).mp hkabs) hkm
    rw [ihr hrest preSegs _ hpre hfreshAll]
    rw [hassign, hsub]
    rw [flatRel]
    simp [List.map_append, List.map_map, List.append_assoc, JFields.toList]

/-! ### C10 — arrays are atomic leaves of the flattener -/

theorem nodeAtSegs_mem_flatRel (fs : JFields) :
    cleanFieldsB fs = true → ∀ (p : List String) (v : JVal),
    nodeAtSegs (.obj fs) p = some v → v.isPlainObj = false → p ≠ [] →
    (p, v) ∈ flatRel fs := by
  induction fs using JFields.recNested with
  | nil =>
    intro _ p v hnode _ hp
    cases p with
    | nil => exact absurd rfl hp
    | cons k p' => simp [nodeAtSegs, JFields.getv] at hnode
  | consObj k0 gs rest ihg ihr =>
    intro hc p v hnode hv hp
    obtain ⟨_, hkabs, hrest, hobj⟩ := cleanFieldsB_parts hc
    cases p with
    | nil => exact absurd rfl hp
    | cons k p' =>
      by_cases hk : k0 = k
      · subst hk
        rw [show nodeAtSegs (.obj (.cons k0 (.obj gs) rest)) (k0 :: p')
            = nodeAtSegs (.obj gs) p' by simp [nodeAtSegs, JFields.getv]] at hnode
        cases p' with
        | nil =>
          rw [nodeAtSegs] at hnode
          cases hnode
          simp [JVal.isPlainObj] at hv
        | cons q p'' =>
          have := ihg (hobj gs rfl) (q :: p'') v hnode hv (by simp)
          rw [flatRel]
          exact List.mem_append.mpr (Or.inl (List.mem_map_of_mem _ this))
      · rw [show nodeAtSegs (.obj (.cons k0 (.obj gs) rest)) (k :: p')
            = nodeAtSegs (.obj rest) (k :: p') by simp [nodeAtSegs, JFields.getv, hk]] at hnode
        have := ihr hrest (k :: p') v hnode hv (by simp)
        rw [flatRel]
        exact List.mem_append.mpr (Or.inr this)
  | consLeaf k0 v0 rest hv0 ihr =>
    intro hc p v hnode hv hp
    obtain ⟨_, hkabs, hrest, _⟩ := cleanFieldsB_parts hc
    cases p with
    | nil => exact absurd rfl hp
    | cons k p' =>
      by_cases hk : k0 = k
      · subst hk
        rw [show nodeAtSegs (.obj (.cons k0 v0 rest)) (k0 :: p')
            = nodeAtSegs v0 p' by simp [nodeAtSegs, JFields.getv]] at hnode
        cases p' with
        | nil =>
          rw [nodeAtSegs] at hnode
          cases hnode
          rw [flatRel_cons_leaf k0 v0 rest hv0]
          exact List.mem_cons_self _ _
        | cons q p'' =>
          cases v0 <;> simp [nodeAtSegs] at hnode <;> simp [JVal.isPlainObj] at hv0
      · rw [show nodeAtSegs (.obj (.cons k0 v0 rest)) (k :: p')
            = nodeAtSegs (.obj rest) (k :: p') by simp [nodeAtSegs, JFields.getv, hk]] at hnode
        have := ihr hrest (k :: p') v hnode hv (by simp)
        rw [flatRel_cons_leaf k0 v0 rest hv0]
        exact List.mem_cons_of_mem _ this

theorem flattenNestedContent_obj_toList (fs : JFields) (hc : cleanFieldsB fs = true) :
    (flattenNestedContent (.obj fs) "").toList
      = (flatRel fs).map (fun e => (joinDots e.1, e.2)) := by
  have h := flattenFields_toList_eq fs hc [] .nil (by simp) (by simp [JFields.getv])
  simpa [flattenNestedContent, joinDots, JFields.toList] using h

theorem flattenNestedContent_obj_keys_nodup (fs : JFields) (hc : cleanFieldsB fs = true) :
    (flattenNestedContent (.obj fs) "").keys.Nodup := by
  rw [JFields.keys, flattenNestedContent_obj_toList fs hc, List.map_map]
  have hmm : ((fun e : String × JVal => e.1) ∘ fun e : List String × JVal => (joinDots e.1, e.2))
      = (fun p => joinDots p) ∘ (fun e : List String × JVal => e.1) := rfl
  rw [hmm, ← List.map_map]
  refine List.Nodup.map_on ?_ (flatRel_paths_nodup fs hc)
  intro p₁ hp₁ p₂ hp₂ heq
  rcases List.mem_map.mp hp₁ with ⟨e₁, he₁, hpe₁⟩
  rcases List.mem_map.mp hp₂ with ⟨e₂, he₂, hpe₂⟩
  subst hpe₁
  subst hpe₂
  exact joinDots_inj (flatRel_path_ne_nil fs e₁ he₁) (flatRel_path_ne_nil fs e₂ he₂)
    (flatRel_clean fs hc e₁ he₁) (flatRel_clean fs hc e₂ he₂) heq

/-- C10: arrays are atomic leaves — for every input object with clean keys
(non-empty, dot-free, duplicate-free: what locale JSON provides), an array
occurring at a path is never recursed into by `flattenNestedContent`: it is
emitted whole as the value of the single flat entry under its dotted path
(the flat keys are duplicate-free), and no emitted value is a plain object
even though the spec's data model admits only string and null leaves. -/
theorem flatten_arrays_atomic (fs : JFields) (p : List String) (xs : JArr)
    (hclean : cleanFieldsB fs = true)
    (hnode : nodeAtSegs (.obj fs) p = some (.arr xs)) (hp : p ≠ []) :
    (flattenNestedContent (.obj fs) "").getv (joinDots p) = some (.arr xs) ∧
    (flattenNestedContent (.obj fs) "").keys.Nodup ∧
    ∀ e ∈ (flattenNestedContent (.obj fs) "").toList, e.2.isPlainObj = false := by
  have hmem : (p, JVal.arr xs) ∈ flatRel fs :=
    nodeAtSegs_mem_flatRel fs hclean p (.arr xs) hnode (by simp [JVal.isPlainObj]) hp
  have hnodup := flattenNestedContent_obj_keys_nodup fs hclean
  refine ⟨?_, hnodup, ?_⟩
  · refine JFields.getv_of_mem_nodup _ _ _ hnodup ?_
    rw [flattenNestedContent_obj_toList fs hclean]
    exact List.mem_map.mpr ⟨(p, JVal.arr xs), hmem, rfl⟩
  · intro e he
    rw [flattenNestedContent_obj_toList fs hclean] at he
    rcases List.mem_map.mp he with ⟨e', he'm, he'⟩
    subst he'
    exact flatRel_vals_not_obj fs e' he'm

/-- C10 witness: the array value at path `a.b` is emitted whole under the
flat key `"a.b"`. -/
theorem flatten_arrays_atomic_witness :
    (flattenNestedContent
      (.obj (.cons "a" (.obj (.cons "b" (.arr (.cons (.str "x") .nil)) .nil)) .nil)) "").getv
        "a.b" = some (.arr (.cons (.str "x") .nil)) := by
  have h := flatten_arrays_atomic
    (.cons "a" (.obj (.cons "b" (.arr (.cons (.str "x") .nil)) .nil)) .nil)
    ["a", "b"] (.cons (.str "x") .nil)
    (by decide) (by decide) (by decide)
  exact h.1

/-! ### C1 — round-trip law (amended: clean keys) -/

theorem JFields.getv_insertKV_self (fs : JFields) (k : String) (v : JVal) :
    (fs.insertKV k v).getv k = some v := by
  induction fs using JFields.recList with
  | nil => simp [JFields.insertKV, JFields.getv]
  | cons k0 v0 rest ih =>
    by_cases h0 : k0 = k
    · subst h0
      simp [JFields.insertKV, JFields.getv]
    · simp [JFields.insertKV, h0, JFields.getv, ih]

theorem JFields.insertKV_insertKV_same (fs : JFields) (k : String) (v w : JVal) :
    (fs.insertKV k v).insertKV k w = fs.insertKV k w := by
  induction fs using JFields.recList with
  | nil => simp [JFields.insertKV]
  | cons k0 v0 rest ih =>
    by_cases h0 : k0 = k
    · subst h0
      simp [JFields.insertKV]
    · simp [JFields.insertKV, h0, ih]

theorem wfFieldsB_cons_eq (k : String) (v : JVal) (rest : JFields) :
    wfFieldsB (.cons k v rest)
      = (segClean k && (rest.getv k).isNone &&
          (match v with
           | .str _ => true
           | .obj gs => gs != JFields.nil && wfFieldsB gs
           | _ => false) &&
          wfFieldsB rest) := by
  cases v <;> rfl

theorem wfFieldsB_parts {k : String} {v : JVal} {rest : JFields}
    (h : wfFieldsB (.cons k v rest) = true) :
    segClean k = true ∧ rest.getv k = none ∧ wfFieldsB rest = true ∧
      ((∃ s, v = .str s) ∨ ∃ gs, v = .obj gs ∧ gs ≠ JFields.nil ∧ wfFieldsB gs = true) := by
  rw [wfFieldsB_cons_eq, Bool.and_eq_true, Bool.and_eq_true, Bool.and_eq_true] at h
  obtain ⟨⟨⟨h1, h2⟩, h3⟩, h4⟩ := h
  refine ⟨h1, Option.isNone_iff_eq_none.mp h2, h4, ?_⟩
  cases v with
  | str s => exact Or.inl ⟨s, rfl⟩
  | obj gs =>
    have h3' : (gs != JFields.nil && wfFieldsB gs) = true := h3
    rw [Bool.and_eq_true] at h3'
    exact Or.inr ⟨gs, rfl, by simpa using h3'.1, h3'.2⟩
  | num n => simp at h3
  | bool b => simp at h3
  | null => simp at h3
  | arr xs => simp at h3

theorem wfFieldsB_clean (fs : JFields) :
    wfFieldsB fs = true → cleanFieldsB fs = true := by
  induction fs using JFields.recNested with
  | nil => intro _; rfl
  | consObj k gs rest ihg ihr =>
    intro h
    obtain ⟨h1, h2, h3, h4⟩ := wfFieldsB_parts h
    rcases h4 with ⟨s, hs⟩ | ⟨gs', hgs', _, hwfg⟩
    · cases hs
    · cases hgs'
      rw [cleanFieldsB_cons_eq]
      simp only [Bool.and_eq_true]
      exact ⟨⟨⟨h1, Option.isNone_iff_eq_none.mpr h2⟩, ihg hwfg⟩, ihr h3⟩
  | consLeaf k v rest hv ihr =>
    intro h
    obtain ⟨h1, h2, h3, h4⟩ := wfFieldsB_parts h
    rw [cleanFieldsB_cons_eq]
    simp only [Bool.and_eq_true]
    refine ⟨⟨⟨h1, Option.isNone_iff_eq_none.mpr h2⟩, ?_⟩, ihr h3⟩
    rcases h4 with ⟨s, hs⟩ | ⟨gs', hgs', _, _⟩
    · subst hs; rfl
    · subst hgs'; simp [JVal.isPlainObj] at hv

theorem flatRel_ne_nil_of_wf (fs : JFields) :
    wfFieldsB fs = true → fs ≠ .nil → flatRel fs ≠ [] := by
  induction fs using JFields.recNested with
  | nil => intro _ h; exact absurd rfl h
  | consObj k gs rest ihg ihr =>
    intro h _
    obtain ⟨_, _, _, h4⟩ := wfFieldsB_parts h
    rcases h4 with ⟨s, hs⟩ | ⟨gs', hgs', hgsnil, hwfg⟩
    · cases hs
    · cases hgs'
      have := ihg hwfg hgsnil
      rw [flatRel]
      intro happ
      rcases List.append_eq_nil.mp happ with ⟨hmap, _⟩
      exact this (List.map_eq_nil_iff.mp hmap)
  | consLeaf k v rest hv ihr =>
    intro h _
    rw [flatRel_cons_leaf k v rest hv]
    simp

theorem foldSet_dive (es : List (List String × JVal)) :
    (∀ e ∈ es, e.1 ≠ []) → es ≠ [] →
    ∀ (accFs : JFields) (k : String),
    (es.map (fun e => ((k :: e.1 : List String), e.2))).foldlM
      (fun (acc : JVal) (e : List String × JVal) => match e.1 with
        | k0 :: rest => setPathSegs acc k0 rest e.2
        | [] => Except.error JsErr.typeError) (JVal.obj accFs)
    = (es.foldlM (fun (acc : JVal) (e : List String × JVal) => match e.1 with
        | k0 :: rest => setPathSegs acc k0 rest e.2
        | [] => Except.error JsErr.typeError) ((accFs.getv k).getD (.obj .nil))).map
        (fun c' => JVal.obj (accFs.insertKV k c')) := by
  induction es with
  | nil => intro _ h; exact absurd rfl h
  | cons e es' ih =>
    intro hne _ accFs k
    obtain ⟨p, v⟩ := e
    rcases p with _ | ⟨k1, r1⟩
    · exact absurd rfl (hne ([], v) (List.mem_cons_self _ es'))
    · rw [List.map_cons, List.foldlM_cons, List.foldlM_cons]
      dsimp only
      rw [show setPathSegs (JVal.obj accFs) k (k1 :: r1) v
          = (setPathSegs ((accFs.getv k).getD (.obj .nil)) k1 r1 v).map
              (fun c' => JVal.obj (accFs.insertKV k c')) from by
        rw [setPathSegs]
        cases hg : accFs.getv k <;> rfl]
      rcases hinner : setPathSegs ((accFs.getv k).getD (.obj .nil)) k1 r1 v with err | c1
      · rfl
      · rw [show (Except.ok c1).map (fun c' => JVal.obj (accFs.insertKV k c'))
            = Except.ok (JVal.obj (accFs.insertKV k c1)) from rfl]
        rw [exceptBindOk, exceptBindOk]
        cases es' with
        | nil =>
          rw [List.map_nil, List.foldlM_nil, List.foldlM_nil]
          rfl
        | cons e2 es'' =>
          rw [ih (fun e h => hne e (List.mem_cons_of_mem _ h)) (by simp) (accFs.insertKV k c1) k]
          rw [show ((accFs.insertKV k c1).getv k).getD (.obj .nil) = c1 by
            rw [JFields.getv_insertKV_self]; rfl]
          have hfun : (fun c' => JVal.obj ((accFs.insertKV k c1).insertKV k c'))
              = (fun c' => JVal.obj (accFs.insertKV k c')) := by
            funext c'
            rw [JFields.insertKV_insertKV_same]
          rw [hfun]

theorem foldlM_map_eq {m : Type → Type} [Monad m] {α β γ : Type}
    (g : α → β) (f : γ → β → m γ) (b : γ) (l : List α) :
    (l.map g).foldlM f b = l.foldlM (fun x a => f x (g a)) b := by
  induction l generalizing b with
  | nil => rfl
  | cons a t ih => rw [List.map_cons, List.foldlM_cons, List.foldlM_cons]; simp [ih]

theorem foldlM_congr_mem {m : Type → Type} [Monad m] {α β : Type}
    (l : List α) (f g : β → α → m β) (b : β)
    (h : ∀ b' a, a ∈ l → f b' a = g b' a) : l.foldlM f b = l.foldlM g b := by
  induction l generalizing b with
  | nil => rfl
  | cons a t ih =>
    rw [List.foldlM_cons, List.foldlM_cons, h b a (List.mem_cons_self a t)]
    have : ∀ b', t.foldlM f b' = t.foldlM g b' :=
      fun b' => ih b' (fun b'' a' ha' => h b'' a' (List.mem_cons_of_mem a ha'))
    simp only [this]

theorem foldSet_flatRel (fs : JFields) :
    wfFieldsB fs = true →
    ∀ (accFs : JFields), (∀ kk ∈ fs.keys, accFs.getv kk = none) →
    (flatRel fs).foldlM
      (fun (acc : JVal) (e : List String × JVal) => match e.1 with
        | k0 :: rest => setPathSegs acc k0 rest e.2
        | [] => Except.error JsErr.typeError) (JVal.obj accFs)
    = .ok (.obj (accFs.append fs)) := by
  induction fs using JFields.recNested with
  | nil =>
    intro _ accFs _
    rw [flatRel, List.foldlM_nil, JFields.append_nil]
    rfl
  | consLeaf k v rest hv ihr =>
    intro hwf accFs hfresh
    obtain ⟨_, hkabs, hwfrest, _⟩ := wfFieldsB_parts hwf
    rw [flatRel_cons_leaf k v rest hv, List.foldlM_cons]
    dsimp only
    have hkfresh : accFs.getv k = none :=
      hfresh k (by simp [JFields.keys_cons])
    rw [show setPathSegs (JVal.obj accFs) k [] v
        = .ok (.obj (accFs.insertKV k v)) from rfl, exceptBindOk]
    rw [ihr hwfrest (accFs.insertKV k v) ?_]
    · rw [JFields.insertKV_absent_eq_append accFs k v hkfresh, JFields.append_assoc]
      rfl
    · intro kk hkk
      have hkkne : k ≠ kk := by
        intro he
        subst he
        exact ((JFields.getv_eq_none_iff rest k).mp hkabs) hkk
      rw [JFields.getv_insertKV_ne accFs k kk v hkkne]
      exact hfresh kk (by simp [JFields.keys_cons, hkk])
  | consObj k gs rest ihg ihr =>
    intro hwf accFs hfresh
    obtain ⟨_, hkabs, hwfrest, h4⟩ := wfFieldsB_parts hwf
    rcases h4 with ⟨s, hs⟩ | ⟨gs', hgs', hgsnil, hwfg⟩
    · cases hs
    cases hgs'
    rw [flatRel, List.foldlM_append]
    have hkfresh : accFs.getv k = none :=
      hfresh k (by simp [JFields.keys_cons])
    rw [foldSet_dive (flatRel gs) (flatRel_path_ne_nil gs) (flatRel_ne_nil_of_wf gs hwfg hgsnil)
      accFs k]
    rw [hkfresh]
    rw [show (Option.none.getD (JVal.obj JFields.nil)) = JVal.obj JFields.nil from rfl]
    rw [ihg hwfg .nil (by simp [JFields.getv])]
    rw [show (JFields.nil.append gs) = gs from rfl]
    rw [show (Except.ok (JVal.obj gs)).map (fun c' => JVal.obj (accFs.insertKV k c'))
        = Except.ok (JVal.obj (accFs.insertKV k (.obj gs))) from rfl, exceptBindOk]
    rw [ihr hwfrest (accFs.insertKV k (.obj gs)) ?_]
    · rw [JFields.insertKV_absent_eq_append accFs k (.obj gs) hkfresh, JFields.append_assoc]
      rfl
    · intro kk hkk
      have hkkne : k ≠ kk := by
        intro he
        subst he
        exact ((JFields.getv_eq_none_iff rest k).mp hkabs) hkk
      rw [JFields.getv_insertKV_ne accFs k kk _ hkkne]
      exact hfresh kk (by simp [JFields.keys_cons, hkk])

/-- C1 amended: round-trip — for every well-formed tree (string leaves,
non-empty nested objects, duplicate-free keys that are non-empty and
dot-free), materializing the flattened form returns the original tree:
`unflattenContent (flattenNestedContent T "") = .ok T`. -/
theorem flatten_unflatten_roundtrip (T : JVal) (hwf : wfTreeB T = true) :
    unflattenContent (flattenNestedContent T "") = .ok T := by
  cases T with
  | obj fs =>
    have hwf' : wfFieldsB fs = true := by
      rw [wfTreeB, Bool.and_eq_true] at hwf
      exact hwf.2
    rw [unflattenContent, flattenNestedContent_obj_toList fs (wfFieldsB_clean fs hwf')]
    rw [foldlM_map_eq]
    rw [foldlM_congr_mem (flatRel fs) _
      (fun (acc : JVal) (e : List String × JVal) => match e.1 with
        | k0 :: rest => setPathSegs acc k0 rest e.2
        | [] => Except.error JsErr.typeError)
      _ ?_]
    · rw [foldSet_flatRel fs hwf' .nil (by simp [JFields.getv])]
      rfl
    · intro b' e he
      dsimp only
      rw [jsSplitDot_joinDots e.1 (flatRel_path_ne_nil fs e he)
        (flatRel_clean fs (wfFieldsB_clean fs hwf') e he)]
  | str s => simp [wfTreeB] at hwf
  | num n => simp [wfTreeB] at hwf
  | bool b => simp [wfTreeB] at hwf
  | null => simp [wfTreeB] at hwf
  | arr xs => simp [wfTreeB] at hwf

/-- C1 witness: the two-level tree `a -> b -> "x"` is well-formed and
round-trips. -/
theorem flatten_unflatten_roundtrip_witness :
    unflattenContent (flattenNestedContent
      (.obj (.cons "a" (.obj (.cons "b" (.str "x") .nil)) .nil)) "")
    = .ok (.obj (.cons "a" (.obj (.cons "b" (.str "x") .nil)) .nil)) :=
  flatten_unflatten_roundtrip
    (.obj (.cons "a" (.obj (.cons "b" (.str "x") .nil)) .nil)) (by decide)

theorem setPathSegs_prefix_leaf (q : List String) :
    ∀ (t : JVal) (s k : String) (rest : List String) (v : JVal),
    nodeAtSegs t q = some (.str s) →
    ∀ (k0 : String) (segs : List String), k0 :: segs = q ++ k :: rest →
    setPathSegs t k0 segs v = .error .typeError := by
  induction q with
  | nil =>
    intro t s k rest v hleaf k0 segs heq
    rw [List.nil_append] at heq
    injection heq with h1 h2
    subst h1; subst h2
    rw [nodeAtSegs] at hleaf
    injection hleaf with hleaf
    subst hleaf
    cases segs <;> rfl
  | cons q0 q' ih =>
    intro t s k rest v hleaf k0 segs heq
    rw [List.cons_append] at heq
    injection heq with h1 h2
    subst h1; subst h2
    cases t with
    | obj fs =>
      rw [nodeAtSegs] at hleaf
      cases hg : fs.getv k0 with
      | none => rw [hg] at hleaf; cases hleaf
      | some c =>
        rw [hg] at hleaf
        rcases hne : q' ++ k :: rest with _ | ⟨e, es⟩
        · cases q' <;> simp at hne
        · rw [show setPathSegs (JVal.obj fs) k0 (e :: es) v
              = (setPathSegs c e es v).map (fun c' => JVal.obj (fs.insertKV k0 c'))
            from by rw [setPathSegs, hg]]
          rw [ih c s k rest v hleaf e es hne.symm]
          rfl
    | str s' => exact Option.noConfusion hleaf
    | num n => exact Option.noConfusion hleaf
    | bool b => exact Option.noConfusion hleaf
    | null => exact Option.noConfusion hleaf
    | arr xs => exact Option.noConfusion hleaf

/-- C7 amended: when the written path has a proper dot-prefix that addresses
an existing string leaf, `setNestedProperty` fails with the generic
JavaScript `TypeError` (the `in` operator, or a strict-mode property write,
applied to a primitive) — not with any dedicated conflicting-path error. -/
theorem setNestedProperty_conflict_typeError (t : JVal) (path : String) (v : JVal)
    (q : List String) (k : String) (rest : List String) (s : String)
    (hsplit : jsSplitDot path = q ++ k :: rest)
    (hleaf : nodeAtSegs t q = some (.str s)) :
    setNestedProperty t path v = .error .typeError := by
  rw [setNestedProperty, hsplit]
  cases q with
  | nil =>
    rw [List.nil_append]
    exact setPathSegs_prefix_leaf [] t s k rest v hleaf k rest rfl
  | cons q0 q' =>
    rw [List.cons_append]
    exact setPathSegs_prefix_leaf (q0 :: q') t s k rest v hleaf q0 (q' ++ k :: rest) rfl

/-- C7 witness: in `x -> y -> "hi"`, writing at path `"x.y.z.w"` (whose
proper prefix `x.y` addresses the string leaf) throws the `TypeError`. -/
theorem setNestedProperty_conflict_typeError_witness :
    setNestedProperty (.obj (.cons "x" (.obj (.cons "y" (.str "hi") .nil)) .nil))
      "x.y.z.w" (.str "v") = .error .typeError :=
  setNestedProperty_conflict_typeError
    (.obj (.cons "x" (.obj (.cons "y" (.str "hi") .nil)) .nil))
    "x.y.z.w" (.str "v") ["x", "y"] "z" ["w"] "hi" (by decide) (by decide)

/-! ### C9 — merge order-independence: field-list algebra -/

theorem JFields.getv_eraseKV_ne (fs : JFields) (k k' : String) (h : k ≠ k') :
    (fs.eraseKV k).getv k' = fs.getv k' := by
  induction fs using JFields.recList with
  | nil => rfl
  | cons k0 v0 rest ih =>
    by_cases h0 : k0 = k
    · subst h0
      simp [JFields.eraseKV, JFields.getv, h]
    · simp [JFields.eraseKV, JFields.getv, h0, ih]

theorem JFields.eraseKV_absent (fs : JFields) (k : String) (h : fs.getv k = none) :
    fs.eraseKV k = fs := by
  induction fs using JFields.recList with
  | nil => rfl
  | cons k0 v0 rest ih =>
    rw [JFields.getv] at h
    by_cases h0 : k0 = k
    · rw [if_pos h0] at h; cases h
    · rw [if_neg h0] at h
      simp [JFields.eraseKV, h0, ih h]

theorem JFields.insertKV_self_id (fs : JFields) (k : String) (v : JVal)
    (h : fs.getv k = some v) : fs.insertKV k v = fs := by
  induction fs using JFields.recList with
  | nil => cases h
  | cons k0 v0 rest ih =>
    rw [JFields.getv] at h
    by_cases h0 : k0 = k
    · rw [if_pos h0] at h
      injection h with h
      simp [JFields.insertKV, h0, h]
    · rw [if_neg h0] at h
      simp [JFields.insertKV, h0, ih h]

theorem JFields.insertKV_eraseKV_comm (fs : JFields) (k k' : String) (x : JVal)
    (h : k ≠ k') : (fs.insertKV k x).eraseKV k' = (fs.eraseKV k').insertKV k x := by
  induction fs using JFields.recList with
  | nil => simp [JFields.insertKV, JFields.eraseKV, h]
  | cons k0 v0 rest ih =>
    by_cases h0 : k0 = k
    · subst h0
      simp [JFields.insertKV, JFields.eraseKV, h]
    · by_cases h1 : k0 = k'
      · subst h1
        simp [JFields.insertKV, JFields.eraseKV, h0, Ne.symm h]
      · simp [JFields.insertKV, JFields.eraseKV, h0, h1, ih]

theorem JFields.eraseKV_eraseKV_comm (fs : JFields) (k k' : String) (h : k ≠ k') :
    (fs.eraseKV k).eraseKV k' = (fs.eraseKV k').eraseKV k := by
  induction fs using JFields.recList with
  | nil => rfl
  | cons k0 v0 rest ih =>
    by_cases h0 : k0 = k
    · subst h0
      simp [JFields.eraseKV, h]
    · by_cases h1 : k0 = k'
      · subst h1
        simp [JFields.eraseKV, h0]
      · simp [JFields.eraseKV, h0, h1, ih]

theorem keysNodupB_insertKV (fs : JFields) (k : String) (v : JVal)
    (h : keysNodupB fs = true) : keysNodupB (fs.insertKV k v) = true := by
  induction fs using JFields.recList with
  | nil => simp [JFields.insertKV, keysNodupB, JFields.getv]
  | cons k0 v0 rest ih =>
    rw [keysNodupB, Bool.and_eq_true] at h
    by_cases h0 : k0 = k
    · subst h0
      simp only [JFields.insertKV, if_pos rfl, keysNodupB, Bool.and_eq_true]
      exact h
    · simp only [JFields.insertKV, if_neg h0, keysNodupB, Bool.and_eq_true]
      refine ⟨?_, ih h.2⟩
      rw [JFields.getv_insertKV_ne rest k k0 v (fun he => h0 he.symm)]
      exact h.1

theorem keysNodupB_eraseKV (fs : JFields) (k : String)
    (h : keysNodupB fs = true) : keysNodupB (fs.eraseKV k) = true := by
  induction fs using JFields.recList with
  | nil => rfl
  | cons k0 v0 rest ih =>
    rw [keysNodupB, Bool.and_eq_true] at h
    by_cases h0 : k0 = k
    · rw [JFields.eraseKV, if_pos h0]
      exact h.2
    · rw [JFields.eraseKV, if_neg h0, keysNodupB, Bool.and_eq_true]
      refine ⟨?_, ih h.2⟩
      rw [JFields.getv_eraseKV_ne rest k k0 (fun he => h0 he.symm)]
      exact h.1

theorem sortedInsertKV_comm (l : JFields) (k k' : String) (x y : JVal)
    (h : k ≠ k') :
    JFields.sortedInsertKV k x (JFields.sortedInsertKV k' y l)
      = JFields.sortedInsertKV k' y (JFields.sortedInsertKV k x l) := by
  induction l using JFields.recList with
  | nil =>
    rcases lt_trichotomy k k' with hlt | heq | hgt
    · simp [JFields.sortedInsertKV, hlt, lt_asymm hlt, h, Ne.symm h]
    · exact absurd heq h
    · simp [JFields.sortedInsertKV, hgt, lt_asymm hgt, h, Ne.symm h]
  | cons k0 v0 rest ih =>
    rcases lt_trichotomy k k' with hlt | heq | hgt
    · by_cases h0 : k' < k0
      · simp [JFields.sortedInsertKV, h0, hlt, lt_trans hlt h0, lt_asymm hlt, h, Ne.symm h]
      · by_cases h1 : k' = k0
        · subst h1
          simp [JFields.sortedInsertKV, h0, hlt, lt_asymm hlt, h, Ne.symm h]
        · by_cases h2 : k < k0
          · simp [JFields.sortedInsertKV, h0, h1, h2, hlt, lt_asymm hlt, h, Ne.symm h]
          · by_cases h3 : k = k0
            · subst h3
              simp [JFields.sortedInsertKV, h0, h1, h2, hlt, lt_asymm hlt, h, Ne.symm h]
            · simp [JFields.sortedInsertKV, h0, h1, h2, h3, ih, h, Ne.symm h]
    · exact absurd heq h
    · by_cases h0 : k < k0
      · simp [JFields.sortedInsertKV, h0, hgt, lt_trans hgt h0, lt_asymm hgt, h, Ne.symm h]
      · by_cases h1 : k = k0
        · subst h1
          simp [JFields.sortedInsertKV, h0, hgt, lt_asymm hgt, h, Ne.symm h]
        · by_cases h2 : k' < k0
          · simp [JFields.sortedInsertKV, h0, h1, h2, hgt, lt_asymm hgt, Ne.symm h, h]
          · by_cases h3 : k' = k0
            · subst h3
              simp [JFields.sortedInsertKV, h0, h1, h2, hgt, lt_asymm hgt, h, Ne.symm h]
            · simp [JFields.sortedInsertKV, h0, h1, h2, h3, ih, h, Ne.symm h]

theorem sortedInsertKV_override (l : JFields) (k : String) (x y : JVal) :
    JFields.sortedInsertKV k x (JFields.sortedInsertKV k y l)
      = JFields.sortedInsertKV k x l := by
  induction l using JFields.recList with
  | nil => simp [JFields.sortedInsertKV, lt_irrefl]
  | cons k0 v0 rest ih =>
    by_cases h0 : k < k0
    · simp [JFields.sortedInsertKV, h0, lt_irrefl]
    · by_cases h1 : k = k0
      · subst h1
        simp [JFields.sortedInsertKV, h0, lt_irrefl]
      · simp [JFields.sortedInsertKV, h0, h1, ih]

theorem getv_sortedInsertKV (l : JFields) (k k' : String) (x : JVal) :
    (JFields.sortedInsertKV k x l).getv k'
      = if k = k' then some x else l.getv k' := by
  induction l using JFields.recList with
  | nil =>
    rw [show JFields.sortedInsertKV k x .nil = .cons k x .nil from rfl, JFields.getv]
    rfl
  | cons k0 v0 rest ih =>
    by_cases h0 : k < k0
    · rw [show JFields.sortedInsertKV k x (.cons k0 v0 rest)
          = .cons k x (.cons k0 v0 rest) from by rw [JFields.sortedInsertKV, if_pos h0]]
      rw [JFields.getv]
    · by_cases h1 : k = k0
      · rw [show JFields.sortedInsertKV k x (.cons k0 v0 rest)
            = .cons k x rest from by
          rw [JFields.sortedInsertKV, if_neg h0, if_pos h1]]
        rw [JFields.getv]
        by_cases h : k = k'
        · rw [if_pos h, if_pos h]
        · rw [if_neg h, if_neg h, JFields.getv, if_neg (fun he => h (h1.trans he))]
      · rw [show JFields.sortedInsertKV k x (.cons k0 v0 rest)
            = .cons k0 v0 (JFields.sortedInsertKV k x rest) from by
          rw [JFields.sortedInsertKV, if_neg h0, if_neg h1]]
        rw [JFields.getv, ih, JFields.getv]
        by_cases h2 : k0 = k'
        · rw [if_pos h2, if_neg (fun he => h1 (he.trans h2.symm)), if_pos h2]
        · rw [if_neg h2, if_neg h2]

theorem sortedKeysB_tail (k : String) (v : JVal) (rest : JFields)
    (h : sortedKeysB (.cons k v rest) = true) : sortedKeysB rest = true := by
  cases rest with
  | nil => rfl
  | cons k' v' r =>
    rw [sortedKeysB, Bool.and_eq_true] at h
    exact h.2

theorem sortedKeysB_sortedInsertKV (l : JFields) (k : String) (x : JVal)
    (h : sortedKeysB l = true) :
    sortedKeysB (JFields.sortedInsertKV k x l) = true := by
  induction l using JFields.recList with
  | nil => rfl
  | cons k0 v0 rest ih =>
    by_cases h0 : k < k0
    · rw [show JFields.sortedInsertKV k x (.cons k0 v0 rest)
          = .cons k x (.cons k0 v0 rest) from by rw [JFields.sortedInsertKV, if_pos h0]]
      rw [sortedKeysB, Bool.and_eq_true]
      exact ⟨decide_eq_true h0, h⟩
    · by_cases h1 : k = k0
      · subst h1
        rw [show JFields.sortedInsertKV k x (.cons k v0 rest)
            = .cons k x rest from by
          rw [JFields.sortedInsertKV, if_neg h0, if_pos rfl]]
        cases rest with
        | nil => rfl
        | cons k' v' r =>
          rw [sortedKeysB, Bool.and_eq_true] at h ⊢
          exact h
      · rw [show JFields.sortedInsertKV k x (.cons k0 v0 rest)
            = .cons k0 v0 (JFields.sortedInsertKV k x rest) from by
          rw [JFields.sortedInsertKV, if_neg h0, if_neg h1]]
        have hk0k : k0 < k := lt_of_le_of_ne (le_of_not_lt h0) (fun he => h1 he.symm)
        have hrest := ih (sortedKeysB_tail k0 v0 rest h)
        cases hr : rest with
        | nil =>
          rw [show JFields.sortedInsertKV k x .nil = .cons k x .nil from rfl]
          rw [sortedKeysB, Bool.and_eq_true]
          exact ⟨decide_eq_true hk0k, rfl⟩
        | cons k' v' r =>
          rw [hr] at h hrest
          rw [sortedKeysB, Bool.and_eq_true] at h
          by_cases h2 : k < k'
          · rw [show JFields.sortedInsertKV k x (.cons k' v' r)
                = .cons k x (.cons k' v' r) from by
              rw [JFields.sortedInsertKV, if_pos h2]] at hrest ⊢
            rw [sortedKeysB, Bool.and_eq_true]
            exact ⟨decide_eq_true hk0k, hrest⟩
          · by_cases h3 : k = k'
            · rw [show JFields.sortedInsertKV k x (.cons k' v' r)
                  = .cons k x r from by
                rw [JFields.sortedInsertKV, if_neg h2, if_pos h3]] at hrest ⊢
              rw [sortedKeysB]
              cases r with
              | nil => simp [hk0k, sortedKeysB]
              | cons ka va ra =>
                rw [Bool.and_eq_true]
                refine ⟨decide_eq_true hk0k, ?_⟩
                exact hrest
            · rw [show JFields.sortedInsertKV k x (.cons k' v' r)
                  = .cons k' v' (JFields.sortedInsertKV k x r) from by
                rw [JFields.sortedInsertKV, if_neg h2, if_neg h3]] at hrest ⊢
              rw [sortedKeysB, Bool.and_eq_true]
              exact ⟨h.1, hrest⟩

theorem sortedKeysB_canonFields (fs : JFields) :
    sortedKeysB (canonFields fs) = true := by
  induction fs using JFields.recList with
  | nil => rfl
  | cons k v rest ih =>
    rw [canonFields]
    exact sortedKeysB_sortedInsertKV (canonFields rest) k (canon v) ih

theorem eraseKV_sortedInsertKV_absent (l : JFields) (k : String) (x : JVal)
    (h : l.getv k = none) : (JFields.sortedInsertKV k x l).eraseKV k = l := by
  induction l using JFields.recList with
  | nil => simp [JFields.sortedInsertKV, JFields.eraseKV]
  | cons k0 v0 rest ih =>
    rw [JFields.getv] at h
    by_cases h0 : k0 = k
    · rw [if_pos h0] at h; cases h
    · rw [if_neg h0] at h
      by_cases h1 : k < k0
      · rw [show JFields.sortedInsertKV k x (.cons k0 v0 rest)
            = .cons k x (.cons k0 v0 rest) from by
          rw [JFields.sortedInsertKV, if_pos h1]]
        rw [JFields.eraseKV, if_pos rfl]
      · rw [show JFields.sortedInsertKV k x (.cons k0 v0 rest)
            = .cons k0 v0 (JFields.sortedInsertKV k x rest) from by
          rw [JFields.sortedInsertKV, if_neg h1, if_neg (fun he => h0 he.symm)]]
        rw [JFields.eraseKV, if_neg h0, ih h]

theorem eraseKV_sortedInsertKV_ne (l : JFields) (k k' : String) (x : JVal)
    (hs : sortedKeysB l = true) (h : k ≠ k') :
    (JFields.sortedInsertKV k' x l).eraseKV k
      = JFields.sortedInsertKV k' x (l.eraseKV k) := by
  induction l using JFields.recList with
  | nil =>
    rw [show JFields.sortedInsertKV k' x .nil = .cons k' x .nil from rfl]
    rw [show JFields.eraseKV .nil k = .nil from rfl]
    rw [JFields.eraseKV, if_neg (fun he => h he.symm)]
    rfl
  | cons kh y t ih =>
    by_cases h1 : k' < kh
    · rw [show JFields.sortedInsertKV k' x (.cons kh y t)
          = .cons k' x (.cons kh y t) from by rw [JFields.sortedInsertKV, if_pos h1]]
      rw [JFields.eraseKV, if_neg (fun he => h he.symm)]
      by_cases h2 : kh = k
      · rw [JFields.eraseKV, if_pos h2]
        cases t with
        | nil => rfl
        | cons t0 w t' =>
          rw [sortedKeysB, Bool.and_eq_true] at hs
          have hlt : k' < t0 := lt_trans h1 (of_decide_eq_true hs.1)
          rw [JFields.sortedInsertKV, if_pos hlt]
      · rw [JFields.eraseKV, if_neg h2]
        rw [show JFields.sortedInsertKV k' x (.cons kh y (t.eraseKV k))
            = .cons k' x (.cons kh y (t.eraseKV k)) from by
          rw [JFields.sortedInsertKV, if_pos h1]]
    · by_cases h2 : k' = kh
      · subst h2
        rw [show JFields.sortedInsertKV k' x (.cons k' y t)
            = .cons k' x t from by
          rw [JFields.sortedInsertKV, if_neg h1, if_pos rfl]]
        rw [JFields.eraseKV, if_neg (fun he => h he.symm)]
        rw [JFields.eraseKV, if_neg (fun he => h he.symm)]
        rw [JFields.sortedInsertKV, if_neg h1, if_pos rfl]
      · rw [show JFields.sortedInsertKV k' x (.cons kh y t)
            = .cons kh y (JFields.sortedInsertKV k' x t) from by
          rw [JFields.sortedInsertKV, if_neg h1, if_neg h2]]
        by_cases h3 : kh = k
        · rw [JFields.eraseKV, if_pos h3, JFields.eraseKV, if_pos h3]
        · rw [JFields.eraseKV, if_neg h3, ih (sortedKeysB_tail kh y t hs)]
          rw [JFields.eraseKV, if_neg h3]
          rw [show JFields.sortedInsertKV k' x (.cons kh y (t.eraseKV k))
              = .cons kh y (JFields.sortedInsertKV k' x (t.eraseKV k)) from by
            rw [JFields.sortedInsertKV, if_neg h1, if_neg h2]]

theorem canonFields_insertKV (fs : JFields) (k : String) (v : JVal) :
    canonFields (fs.insertKV k v)
      = JFields.sortedInsertKV k (canon v) (canonFields fs) := by
  induction fs using JFields.recList with
  | nil => rfl
  | cons k0 v0 rest ih =>
    by_cases h0 : k0 = k
    · subst h0
      rw [JFields.insertKV, if_pos rfl, canonFields, canonFields]
      rw [sortedInsertKV_override]
    · rw [JFields.insertKV, if_neg h0, canonFields, ih, canonFields]
      rw [sortedInsertKV_comm (canonFields rest) k0 k (canon v0) (canon v) h0]

theorem getv_canonFields (fs : JFields) (k : String) :
    (canonFields fs).getv k = (fs.getv k).map canon := by
  induction fs using JFields.recList with
  | nil => rfl
  | cons k0 v0 rest ih =>
    rw [canonFields, getv_sortedInsertKV, JFields.getv]
    by_cases h0 : k0 = k
    · rw [if_pos h0, if_pos h0]
      rfl
    · rw [if_neg h0, if_neg h0, ih]

theorem canonFields_eraseKV (fs : JFields) (k : String)
    (h : keysNodupB fs = true) :
    canonFields (fs.eraseKV k) = (canonFields fs).eraseKV k := by
  induction fs using JFields.recList with
  | nil => rfl
  | cons k0 v0 rest ih =>
    rw [keysNodupB, Bool.and_eq_true] at h
    by_cases h0 : k0 = k
    · subst h0
      rw [JFields.eraseKV, if_pos rfl, canonFields]
      rw [eraseKV_sortedInsertKV_absent (canonFields rest) k0 (canon v0) ?_]
      rw [getv_canonFields, Option.isNone_iff_eq_none.mp h.1]
      rfl
    · rw [JFields.eraseKV, if_neg h0, canonFields, canonFields, ih h.2]
      rw [eraseKV_sortedInsertKV_ne (canonFields rest) k k0 (canon v0)
        (sortedKeysB_canonFields rest) (fun he => h0 he.symm)]

theorem segIndep_symm (a b : List String) (h : segIndep a b = true) :
    segIndep b a = true := by
  rw [segIndep, Bool.and_eq_true] at h ⊢
  exact ⟨h.2, h.1⟩

theorem segIndep_cons_same (k : String) (ar br : List String)
    (h : segIndep (k :: ar) (k :: br) = true) :
    ar ≠ [] ∧ br ≠ [] ∧ segIndep ar br = true := by
  rw [segIndep, Bool.and_eq_true] at h
  have h1 : ar.isPrefixOf br = false := by
    have := h.1
    rw [show (k :: ar).isPrefixOf (k :: br) = ar.isPrefixOf br from by
      rw [List.isPrefixOf]; simp] at this
    cases he : ar.isPrefixOf br
    · rfl
    · rw [he] at this; cases this
  have h2 : br.isPrefixOf ar = false := by
    have := h.2
    rw [show (k :: br).isPrefixOf (k :: ar) = br.isPrefixOf ar from by
      rw [List.isPrefixOf]; simp] at this
    cases he : br.isPrefixOf ar
    · rfl
    · rw [he] at this; cases this
  refine ⟨?_, ?_, ?_⟩
  · intro he; subst he; cases br <;> simp [List.isPrefixOf] at h1
  · intro he; subst he; cases ar <;> simp [List.isPrefixOf] at h2
  · rw [segIndep, Bool.and_eq_true, h1, h2]
    exact ⟨rfl, rfl⟩

theorem goodPathB_nilObj (k : String) (rest : List String) :
    goodPathB (.obj .nil) k rest = true := by
  cases rest <;> rfl

theorem walkUniqB_nilObj (k : String) (rest : List String) :
    walkUniqB (.obj .nil) k rest = true := by
  cases rest <;> rfl

theorem applySegs_del (t : JVal) (k : String) (rest : List String) :
    applySegs t k rest .null = delPathSegs t k rest := by
  rw [applySegs, if_pos rfl]

theorem applySegs_set (t : JVal) (k : String) (rest : List String) (v : JVal)
    (h : v ≠ .null) : applySegs t k rest v = setPathSegs t k rest v := by
  rw [applySegs, if_neg h]

theorem setPathSegs_chain (rest : List String) :
    ∀ (k : String) (v : JVal),
    setPathSegs (.obj .nil) k rest v = .ok (.obj (.cons k (chainTail rest v) .nil)) := by
  induction rest with
  | nil =>
    intro k v
    rw [chainTail]
    rfl
  | cons k1 r ih =>
    intro k v
    rw [show setPathSegs (JVal.obj .nil) k (k1 :: r) v
        = (setPathSegs (.obj .nil) k1 r v).map
            (fun c' => JVal.obj (JFields.insertKV .nil k c')) from by
      rw [setPathSegs]; rfl]
    rw [ih k1 v, chainTail]
    rfl

theorem delPathSegs_chain_noop (ar : List String) :
    ∀ (a1 b1 : String) (br : List String) (bv : JVal),
    segIndep (a1 :: ar) (b1 :: br) = true →
    delPathSegs (.obj (.cons b1 (chainTail br bv) .nil)) a1 ar
      = .ok (.obj (.cons b1 (chainTail br bv) .nil)) := by
  induction ar with
  | nil =>
    intro a1 b1 br bv hind
    have hne : b1 ≠ a1 := by
      intro he
      subst he
      rw [segIndep, Bool.and_eq_true] at hind
      simp [List.isPrefixOf] at hind
    rw [delPathSegs, JFields.eraseKV, if_neg hne]
    rfl
  | cons a2 ar' ih =>
    intro a1 b1 br bv hind
    by_cases hne : b1 = a1
    · subst hne
      obtain ⟨har, hbr, hind'⟩ := segIndep_cons_same b1 (a2 :: ar') br hind
      cases br with
      | nil => exact absurd rfl hbr
      | cons b2 br' =>
        rw [chainTail]
        rw [show delPathSegs
              (.obj (.cons b1 (.obj (.cons b2 (chainTail br' bv) .nil)) .nil))
              b1 (a2 :: ar')
            = (delPathSegs (.obj (.cons b2 (chainTail br' bv) .nil)) a2 ar').map
                (fun c' => JVal.obj
                  ((JFields.cons b1 (.obj (.cons b2 (chainTail br' bv) .nil)) .nil).insertKV
                    b1 c')) from by
          rw [delPathSegs, JFields.getv, if_pos rfl]]
        rw [ih a2 b2 br' bv hind']
        rw [show (Except.ok (JVal.obj (.cons b2 (chainTail br' bv) .nil))).map
              (fun c' => JVal.obj
                ((JFields.cons b1 (.obj (.cons b2 (chainTail br' bv) .nil)) .nil).insertKV
                  b1 c'))
            = .ok (.obj ((JFields.cons b1 (.obj (.cons b2 (chainTail br' bv) .nil))
                .nil).insertKV b1 (.obj (.cons b2 (chainTail br' bv) .nil)))) from rfl]
        rw [JFields.insertKV, if_pos rfl]
    · rw [show delPathSegs (.obj (.cons b1 (chainTail br bv) .nil)) a1 (a2 :: ar')
          = .ok (.obj (.cons b1 (chainTail br bv) .nil)) from by
        rw [delPathSegs, JFields.getv, if_neg hne]
        rfl]

theorem goodPathB_chain (br : List String) :
    ∀ (a1 b1 : String) (ar : List String) (av : JVal),
    segIndep (a1 :: ar) (b1 :: br) = true →
    goodPathB (.obj (.cons a1 (chainTail ar av) .nil)) b1 br = true := by
  induction br with
  | nil => intro a1 b1 ar av _; rfl
  | cons b2 br' ih =>
    intro a1 b1 ar av hind
    by_cases hne : a1 = b1
    · subst hne
      obtain ⟨har, hbr, hind'⟩ := segIndep_cons_same a1 ar (b2 :: br') hind
      cases ar with
      | nil => exact absurd rfl har
      | cons a2 ar'' =>
        rw [chainTail]
        rw [show goodPathB
              (.obj (.cons a1 (.obj (.cons a2 (chainTail ar'' av) .nil)) .nil))
              a1 (b2 :: br')
            = goodPathB (.obj (.cons a2 (chainTail ar'' av) .nil)) b2 br' from by
          simp only [goodPathB, JFields.getv, if_pos rfl, if_true]]
        exact ih a2 b2 ar'' av hind'
    · simp only [goodPathB, JFields.getv, if_neg hne]

theorem walkUniqB_chain (br : List String) :
    ∀ (a1 b1 : String) (ar : List String) (av : JVal),
    segIndep (a1 :: ar) (b1 :: br) = true →
    walkUniqB (.obj (.cons a1 (chainTail ar av) .nil)) b1 br = true := by
  induction br with
  | nil => intro a1 b1 ar av _; rfl
  | cons b2 br' ih =>
    intro a1 b1 ar av hind
    by_cases hne : a1 = b1
    · subst hne
      obtain ⟨har, hbr, hind'⟩ := segIndep_cons_same a1 ar (b2 :: br') hind
      cases ar with
      | nil => exact absurd rfl har
      | cons a2 ar'' =>
        rw [chainTail]
        rw [show walkUniqB
              (.obj (.cons a1 (.obj (.cons a2 (chainTail ar'' av) .nil)) .nil))
              a1 (b2 :: br')
            = walkUniqB (.obj (.cons a2 (chainTail ar'' av) .nil)) b2 br' from by
          simp only [walkUniqB, JFields.getv, if_pos rfl, if_true, keysNodupB,
            Option.isNone, Bool.true_and]]
        exact ih a2 b2 ar'' av hind'
    · simp only [walkUniqB, JFields.getv, if_neg hne, keysNodupB, Option.isNone,
        Bool.and_true, Bool.true_and]

theorem applySegs_ok (rest : List String) :
    ∀ (t : JVal) (k : String) (v : JVal), goodPathB t k rest = true →
    ∃ gs, applySegs t k rest v = .ok (.obj gs) := by
  induction rest with
  | nil =>
    intro t k v hg
    cases t with
    | obj fs =>
      by_cases hv : v = .null
      · subst hv
        exact ⟨fs.eraseKV k, by rw [applySegs_del]; rfl⟩
      · exact ⟨fs.insertKV k v, by rw [applySegs_set _ _ _ _ hv]; rfl⟩
    | str s => cases hg
    | num n => cases hg
    | bool b => cases hg
    | null => cases hg
    | arr xs => cases hg
  | cons k1 r ih =>
    intro t k v hg
    cases t with
    | obj fs =>
      cases hgv : fs.getv k with
      | none =>
        by_cases hv : v = .null
        · subst hv
          refine ⟨fs, ?_⟩
          rw [applySegs_del]
          simp only [delPathSegs, hgv]
        · refine ⟨fs.insertKV k (.obj (.cons k1 (chainTail r v) .nil)), ?_⟩
          rw [applySegs_set _ _ _ _ hv]
          rw [show setPathSegs (JVal.obj fs) k (k1 :: r) v
              = (setPathSegs (.obj .nil) k1 r v).map
                  (fun c' => JVal.obj (fs.insertKV k c')) from by
            rw [setPathSegs, hgv]]
          rw [setPathSegs_chain r k1 v]
          rfl
      | some c =>
        have hgc : goodPathB c k1 r = true := by
          simp only [goodPathB, hgv] at hg
          exact hg
        obtain ⟨gs', hsub⟩ := ih c k1 v hgc
        by_cases hv : v = .null
        · subst hv
          rw [applySegs_del] at hsub
          refine ⟨fs.insertKV k (.obj gs'), ?_⟩
          rw [applySegs_del]
          simp only [delPathSegs, hgv, hsub]
          rfl
        · rw [applySegs_set _ _ _ _ hv] at hsub
          refine ⟨fs.insertKV k (.obj gs'), ?_⟩
          rw [applySegs_set _ _ _ _ hv]
          rw [show setPathSegs (JVal.obj fs) k (k1 :: r) v
              = (setPathSegs c k1 r v).map
                  (fun c' => JVal.obj (fs.insertKV k c')) from by
            rw [setPathSegs, hgv]]
          rw [hsub]
          rfl
    | str s => cases hg
    | num n => cases hg
    | bool b => cases hg
    | null => cases hg
    | arr xs => cases hg

theorem applySegs_top (fs : JFields) (k : String) (rest : List String) (v : JVal)
    (hg : goodPathB (.obj fs) k rest = true) :
    (v = .null ∧ rest = [] ∧ ∀ fs2 : JFields,
        applySegs (.obj fs2) k rest v = .ok (.obj (fs2.eraseKV k)))
    ∨ (v = .null ∧ rest ≠ [] ∧ fs.getv k = none ∧ ∀ fs2 : JFields,
        fs2.getv k = none → applySegs (.obj fs2) k rest v = .ok (.obj fs2))
    ∨ (∃ c, ∀ fs2 : JFields, fs2.getv k = fs.getv k →
        applySegs (.obj fs2) k rest v = .ok (.obj (fs2.insertKV k c))) := by
  cases rest with
  | nil =>
    by_cases hv : v = .null
    · subst hv
      exact Or.inl ⟨rfl, rfl, fun fs2 => by rw [applySegs_del]; rfl⟩
    · refine Or.inr (Or.inr ⟨v, fun fs2 _ => ?_⟩)
      rw [applySegs_set _ _ _ _ hv]
      rfl
  | cons k1 r =>
    cases hgv : fs.getv k with
    | none =>
      by_cases hv : v = .null
      · subst hv
        refine Or.inr (Or.inl ⟨rfl, by simp, rfl, fun fs2 h2 => ?_⟩)
        rw [applySegs_del]
        simp only [delPathSegs, h2]
      · refine Or.inr (Or.inr ⟨.obj (.cons k1 (chainTail r v) .nil), fun fs2 h2 => ?_⟩)
        rw [applySegs_set _ _ _ _ hv]
        rw [show setPathSegs (JVal.obj fs2) k (k1 :: r) v
            = (setPathSegs (.obj .nil) k1 r v).map
                (fun c' => JVal.obj (fs2.insertKV k c')) from by
          rw [setPathSegs, h2]]
        rw [setPathSegs_chain r k1 v]
        rfl
    | some c0 =>
      have hgc : goodPathB c0 k1 r = true := by
        simp only [goodPathB, hgv] at hg
        exact hg
      obtain ⟨gs', hsub⟩ := applySegs_ok r c0 k1 v hgc
      refine Or.inr (Or.inr ⟨.obj gs', fun fs2 h2 => ?_⟩)
      by_cases hv : v = .null
      · subst hv
        rw [applySegs_del] at hsub ⊢
        rw [show delPathSegs (JVal.obj fs2) k (k1 :: r)
            = (delPathSegs c0 k1 r).map (fun c' => JVal.obj (fs2.insertKV k c')) from by
          rw [delPathSegs, h2]]
        rw [hsub]
        rfl
      · rw [applySegs_set _ _ _ _ hv] at hsub ⊢
        rw [show setPathSegs (JVal.obj fs2) k (k1 :: r) v
            = (setPathSegs c0 k1 r v).map (fun c' => JVal.obj (fs2.insertKV k c')) from by
          rw [setPathSegs, h2]]
        rw [hsub]
        rfl

theorem applySegs_comm_ne (fs : JFields) (ak bk : String) (ar br : List String)
    (av bv : JVal) (hne : ak ≠ bk)
    (hga : goodPathB (.obj fs) ak ar = true)
    (hgb : goodPathB (.obj fs) bk br = true) :
    ∃ t1 t2 t1' t2',
      applySegs (.obj fs) ak ar av = .ok t1 ∧ applySegs t1 bk br bv = .ok t2 ∧
      applySegs (.obj fs) bk br bv = .ok t1' ∧ applySegs t1' ak ar av = .ok t2' ∧
      canon t2 = canon t2' := by
  rcases applySegs_top fs ak ar av hga with ⟨hva, hra, Fa⟩ | ⟨hva, hra, hgva, Fa⟩ | ⟨ca, Fa⟩ <;>
    rcases applySegs_top fs bk br bv hgb with ⟨hvb, hrb, Fb⟩ | ⟨hvb, hrb, hgvb, Fb⟩ | ⟨cb, Fb⟩
  · -- erase / erase
    refine ⟨_, _, _, _, Fa fs, Fb (fs.eraseKV ak), Fb fs, Fa (fs.eraseKV bk), ?_⟩
    rw [JFields.eraseKV_eraseKV_comm fs ak bk hne]
  · -- erase / noop
    refine ⟨_, _, _, _, Fa fs,
      Fb (fs.eraseKV ak) (by rw [JFields.getv_eraseKV_ne fs ak bk hne, hgvb]),
      Fb fs hgvb, Fa fs, ?_⟩
    rfl
  · -- erase / insert
    refine ⟨_, _, _, _, Fa fs,
      Fb (fs.eraseKV ak) (by rw [JFields.getv_eraseKV_ne fs ak bk hne]),
      Fb fs rfl, Fa (fs.insertKV bk cb), ?_⟩
    rw [JFields.insertKV_eraseKV_comm fs bk ak cb (fun he => hne he.symm)]
  · -- noop / erase
    refine ⟨_, _, _, _, Fa fs hgva, Fb fs,
      Fb fs, Fa (fs.eraseKV bk) (by rw [JFields.getv_eraseKV_ne fs bk ak
        (fun he => hne he.symm), hgva]), ?_⟩
    rfl
  · -- noop / noop
    exact ⟨_, _, _, _, Fa fs hgva, Fb fs hgvb, Fb fs hgvb, Fa fs hgva, rfl⟩
  · -- noop / insert
    refine ⟨_, _, _, _, Fa fs hgva, Fb fs rfl, Fb fs rfl,
      Fa (fs.insertKV bk cb) (by rw [JFields.getv_insertKV_ne fs bk ak cb
        (fun he => hne he.symm), hgva]), ?_⟩
    rfl
  · -- insert / erase
    refine ⟨_, _, _, _, Fa fs rfl,
      Fb (fs.insertKV ak ca), Fb fs,
      Fa (fs.eraseKV bk) (by rw [JFields.getv_eraseKV_ne fs bk ak
        (fun he => hne he.symm)]), ?_⟩
    rw [JFields.insertKV_eraseKV_comm fs ak bk ca hne]
  · -- insert / noop
    refine ⟨_, _, _, _, Fa fs rfl,
      Fb (fs.insertKV ak ca) (by rw [JFields.getv_insertKV_ne fs ak bk ca hne, hgvb]),
      Fb fs hgvb, Fa fs rfl, ?_⟩
    rfl
  · -- insert / insert
    refine ⟨_, _, _, _, Fa fs rfl,
      Fb (fs.insertKV ak ca) (by rw [JFields.getv_insertKV_ne fs ak bk ca hne]),
      Fb fs rfl,
      Fa (fs.insertKV bk cb) (by rw [JFields.getv_insertKV_ne fs bk ak cb
        (fun he => hne he.symm)]), ?_⟩
    rw [canon, canon]
    rw [canonFields_insertKV, canonFields_insertKV, canonFields_insertKV,
      canonFields_insertKV]
    rw [sortedInsertKV_comm (canonFields fs) bk ak (canon cb) (canon ca)
      (fun he => hne he.symm)]

theorem applySegs_dive (g : JFields) (k k1 : String) (r : List String) (v c : JVal)
    (h : g.getv k = some c) :
    applySegs (.obj g) k (k1 :: r) v
      = (applySegs c k1 r v).map (fun c' => JVal.obj (g.insertKV k c')) := by
  by_cases hv : v = .null
  · subst hv
    rw [applySegs_del, applySegs_del, delPathSegs, h]
  · rw [applySegs_set _ _ _ _ hv, applySegs_set _ _ _ _ hv, setPathSegs, h]

theorem applySegs_dive_set_none (g : JFields) (k k1 : String) (r : List String)
    (v : JVal) (h : g.getv k = none) (hv : v ≠ .null) :
    applySegs (.obj g) k (k1 :: r) v
      = (applySegs (.obj .nil) k1 r v).map (fun c' => JVal.obj (g.insertKV k c')) := by
  rw [applySegs_set _ _ _ _ hv, applySegs_set _ _ _ _ hv, setPathSegs, h]

theorem applySegs_del_none (g : JFields) (k k1 : String) (r : List String)
    (h : g.getv k = none) :
    applySegs (.obj g) k (k1 :: r) .null = .ok (.obj g) := by
  rw [applySegs_del]
  simp only [delPathSegs, h]

theorem applySegs_comm (ar : List String) :
    ∀ (t : JVal) (ak bk : String) (br : List String) (av bv : JVal),
    goodPathB t ak ar = true → goodPathB t bk br = true →
    segIndep (ak :: ar) (bk :: br) = true →
    ∃ t1 t2 t1' t2',
      applySegs t ak ar av = .ok t1 ∧ applySegs t1 bk br bv = .ok t2 ∧
      applySegs t bk br bv = .ok t1' ∧ applySegs t1' ak ar av = .ok t2' ∧
      canon t2 = canon t2' := by
  induction ar with
  | nil =>
    intro t ak bk br av bv hga hgb hind
    cases t with
    | obj fs =>
      by_cases heq : ak = bk
      · subst heq
        obtain ⟨har, _, _⟩ := segIndep_cons_same ak [] br hind
        exact absurd rfl har
      · exact applySegs_comm_ne fs ak bk [] br av bv heq hga hgb
    | str s => cases hga
    | num n => cases hga
    | bool b => cases hga
    | null => cases hga
    | arr xs => cases hga
  | cons a1 ar' ih =>
    intro t ak bk br av bv hga hgb hind
    cases t with
    | obj fs =>
      by_cases heq : ak = bk
      · subst heq
        obtain ⟨har, hbr, hind'⟩ := segIndep_cons_same ak (a1 :: ar') br hind
        cases br with
        | nil => exact absurd rfl hbr
        | cons b1 br' =>
          cases hgv : fs.getv ak with
          | some c =>
            have hgac : goodPathB c a1 ar' = true := by
              simp only [goodPathB, hgv] at hga; exact hga
            have hgbc : goodPathB c b1 br' = true := by
              simp only [goodPathB, hgv] at hgb; exact hgb
            obtain ⟨d1, d2, d1', d2', h1, h2, h3, h4, hcan⟩ :=
              ih c a1 b1 br' av bv hgac hgbc hind'
            refine ⟨.obj (fs.insertKV ak d1), .obj (fs.insertKV ak d2),
              .obj (fs.insertKV ak d1'), .obj (fs.insertKV ak d2'),
              ?_, ?_, ?_, ?_, ?_⟩
            · rw [applySegs_dive fs ak a1 ar' av c hgv, h1]
              rfl
            · rw [applySegs_dive (fs.insertKV ak d1) ak b1 br' bv d1
                (JFields.getv_insertKV_self fs ak d1), h2]
              rw [show (Except.ok d2).map
                    (fun c' => JVal.obj ((fs.insertKV ak d1).insertKV ak c'))
                  = Except.ok (JVal.obj ((fs.insertKV ak d1).insertKV ak d2)) from rfl]
              rw [JFields.insertKV_insertKV_same]
            · rw [applySegs_dive fs ak b1 br' bv c hgv, h3]
              rfl
            · rw [applySegs_dive (fs.insertKV ak d1') ak a1 ar' av d1'
                (JFields.getv_insertKV_self fs ak d1'), h4]
              rw [show (Except.ok d2').map
                    (fun c' => JVal.obj ((fs.insertKV ak d1').insertKV ak c'))
                  = Except.ok (JVal.obj ((fs.insertKV ak d1').insertKV ak d2')) from rfl]
              rw [JFields.insertKV_insertKV_same]
            · rw [canon, canon, canonFields_insertKV, canonFields_insertKV, hcan]
          | none =>
            by_cases hav : av = .null
            · by_cases hbv : bv = .null
              · subst hav
                subst hbv
                refine ⟨.obj fs, .obj fs, .obj fs, .obj fs, ?_, ?_, ?_, ?_, rfl⟩
                · exact applySegs_del_none fs ak a1 ar' hgv
                · exact applySegs_del_none fs ak b1 br' hgv
                · exact applySegs_del_none fs ak b1 br' hgv
                · exact applySegs_del_none fs ak a1 ar' hgv
              · subst hav
                refine ⟨.obj fs,
                  .obj (fs.insertKV ak (.obj (.cons b1 (chainTail br' bv) .nil))),
                  .obj (fs.insertKV ak (.obj (.cons b1 (chainTail br' bv) .nil))),
                  .obj (fs.insertKV ak (.obj (.cons b1 (chainTail br' bv) .nil))),
                  ?_, ?_, ?_, ?_, rfl⟩
                · exact applySegs_del_none fs ak a1 ar' hgv
                · rw [applySegs_dive_set_none fs ak b1 br' bv hgv hbv]
                  rw [applySegs_set _ _ _ _ hbv, setPathSegs_chain br' b1 bv]
                  rfl
                · rw [applySegs_dive_set_none fs ak b1 br' bv hgv hbv]
                  rw [applySegs_set _ _ _ _ hbv, setPathSegs_chain br' b1 bv]
                  rfl
                · rw [applySegs_dive
                    (fs.insertKV ak (.obj (.cons b1 (chainTail br' bv) .nil)))
                    ak a1 ar' .null (.obj (.cons b1 (chainTail br' bv) .nil))
                    (JFields.getv_insertKV_self fs ak _)]
                  rw [applySegs_del, delPathSegs_chain_noop ar' a1 b1 br' bv hind']
                  rw [show (Except.ok (JVal.obj (.cons b1 (chainTail br' bv) .nil))).map
                        (fun c' => JVal.obj
                          ((fs.insertKV ak
                            (.obj (.cons b1 (chainTail br' bv) .nil))).insertKV ak c'))
                      = Except.ok (JVal.obj
                          ((fs.insertKV ak
                            (.obj (.cons b1 (chainTail br' bv)
                              .nil))).insertKV ak
                            (.obj (.cons b1 (chainTail br' bv) .nil)))) from rfl]
                  rw [JFields.insertKV_insertKV_same]
            · by_cases hbv : bv = .null
              · subst hbv
                refine ⟨.obj (fs.insertKV ak (.obj (.cons a1 (chainTail ar' av) .nil))),
                  .obj (fs.insertKV ak (.obj (.cons a1 (chainTail ar' av) .nil))),
                  .obj fs,
                  .obj (fs.insertKV ak (.obj (.cons a1 (chainTail ar' av) .nil))),
                  ?_, ?_, ?_, ?_, rfl⟩
                · rw [applySegs_dive_set_none fs ak a1 ar' av hgv hav]
                  rw [applySegs_set _ _ _ _ hav, setPathSegs_chain ar' a1 av]
                  rfl
                · rw [applySegs_dive
                    (fs.insertKV ak (.obj (.cons a1 (chainTail ar' av) .nil)))
                    ak b1 br' .null (.obj (.cons a1 (chainTail ar' av) .nil))
                    (JFields.getv_insertKV_self fs ak _)]
                  rw [applySegs_del, delPathSegs_chain_noop br' b1 a1 ar' av
                    (segIndep_symm _ _ hind')]
                  rw [show (Except.ok (JVal.obj (.cons a1 (chainTail ar' av) .nil))).map
                        (fun c' => JVal.obj
                          ((fs.insertKV ak
                            (.obj (.cons a1 (chainTail ar' av) .nil))).insertKV ak c'))
                      = Except.ok (JVal.obj
                          ((fs.insertKV ak
                            (.obj (.cons a1 (chainTail ar' av)
                              .nil))).insertKV ak
                            (.obj (.cons a1 (chainTail ar' av) .nil)))) from rfl]
                  rw [JFields.insertKV_insertKV_same]
                · exact applySegs_del_none fs ak b1 br' hgv
                · rw [applySegs_dive_set_none fs ak a1 ar' av hgv hav]
                  rw [applySegs_set _ _ _ _ hav, setPathSegs_chain ar' a1 av]
                  rfl
              · obtain ⟨d1, d2, d1', d2', h1, h2, h3, h4, hcan⟩ :=
                  ih (.obj .nil) a1 b1 br' av bv (goodPathB_nilObj a1 ar')
                    (goodPathB_nilObj b1 br') hind'
                refine ⟨.obj (fs.insertKV ak d1), .obj (fs.insertKV ak d2),
                  .obj (fs.insertKV ak d1'), .obj (fs.insertKV ak d2'),
                  ?_, ?_, ?_, ?_, ?_⟩
                · rw [applySegs_dive_set_none fs ak a1 ar' av hgv hav, h1]
                  rfl
                · rw [applySegs_dive (fs.insertKV ak d1) ak b1 br' bv d1
                    (JFields.getv_insertKV_self fs ak d1), h2]
                  rw [show (Except.ok d2).map
                        (fun c' => JVal.obj ((fs.insertKV ak d1).insertKV ak c'))
                      = Except.ok (JVal.obj
                          ((fs.insertKV ak d1).insertKV ak d2)) from rfl]
                  rw [JFields.insertKV_insertKV_same]
                · rw [applySegs_dive_set_none fs ak b1 br' bv hgv hbv, h3]
                  rfl
                · rw [applySegs_dive (fs.insertKV ak d1') ak a1 ar' av d1'
                    (JFields.getv_insertKV_self fs ak d1'), h4]
                  rw [show (Except.ok d2').map
                        (fun c' => JVal.obj ((fs.insertKV ak d1').insertKV ak c'))
                      = Except.ok (JVal.obj
                          ((fs.insertKV ak d1').insertKV ak d2')) from rfl]
                  rw [JFields.insertKV_insertKV_same]
                · rw [canon, canon, canonFields_insertKV, canonFields_insertKV, hcan]
      · exact applySegs_comm_ne fs ak bk (a1 :: ar') br av bv heq hga hgb
    | str s => cases hga
    | num n => cases hga
    | bool b => cases hga
    | null => cases hga
    | arr xs => cases hga

theorem applySegs_effect (fs : JFields) (k : String) (rest : List String) (v : JVal)
    (t1 : JVal) (h : applySegs (.obj fs) k rest v = .ok t1) :
    ∃ fs1, t1 = .obj fs1 ∧
      ((∃ c, fs1 = fs.insertKV k c) ∨ fs1 = fs.eraseKV k ∨ fs1 = fs) := by
  cases rest with
  | nil =>
    by_cases hv : v = .null
    · subst hv
      rw [applySegs_del, delPathSegs] at h
      injection h with h
      exact ⟨fs.eraseKV k, h.symm, Or.inr (Or.inl rfl)⟩
    · rw [applySegs_set _ _ _ _ hv, setPathSegs] at h
      injection h with h
      exact ⟨fs.insertKV k v, h.symm, Or.inl ⟨v, rfl⟩⟩
  | cons k1 r =>
    cases hgv : fs.getv k with
    | none =>
      by_cases hv : v = .null
      · subst hv
        rw [applySegs_del_none fs k k1 r hgv] at h
        injection h with h
        exact ⟨fs, h.symm, Or.inr (Or.inr rfl)⟩
      · rw [applySegs_dive_set_none fs k k1 r v hgv hv] at h
        cases hsub : applySegs (.obj .nil) k1 r v with
        | error e =>
          rw [hsub] at h
          exact Except.noConfusion h
        | ok d =>
          rw [hsub] at h
          simp only [Except.map] at h
          injection h with h
          exact ⟨fs.insertKV k d, h.symm, Or.inl ⟨d, rfl⟩⟩
    | some c =>
      rw [applySegs_dive fs k k1 r v c hgv] at h
      cases hsub : applySegs c k1 r v with
      | error e =>
        rw [hsub] at h
        exact Except.noConfusion h
      | ok d =>
        rw [hsub] at h
        simp only [Except.map] at h
        injection h with h
        exact ⟨fs.insertKV k d, h.symm, Or.inl ⟨d, rfl⟩⟩

theorem applySegs_dive_inv (fs : JFields) (k k1 : String) (r : List String)
    (v c : JVal) (t1 : JVal) (hgv : fs.getv k = some c)
    (h : applySegs (.obj fs) k (k1 :: r) v = .ok t1) :
    ∃ d, applySegs c k1 r v = .ok d ∧ t1 = .obj (fs.insertKV k d) := by
  rw [applySegs_dive fs k k1 r v c hgv] at h
  cases hsub : applySegs c k1 r v with
  | error e =>
    rw [hsub] at h
    exact Except.noConfusion h
  | ok d =>
    rw [hsub] at h
    simp only [Except.map] at h
    injection h with h
    exact ⟨d, rfl, h.symm⟩

theorem goodPathB_applySegs (ar : List String) :
    ∀ (t t1 : JVal) (ak bk : String) (br : List String) (av : JVal),
    applySegs t ak ar av = .ok t1 →
    goodPathB t bk br = true →
    segIndep (ak :: ar) (bk :: br) = true →
    goodPathB t1 bk br = true := by
  induction ar with
  | nil =>
    intro t t1 ak bk br av h hgb hind
    cases t with
    | obj fs =>
      obtain ⟨fs1, ht1, heff⟩ := applySegs_effect fs ak [] av t1 h
      subst ht1
      have heq : ak ≠ bk := by
        intro he
        subst he
        rw [segIndep, Bool.and_eq_true] at hind
        simp [List.isPrefixOf] at hind
      have hgv : fs1.getv bk = fs.getv bk := by
        rcases heff with ⟨c, hc⟩ | hc | hc
        · rw [hc, JFields.getv_insertKV_ne fs ak bk c heq]
        · rw [hc, JFields.getv_eraseKV_ne fs ak bk heq]
        · rw [hc]
      cases br with
      | nil => rfl
      | cons b1 br1 =>
        simp only [goodPathB, hgv]
        simp only [goodPathB] at hgb
        exact hgb
    | str s => cases br <;> cases hgb
    | num n => cases br <;> cases hgb
    | bool b => cases br <;> cases hgb
    | null => cases br <;> cases hgb
    | arr xs => cases br <;> cases hgb
  | cons a1 ar' ih =>
    intro t t1 ak bk br av h hgb hind
    cases t with
    | obj fs =>
      by_cases heq : ak = bk
      · subst heq
        obtain ⟨har, hbr, hind'⟩ := segIndep_cons_same ak (a1 :: ar') br hind
        cases br with
        | nil => exact absurd rfl hbr
        | cons b1 br' =>
          cases hgv : fs.getv ak with
          | some c =>
            obtain ⟨d, hsub, ht1⟩ := applySegs_dive_inv fs ak a1 ar' av c t1 hgv h
            subst ht1
            have hgbc : goodPathB c b1 br' = true := by
              simp only [goodPathB, hgv] at hgb
              exact hgb
            simp only [goodPathB, JFields.getv_insertKV_self]
            exact ih c d a1 b1 br' av hsub hgbc hind'
          | none =>
            by_cases hav : av = .null
            · subst hav
              rw [applySegs_del_none fs ak a1 ar' hgv] at h
              injection h with h
              subst h
              exact hgb
            · rw [applySegs_dive_set_none fs ak a1 ar' av hgv hav,
                applySegs_set _ _ _ _ hav, setPathSegs_chain ar' a1 av] at h
              simp only [Except.map] at h
              injection h with h
              subst h
              simp only [goodPathB, JFields.getv_insertKV_self]
              exact goodPathB_chain br' a1 b1 ar' av hind'
      · obtain ⟨fs1, ht1, heff⟩ := applySegs_effect fs ak (a1 :: ar') av t1 h
        subst ht1
        have hgv : fs1.getv bk = fs.getv bk := by
          rcases heff with ⟨c, hc⟩ | hc | hc
          · rw [hc, JFields.getv_insertKV_ne fs ak bk c heq]
          · rw [hc, JFields.getv_eraseKV_ne fs ak bk heq]
          · rw [hc]
        cases br with
        | nil => rfl
        | cons b1 br1 =>
          simp only [goodPathB, hgv]
          simp only [goodPathB] at hgb
          exact hgb
    | str s => cases br <;> cases hgb
    | num n => cases br <;> cases hgb
    | bool b => cases br <;> cases hgb
    | null => cases br <;> cases hgb
    | arr xs => cases br <;> cases hgb

theorem walkUniqB_applySegs (ar : List String) :
    ∀ (t t1 : JVal) (ak bk : String) (br : List String) (av : JVal),
    applySegs t ak ar av = .ok t1 →
    goodPathB t ak ar = true →
    walkUniqB t bk br = true →
    segIndep (ak :: ar) (bk :: br) = true →
    walkUniqB t1 bk br = true := by
  induction ar with
  | nil =>
    intro t t1 ak bk br av h hga hwb hind
    cases t with
    | obj fs =>
      obtain ⟨fs1, ht1, heff⟩ := applySegs_effect fs ak [] av t1 h
      subst ht1
      have heq : ak ≠ bk := by
        intro he
        subst he
        rw [segIndep, Bool.and_eq_true] at hind
        simp [List.isPrefixOf] at hind
      have hgv : fs1.getv bk = fs.getv bk := by
        rcases heff with ⟨c, hc⟩ | hc | hc
        · rw [hc, JFields.getv_insertKV_ne fs ak bk c heq]
        · rw [hc, JFields.getv_eraseKV_ne fs ak bk heq]
        · rw [hc]
      cases br with
      | nil =>
        simp only [walkUniqB] at hwb ⊢
        rcases heff with ⟨c, hc⟩ | hc | hc
        · rw [hc]; exact keysNodupB_insertKV fs ak c hwb
        · rw [hc]; exact keysNodupB_eraseKV fs ak hwb
        · rw [hc]; exact hwb
      | cons b1 br1 =>
        simp only [walkUniqB, Bool.and_eq_true] at hwb ⊢
        refine ⟨?_, ?_⟩
        · rcases heff with ⟨c, hc⟩ | hc | hc
          · rw [hc]; exact keysNodupB_insertKV fs ak c hwb.1
          · rw [hc]; exact keysNodupB_eraseKV fs ak hwb.1
          · rw [hc]; exact hwb.1
        · rw [hgv]
          exact hwb.2
    | str s => cases hga
    | num n => cases hga
    | bool b => cases hga
    | null => cases hga
    | arr xs => cases hga
  | cons a1 ar' ih =>
    intro t t1 ak bk br av h hga hwb hind
    cases t with
    | obj fs =>
      by_cases heq : ak = bk
      · subst heq
        obtain ⟨har, hbr, hind'⟩ := segIndep_cons_same ak (a1 :: ar') br hind
        cases br with
        | nil => exact absurd rfl hbr
        | cons b1 br' =>
          simp only [walkUniqB, Bool.and_eq_true] at hwb
          cases hgv : fs.getv ak with
          | some c =>
            obtain ⟨d, hsub, ht1⟩ := applySegs_dive_inv fs ak a1 ar' av c t1 hgv h
            subst ht1
            have hga' : goodPathB c a1 ar' = true := by
              simp only [goodPathB, hgv] at hga
              exact hga
            have hwbc : walkUniqB c b1 br' = true := by
              have := hwb.2
              rw [hgv] at this
              exact this
            simp only [walkUniqB, JFields.getv_insertKV_self, Bool.and_eq_true]
            exact ⟨keysNodupB_insertKV fs ak d hwb.1,
              ih c d a1 b1 br' av hsub hga' hwbc hind'⟩
          | none =>
            by_cases hav : av = .null
            · subst hav
              rw [applySegs_del_none fs ak a1 ar' hgv] at h
              injection h with h
              subst h
              simp only [walkUniqB, Bool.and_eq_true]
              exact ⟨hwb.1, by rw [hgv]⟩
            · rw [applySegs_dive_set_none fs ak a1 ar' av hgv hav,
                applySegs_set _ _ _ _ hav, setPathSegs_chain ar' a1 av] at h
              simp only [Except.map] at h
              injection h with h
              subst h
              simp only [walkUniqB, JFields.getv_insertKV_self, Bool.and_eq_true]
              exact ⟨keysNodupB_insertKV fs ak _ hwb.1,
                walkUniqB_chain br' a1 b1 ar' av hind'⟩
      · obtain ⟨fs1, ht1, heff⟩ := applySegs_effect fs ak (a1 :: ar') av t1 h
        subst ht1
        have hgv : fs1.getv bk = fs.getv bk := by
          rcases heff with ⟨c, hc⟩ | hc | hc
          · rw [hc, JFields.getv_insertKV_ne fs ak bk c heq]
          · rw [hc, JFields.getv_eraseKV_ne fs ak bk heq]
          · rw [hc]
        cases br with
        | nil =>
          simp only [walkUniqB] at hwb ⊢
          rcases heff with ⟨c, hc⟩ | hc | hc
          · rw [hc]; exact keysNodupB_insertKV fs ak c hwb
          · rw [hc]; exact keysNodupB_eraseKV fs ak hwb
          · rw [hc]; exact hwb
        | cons b1 br1 =>
          simp only [walkUniqB, Bool.and_eq_true] at hwb ⊢
          refine ⟨?_, ?_⟩
          · rcases heff with ⟨c, hc⟩ | hc | hc
            · rw [hc]; exact keysNodupB_insertKV fs ak c hwb.1
            · rw [hc]; exact keysNodupB_eraseKV fs ak hwb.1
            · rw [hc]; exact hwb.1
          · rw [hgv]
            exact hwb.2
    | str s => cases ar' <;> cases hga
    | num n => cases ar' <;> cases hga
    | bool b => cases ar' <;> cases hga
    | null => cases ar' <;> cases hga
    | arr xs => cases ar' <;> cases hga

theorem canon_obj_inv (t : JVal) (g : JFields) (h : canon t = .obj g) :
    ∃ fs, t = .obj fs ∧ canonFields fs = g := by
  cases t with
  | obj fs =>
    rw [canon] at h
    injection h with h
    exact ⟨fs, rfl, h⟩
  | str s => exact JVal.noConfusion h
  | num n => exact JVal.noConfusion h
  | bool b => exact JVal.noConfusion h
  | null => exact JVal.noConfusion h
  | arr xs => exact JVal.noConfusion h

theorem canon_str_inv (t : JVal) (s : String) (h : canon t = .str s) :
    t = .str s := by
  cases t with
  | str s' => exact h
  | obj fs => rw [canon] at h; exact JVal.noConfusion h
  | arr xs => rw [canon] at h; exact JVal.noConfusion h
  | num n => exact h
  | bool b => exact h
  | null => exact h

theorem canon_num_inv (t : JVal) (n : Int) (h : canon t = .num n) : t = .num n := by
  cases t with
  | num n' => exact h
  | obj fs => rw [canon] at h; exact JVal.noConfusion h
  | arr xs => rw [canon] at h; exact JVal.noConfusion h
  | str s => exact h
  | bool b => exact h
  | null => exact h

theorem canon_bool_inv (t : JVal) (b : Bool) (h : canon t = .bool b) : t = .bool b := by
  cases t with
  | bool b' => exact h
  | obj fs => rw [canon] at h; exact JVal.noConfusion h
  | arr xs => rw [canon] at h; exact JVal.noConfusion h
  | str s => exact h
  | num n => exact h
  | null => exact h

theorem canon_null_inv (t : JVal) (h : canon t = .null) : t = .null := by
  cases t with
  | null => rfl
  | obj fs => rw [canon] at h; exact JVal.noConfusion h
  | arr xs => rw [canon] at h; exact JVal.noConfusion h
  | str s => exact h
  | num n => exact h
  | bool b => exact h

theorem canon_arr_inv (t : JVal) (ys : JArr) (h : canon t = .arr ys) :
    ∃ xs, t = .arr xs ∧ canonArr xs = ys := by
  cases t with
  | arr xs =>
    rw [canon] at h
    injection h with h
    exact ⟨xs, rfl, h⟩
  | obj fs => rw [canon] at h; exact JVal.noConfusion h
  | str s => exact JVal.noConfusion h
  | num n => exact JVal.noConfusion h
  | bool b => exact JVal.noConfusion h
  | null => exact JVal.noConfusion h

theorem applySegs_canon_congr (rest : List String) :
    ∀ (t t' : JVal) (k : String) (v r r' : JVal),
    canon t = canon t' →
    walkUniqB t k rest = true → walkUniqB t' k rest = true →
    applySegs t k rest v = .ok r → applySegs t' k rest v = .ok r' →
    canon r = canon r' := by
  induction rest with
  | nil =>
    intro t t' k v r r' hc hw1 hw2 h h'
    cases t with
    | obj fs =>
      obtain ⟨fs', ht', hcf⟩ := canon_obj_inv t' (canonFields fs) hc.symm
      subst ht'
      simp only [walkUniqB] at hw1 hw2
      by_cases hv : v = .null
      · subst hv
        rw [applySegs_del, delPathSegs] at h h'
        injection h with h
        injection h' with h'
        subst h
        subst h'
        rw [canon, canon, canonFields_eraseKV fs k hw1,
          canonFields_eraseKV fs' k hw2, hcf]
      · rw [applySegs_set _ _ _ _ hv, setPathSegs] at h h'
        injection h with h
        injection h' with h'
        subst h
        subst h'
        rw [canon, canon, canonFields_insertKV, canonFields_insertKV, hcf]
    | str s =>
      have ht' := canon_str_inv t' s hc.symm
      subst ht'
      by_cases hv : v = .null
      · subst hv
        rw [applySegs_del] at h h'
        injection h with h
        injection h' with h'
        subst h
        subst h'
        rfl
      · rw [applySegs_set _ _ _ _ hv] at h
        exact Except.noConfusion h
    | num n =>
      have ht' := canon_num_inv t' n hc.symm
      subst ht'
      by_cases hv : v = .null
      · subst hv
        rw [applySegs_del] at h h'
        injection h with h
        injection h' with h'
        subst h
        subst h'
        rfl
      · rw [applySegs_set _ _ _ _ hv] at h
        exact Except.noConfusion h
    | bool b =>
      have ht' := canon_bool_inv t' b hc.symm
      subst ht'
      by_cases hv : v = .null
      · subst hv
        rw [applySegs_del] at h h'
        injection h with h
        injection h' with h'
        subst h
        subst h'
        rfl
      · rw [applySegs_set _ _ _ _ hv] at h
        exact Except.noConfusion h
    | null =>
      by_cases hv : v = .null
      · subst hv
        rw [applySegs_del] at h
        exact Except.noConfusion h
      · rw [applySegs_set _ _ _ _ hv] at h
        exact Except.noConfusion h
    | arr xs =>
      by_cases hv : v = .null
      · subst hv
        rw [applySegs_del] at h
        exact Except.noConfusion h
      · rw [applySegs_set _ _ _ _ hv] at h
        exact Except.noConfusion h
  | cons k1 r1 ih =>
    intro t t' k v r r' hc hw1 hw2 h h'
    cases t with
    | obj fs =>
      obtain ⟨fs', ht', hcf⟩ := canon_obj_inv t' (canonFields fs) hc.symm
      subst ht'
      have hg : (fs'.getv k).map canon = (fs.getv k).map canon := by
        rw [← getv_canonFields, ← getv_canonFields, hcf]
      simp only [walkUniqB, Bool.and_eq_true] at hw1 hw2
      cases hgv : fs.getv k with
      | some c =>
        cases hgv' : fs'.getv k with
        | none =>
          rw [hgv, hgv'] at hg
          exact Option.noConfusion hg
        | some c' =>
          rw [hgv, hgv'] at hg
          injection hg with hg
          obtain ⟨d, hsub, hr⟩ := applySegs_dive_inv fs k k1 r1 v c r hgv h
          obtain ⟨d', hsub', hr'⟩ := applySegs_dive_inv fs' k k1 r1 v c' r' hgv' h'
          subst hr
          subst hr'
          have hwc : walkUniqB c k1 r1 = true := by
            have := hw1.2
            rw [hgv] at this
            exact this
          have hwc' : walkUniqB c' k1 r1 = true := by
            have := hw2.2
            rw [hgv'] at this
            exact this
          have hdd := ih c c' k1 v d d' hg.symm hwc hwc' hsub hsub'
          rw [canon, canon, canonFields_insertKV, canonFields_insertKV, hcf, hdd]
      | none =>
        cases hgv' : fs'.getv k with
        | some c' =>
          rw [hgv, hgv'] at hg
          exact Option.noConfusion hg
        | none =>
          by_cases hv : v = .null
          · subst hv
            rw [applySegs_del_none fs k k1 r1 hgv] at h
            rw [applySegs_del_none fs' k k1 r1 hgv'] at h'
            injection h with h
            injection h' with h'
            subst h
            subst h'
            rw [canon, canon, hcf]
          · rw [applySegs_dive_set_none fs k k1 r1 v hgv hv] at h
            rw [applySegs_dive_set_none fs' k k1 r1 v hgv' hv] at h'
            cases hsub : applySegs (.obj .nil) k1 r1 v with
            | error e =>
              rw [hsub] at h
              exact Except.noConfusion h
            | ok d =>
              rw [hsub] at h h'
              simp only [Except.map] at h h'
              injection h with h
              injection h' with h'
              subst h
              subst h'
              rw [canon, canon, canonFields_insertKV, canonFields_insertKV, hcf]
    | str s =>
      by_cases hv : v = .null
      · subst hv
        rw [applySegs_del] at h
        exact Except.noConfusion h
      · rw [applySegs_set _ _ _ _ hv] at h
        exact Except.noConfusion h
    | num n =>
      by_cases hv : v = .null
      · subst hv
        rw [applySegs_del] at h
        exact Except.noConfusion h
      · rw [applySegs_set _ _ _ _ hv] at h
        exact Except.noConfusion h
    | bool b =>
      by_cases hv : v = .null
      · subst hv
        rw [applySegs_del] at h
        exact Except.noConfusion h
      · rw [applySegs_set _ _ _ _ hv] at h
        exact Except.noConfusion h
    | null =>
      by_cases hv : v = .null
      · subst hv
        rw [applySegs_del] at h
        exact Except.noConfusion h
      · rw [applySegs_set _ _ _ _ hv] at h
        exact Except.noConfusion h
    | arr xs =>
      by_cases hv : v = .null
      · subst hv
        rw [applySegs_del] at h
        exact Except.noConfusion h
      · rw [applySegs_set _ _ _ _ hv] at h
        exact Except.noConfusion h

theorem applyFlatEntry_eq_applySegs (t : JVal) (e : String × JVal) (k : String)
    (rest : List String) (hsplit : jsSplitDot e.1 = k :: rest) :
    applyFlatEntry t e = applySegs t k rest e.2 := by
  rw [applyFlatEntry, applySegs]
  by_cases hv : e.2 = .null
  · rw [if_pos hv, if_pos hv, deleteNestedProperty, hsplit]
  · rw [if_neg hv, if_neg hv, setNestedProperty, hsplit]

theorem foldEntries_canon_congr (es : List (String × JVal)) :
    ∀ (t t' : JVal),
    canon t = canon t' →
    (∀ e ∈ es, entryOkB t e = true) →
    (∀ e ∈ es, entryOkB t' e = true) →
    List.Pairwise (fun e1 e2 => segIndep (jsSplitDot e1.1) (jsSplitDot e2.1) = true) es →
    ∃ r r', foldEntries t es = .ok r ∧ foldEntries t' es = .ok r' ∧
      canon r = canon r' := by
  induction es with
  | nil =>
    intro t t' hc _ _ _
    exact ⟨t, t', rfl, rfl, hc⟩
  | cons e l ihl =>
    intro t t' hc hok hok' hpw
    cases hpw with
    | cons hhead htail =>
      cases hsplit : jsSplitDot e.1 with
      | nil =>
        have he1 := hok e (List.mem_cons_self e l)
        simp only [entryOkB, hsplit] at he1
        exact Bool.noConfusion he1
      | cons k rest =>
        have he1 := hok e (List.mem_cons_self e l)
        have he1' := hok' e (List.mem_cons_self e l)
        simp only [entryOkB, hsplit, Bool.and_eq_true] at he1 he1'
        obtain ⟨g1, ht1⟩ := applySegs_ok rest t k e.2 he1.1
        obtain ⟨g1', ht1'⟩ := applySegs_ok rest t' k e.2 he1'.1
        have hc1 : canon (JVal.obj g1) = canon (JVal.obj g1') :=
          applySegs_canon_congr rest t t' k e.2 (.obj g1) (.obj g1')
            hc he1.2 he1'.2 ht1 ht1'
        have hokl : ∀ e2 ∈ l, entryOkB (.obj g1) e2 = true := by
          intro e2 he2
          have hok2 := hok e2 (List.mem_cons_of_mem e he2)
          have hind := hhead e2 he2
          rw [hsplit] at hind
          cases hs2 : jsSplitDot e2.1 with
          | nil =>
            simp only [entryOkB, hs2] at hok2
            exact Bool.noConfusion hok2
          | cons k2 r2 =>
            rw [hs2] at hind
            simp only [entryOkB, hs2, Bool.and_eq_true] at hok2 ⊢
            exact ⟨goodPathB_applySegs rest t (.obj g1) k k2 r2 e.2 ht1 hok2.1 hind,
              walkUniqB_applySegs rest t (.obj g1) k k2 r2 e.2 ht1 he1.1 hok2.2 hind⟩
        have hokl' : ∀ e2 ∈ l, entryOkB (.obj g1') e2 = true := by
          intro e2 he2
          have hok2 := hok' e2 (List.mem_cons_of_mem e he2)
          have hind := hhead e2 he2
          rw [hsplit] at hind
          cases hs2 : jsSplitDot e2.1 with
          | nil =>
            simp only [entryOkB, hs2] at hok2
            exact Bool.noConfusion hok2
          | cons k2 r2 =>
            rw [hs2] at hind
            simp only [entryOkB, hs2, Bool.and_eq_true] at hok2 ⊢
            exact ⟨goodPathB_applySegs rest t' (.obj g1') k k2 r2 e.2 ht1' hok2.1 hind,
              walkUniqB_applySegs rest t' (.obj g1') k k2 r2 e.2 ht1' he1'.1
                hok2.2 hind⟩
        obtain ⟨r, r', hf, hf', hcr⟩ := ihl (.obj g1) (.obj g1') hc1 hokl hokl' htail
        refine ⟨r, r', ?_, ?_, hcr⟩
        · rw [foldEntries, List.foldlM_cons,
            applyFlatEntry_eq_applySegs t e k rest hsplit, ht1, exceptBindOk]
          exact hf
        · rw [foldEntries, List.foldlM_cons,
            applyFlatEntry_eq_applySegs t' e k rest hsplit, ht1', exceptBindOk]
          exact hf'

theorem foldEntries_perm_canon (es es' : List (String × JVal)) (hperm : es.Perm es') :
    ∀ (t : JVal),
    (∀ e ∈ es, entryOkB t e = true) →
    List.Pairwise (fun e1 e2 => segIndep (jsSplitDot e1.1) (jsSplitDot e2.1) = true) es →
    ∃ r r', foldEntries t es = .ok r ∧ foldEntries t es' = .ok r' ∧
      canon r = canon r' := by
  induction hperm with
  | nil =>
    intro t _ _
    exact ⟨t, t, rfl, rfl, rfl⟩
  | @cons x l1 l2 p ih =>
    intro t hok hpw
    cases hpw with
    | cons hhead htail =>
      cases hsplit : jsSplitDot x.1 with
      | nil =>
        have hx := hok x (List.mem_cons_self x _)
        simp only [entryOkB, hsplit] at hx
        exact Bool.noConfusion hx
      | cons k rest =>
        have hx := hok x (List.mem_cons_self x _)
        simp only [entryOkB, hsplit, Bool.and_eq_true] at hx
        obtain ⟨g1, ht1⟩ := applySegs_ok rest t k x.2 hx.1
        have hokl : ∀ e2 ∈ l1, entryOkB (.obj g1) e2 = true := by
          intro e2 he2
          have hok2 := hok e2 (List.mem_cons_of_mem x he2)
          have hind := hhead e2 he2
          rw [hsplit] at hind
          cases hs2 : jsSplitDot e2.1 with
          | nil =>
            simp only [entryOkB, hs2] at hok2
            exact Bool.noConfusion hok2
          | cons k2 r2 =>
            rw [hs2] at hind
            simp only [entryOkB, hs2, Bool.and_eq_true] at hok2 ⊢
            exact ⟨goodPathB_applySegs rest t (.obj g1) k k2 r2 x.2 ht1 hok2.1 hind,
              walkUniqB_applySegs rest t (.obj g1) k k2 r2 x.2 ht1 hx.1 hok2.2 hind⟩
        obtain ⟨r, r', hf, hf', hcr⟩ := ih (.obj g1) hokl htail
        refine ⟨r, r', ?_, ?_, hcr⟩
        · rw [foldEntries, List.foldlM_cons,
            applyFlatEntry_eq_applySegs t x k rest hsplit, ht1, exceptBindOk]
          exact hf
        · rw [foldEntries, List.foldlM_cons,
            applyFlatEntry_eq_applySegs t x k rest hsplit, ht1, exceptBindOk]
          exact hf'
  | swap x y l =>
    intro t hok hpw
    cases hpw with
    | cons hhy htxl =>
      cases htxl with
      | cons hhx htl =>
        cases hsy : jsSplitDot y.1 with
        | nil =>
          have hy := hok y (List.mem_cons_self y _)
          simp only [entryOkB, hsy] at hy
          exact Bool.noConfusion hy
        | cons ky ry =>
          cases hsx : jsSplitDot x.1 with
          | nil =>
            have hx := hok x (List.mem_cons_of_mem y (List.mem_cons_self x l))
            simp only [entryOkB, hsx] at hx
            exact Bool.noConfusion hx
          | cons kx rx =>
            have hy := hok y (List.mem_cons_self y _)
            simp only [entryOkB, hsy, Bool.and_eq_true] at hy
            have hx := hok x (List.mem_cons_of_mem y (List.mem_cons_self x l))
            simp only [entryOkB, hsx, Bool.and_eq_true] at hx
            have hindyx : segIndep (ky :: ry) (kx :: rx) = true := by
              have := hhy x (List.mem_cons_self x l)
              rw [hsy, hsx] at this
              exact this
            obtain ⟨t1, t2, t1', t2', hy1, hx2, hx1', hy2', hcan⟩ :=
              applySegs_comm ry t ky kx rx y.2 x.2 hy.1 hx.1 hindyx
            have hokt2 : ∀ e2 ∈ l, entryOkB t2 e2 = true := by
              intro e2 he2
              have hok2 := hok e2
                (List.mem_cons_of_mem y (List.mem_cons_of_mem x he2))
              have hindy := hhy e2 (List.mem_cons_of_mem x he2)
              rw [hsy] at hindy
              have hindx := hhx e2 he2
              rw [hsx] at hindx
              cases hs2 : jsSplitDot e2.1 with
              | nil =>
                simp only [entryOkB, hs2] at hok2
                exact Bool.noConfusion hok2
              | cons k2 r2 =>
                rw [hs2] at hindy hindx
                simp only [entryOkB, hs2, Bool.and_eq_true] at hok2 ⊢
                have hg1 := goodPathB_applySegs ry t t1 ky k2 r2 y.2 hy1 hok2.1 hindy
                have hw1 := walkUniqB_applySegs ry t t1 ky k2 r2 y.2 hy1 hy.1
                  hok2.2 hindy
                have hgx1 := goodPathB_applySegs ry t t1 ky kx rx y.2 hy1 hx.1 hindyx
                exact ⟨goodPathB_applySegs rx t1 t2 kx k2 r2 x.2 hx2 hg1 hindx,
                  walkUniqB_applySegs rx t1 t2 kx k2 r2 x.2 hx2 hgx1 hw1 hindx⟩
            have hokt2' : ∀ e2 ∈ l, entryOkB t2' e2 = true := by
              intro e2 he2
              have hok2 := hok e2
                (List.mem_cons_of_mem y (List.mem_cons_of_mem x he2))
              have hindy := hhy e2 (List.mem_cons_of_mem x he2)
              rw [hsy] at hindy
              have hindx := hhx e2 he2
              rw [hsx] at hindx
              cases hs2 : jsSplitDot e2.1 with
              | nil =>
                simp only [entryOkB, hs2] at hok2
                exact Bool.noConfusion hok2
              | cons k2 r2 =>
                rw [hs2] at hindy hindx
                simp only [entryOkB, hs2, Bool.and_eq_true] at hok2 ⊢
                have hg1 := goodPathB_applySegs rx t t1' kx k2 r2 x.2 hx1' hok2.1 hindx
                have hw1 := walkUniqB_applySegs rx t t1' kx k2 r2 x.2 hx1' hx.1
                  hok2.2 hindx
                have hgy1 := goodPathB_applySegs rx t t1' kx ky ry x.2 hx1' hy.1
                  (segIndep_symm _ _ hindyx)
                exact ⟨goodPathB_applySegs ry t1' t2' ky k2 r2 y.2 hy2' hg1 hindy,
                  walkUniqB_applySegs ry t1' t2' ky k2 r2 y.2 hy2' hgy1 hw1 hindy⟩
            obtain ⟨r, r', hf, hf', hcr⟩ :=
              foldEntries_canon_congr l t2 t2' hcan hokt2 hokt2' htl
            refine ⟨r, r', ?_, ?_, hcr⟩
            · rw [foldEntries, List.foldlM_cons,
                applyFlatEntry_eq_applySegs t y ky ry hsy, hy1, exceptBindOk,
                List.foldlM_cons,
                applyFlatEntry_eq_applySegs t1 x kx rx hsx, hx2, exceptBindOk]
              exact hf
            · rw [foldEntries, List.foldlM_cons,
                applyFlatEntry_eq_applySegs t x kx rx hsx, hx1', exceptBindOk,
                List.foldlM_cons,
                applyFlatEntry_eq_applySegs t1' y ky ry hsy, hy2', exceptBindOk]
              exact hf'
  | @trans l1 l2 l3 p1 p2 ih1 ih2 =>
    intro t hok hpw
    obtain ⟨r, rm, hf, hfm, hc1⟩ := ih1 t hok hpw
    have hok2 : ∀ e ∈ l2, entryOkB t e = true :=
      fun e he => hok e (p1.mem_iff.mpr he)
    have hpw2 := (p1.pairwise_iff
      (fun {e1 e2} h12 => segIndep_symm (jsSplitDot e1.1) (jsSplitDot e2.1) h12)).mp hpw
    obtain ⟨rm', r'', hfm', hf'', hc2⟩ := ih2 t hok2 hpw2
    rw [hfm] at hfm'
    injection hfm' with hfm'
    subst hfm'
    exact ⟨r, r'', hf, hf'', hc1.trans hc2⟩

theorem foldMergeChunks_eq_foldEntries (chunks : List JVal) :
    ∀ t, foldMergeChunks t chunks = foldEntries t (allChunkEntries chunks) := by
  induction chunks with
  | nil => intro t; rfl
  | cons c cs ih =>
    intro t
    rw [foldMergeChunks, List.foldlM_cons, allChunkEntries, List.map_cons,
      List.flatten_cons, foldEntries, List.foldlM_append]
    cases hX : (chunkEntries c).foldlM applyFlatEntry t with
    | error e =>
      rw [show mergeContents t (.obj .nil) c
          = (chunkEntries c).foldlM applyFlatEntry t from rfl, hX, exceptBindErr,
        exceptBindErr]
    | ok t' =>
      rw [show mergeContents t (.obj .nil) c
          = (chunkEntries c).foldlM applyFlatEntry t from rfl, hX, exceptBindOk,
        exceptBindOk]
      exact ih t'

/-- C9 amended: merge order-independence under prefix-free paths — for every
starting tree and every list of chunk results whose flat entries all have
applicable dotted keys at the start (each walk meets only objects or absent
keys, with duplicate-free field lists along it) and whose segment paths are
pairwise prefix-independent, folding
`mergeContents(current, {}, chunk)` over the chunks in any permutation
succeeds and yields the same merged tree up to object key ordering. -/
theorem mergeContents_fold_perm_canon (t : JVal) (chunks chunks' : List JVal)
    (hperm : chunks.Perm chunks')
    (hok : ∀ e ∈ allChunkEntries chunks, entryOkB t e = true)
    (hind : List.Pairwise
      (fun e1 e2 => segIndep (jsSplitDot e1.1) (jsSplitDot e2.1) = true)
      (allChunkEntries chunks)) :
    ∃ r r', foldMergeChunks t chunks = .ok r ∧ foldMergeChunks t chunks' = .ok r' ∧
      canon r = canon r' := by
  obtain ⟨r, r', hf, hf', hc⟩ := foldEntries_perm_canon (allChunkEntries chunks)
    (allChunkEntries chunks') ((hperm.map chunkEntries).flatten) t hok hind
  refine ⟨r, r', ?_, ?_, hc⟩
  · rw [foldMergeChunks_eq_foldEntries]
    exact hf
  · rw [foldMergeChunks_eq_foldEntries]
    exact hf'

/-- C9 witness: the chunk results `{"a": {"p": "1"}}` and `{"b": "2"}`
merged into the empty tree in both orders succeed with key-reordered equal
results. -/
theorem mergeContents_fold_perm_canon_witness :
    ∃ r r',
      foldMergeChunks (.obj .nil) [(JVal.obj (JFields.cons "a" (JVal.obj (JFields.cons "p" (JVal.str "1") JFields.nil)) JFields.nil)), (JVal.obj (JFields.cons "b" (JVal.str "2") JFields.nil))] = .ok r ∧
      foldMergeChunks (.obj .nil) [(JVal.obj (JFields.cons "b" (JVal.str "2") JFields.nil)), (JVal.obj (JFields.cons "a" (JVal.obj (JFields.cons "p" (JVal.str "1") JFields.nil)) JFields.nil))] = .ok r' ∧
      canon r = canon r' :=
  mergeContents_fold_perm_canon (.obj .nil) [(JVal.obj (JFields.cons "a" (JVal.obj (JFields.cons "p" (JVal.str "1") JFields.nil)) JFields.nil)), (JVal.obj (JFields.cons "b" (JVal.str "2") JFields.nil))] [(JVal.obj (JFields.cons "b" (JVal.str "2") JFields.nil)), (JVal.obj (JFields.cons "a" (JVal.obj (JFields.cons "p" (JVal.str "1") JFields.nil)) JFields.nil))]
    (List.Perm.swap (JVal.obj (JFields.cons "b" (JVal.str "2") JFields.nil)) (JVal.obj (JFields.cons "a" (JVal.obj (JFields.cons "p" (JVal.str "1") JFields.nil)) JFields.nil)) [])
    (by decide) (by decide)
